import Mathlib

/-!
# Coverage mapping and value profiling data

A shallow embedding of `include/llvm/ProfileData/Coverage/CoverageMapping.h` and of
the value profiling part of `include/llvm/ProfileData/InstrProf.h`.

The first header declares the data model (`Counter`, `CounterExpression`,
`CounterMappingRegion`, `CountedRegion`, `CoverageSegment`, `FunctionRecord`,
`FunctionRecordIterator`, `InstantiationGroup`, `CoverageMapping`) and defines
the small inline members; the bodies of
`CounterExpressionBuilder::get / extractTerms / simplify / add / subtract`,
`CounterMappingContext::evaluate`, the segment builder,
`FunctionRecordIterator::skipOtherFiles`, `CoverageMapping::getUniqueSourceFiles`
and `CoverageMapping::loadFunctionRecord / load` live in a translation unit that
is not part of the sources at hand, so those are modelled from the specification
and marked as such. The second header defines `InstrProfValueSiteRecord` and
`InstrProfRecord` with the bodies of their members.

Conventions.
* `unsigned` identifiers and coordinates are natural numbers. The `int` factor of
  a term is an integer in `[-2 ^ 31, 2 ^ 31)`: the sum of two factors and the
  negation of a factor are reduced into that range (`toInt32`).
* `uint64_t` data (raw counts, execution counts, profiled values) are natural
  numbers below `2 ^ 64`; `int64_t` results are integers in `[-2 ^ 63, 2 ^ 63)`,
  and every arithmetic step on them is reduced explicitly (`toInt64`, `toUInt64`,
  `% 2 ^ 64`).
* Where a header itself keeps a count or a `size_t` in an `unsigned` or a
  `uint32_t`, the reduction modulo `2 ^ 32` is explicit: the counter of
  mismatched functions, the loop bound of `InstantiationGroup::hasName`, and the
  results of `getNumValueSites` and `getNumValueDataForSite`.
* A recursion over expression identifiers carries fuel; `none` stands for a
  computation that does not return (or reads outside the expression vector).
  Elsewhere `none` stands for a failed assertion, `llvm_unreachable`, or an
  access outside a vector, as the definition says.
* Filenames and function names are strings; filenames are ordered by the first
  character in which they differ, a proper prefix coming first.
* A member that takes another object by a reference that is not `const` can be
  called with the object itself. Where that changes the outcome
  (`InstrProfValueSiteRecord::mergeValueData`) the call is also modelled on objects
  that live in a vector and are named by their positions.
* The calls into the standard library are rendered by what the library
  guarantees: `std::list::sort` is a stable sort, `std::lower_bound` on a sorted
  range finds the first entry that is not less than the value. A `const char *`
  is the address it holds, a natural number.
-/

namespace Coverage

/-! ## Counter (CoverageMapping.h, lines 88-141) -/

/-- The tag of a counter: `enum CounterKind { Zero, CounterValueReference, Expression }`. -/
inductive CounterKind where
  | Zero
  | CounterValueReference
  | Expression
  deriving DecidableEq, Repr

/-- A counter is a tag and an identifier: `struct Counter { CounterKind Kind = Zero; unsigned ID = 0; }`. -/
structure Counter where
  Kind : CounterKind := CounterKind.Zero
  ID : Nat := 0
  deriving DecidableEq, Repr

namespace Counter

/-- The member `getKind`. -/
def getKind (C : Counter) : CounterKind := C.Kind

/-- The member `isZero`: `Kind == Zero`. -/
def isZero (C : Counter) : Bool := decide (C.Kind = CounterKind.Zero)

/-- The member `isExpression`: `Kind == Expression`. -/
def isExpression (C : Counter) : Bool := decide (C.Kind = CounterKind.Expression)

/-- The member `getCounterID`. -/
def getCounterID (C : Counter) : Nat := C.ID

/-- The member `getExpressionID`. -/
def getExpressionID (C : Counter) : Nat := C.ID

/-- The factory `getZero`: the default-constructed counter. -/
def getZero : Counter := {}

/-- The factory `getCounter`: a reference to a profile counter. -/
def getCounter (CounterId : Nat) : Counter :=
  { Kind := CounterKind.CounterValueReference, ID := CounterId }

/-- The factory `getExpression`: a reference to an expression of the builder. -/
def getExpression (ExpressionId : Nat) : Counter :=
  { Kind := CounterKind.Expression, ID := ExpressionId }

end Counter

/-! ## CounterExpression (lines 143-152) and its DenseMapInfo (lines 677-705) -/

/-- The operation of an expression: `enum ExprKind { Subtract, Add }`. -/
inductive ExprKind where
  | Subtract
  | Add
  deriving DecidableEq, Repr

/-- An arithmetic operation on two counters. -/
structure CounterExpression where
  Kind : ExprKind
  LHS : Counter
  RHS : Counter
  deriving DecidableEq, Repr

/-- The key comparison of the lookup table, `DenseMapInfo<CounterExpression>::isEqual`:
`LHS.Kind == RHS.Kind && LHS.LHS == RHS.LHS && LHS.RHS == RHS.RHS`, with
`Counter::operator==` comparing `Kind` and `ID`. -/
def isEqual (L R : CounterExpression) : Bool :=
  decide (L.Kind = R.Kind) &&
    (decide (L.LHS.Kind = R.LHS.Kind) && decide (L.LHS.ID = R.LHS.ID)) &&
    (decide (L.RHS.Kind = R.RHS.Kind) && decide (L.RHS.ID = R.RHS.ID))

/-! ## CounterExpressionBuilder (lines 154-199) -/

/-- The value of an integer as an `int`: reduction into `[-2 ^ 31, 2 ^ 31)`. -/
def toInt32 (x : Int) : Int := (x + 2 ^ 31) % 2 ^ 32 - 2 ^ 31

/-- A term of an expression tree: `struct Term { unsigned CounterID; int Factor; }`.
The factor is an `int`: every sum and every negation of factors is reduced into the
range of the type (`toInt32`). -/
structure Term where
  CounterID : Nat
  Factor : Int
  deriving DecidableEq, Repr

/-- The two private members of the builder: the vector `Expressions` and the lookup
table `ExpressionIndices` from an expression to its index (a `DenseMap`, here an
association list searched with `isEqual`). -/
structure CounterExpressionBuilder where
  Expressions : List CounterExpression := []
  ExpressionIndices : List (CounterExpression × Nat) := []
  deriving DecidableEq, Repr

/-- The lookup `ExpressionIndices.find(E)`: the index stored under a key equal to `E`.
The table is the lookup table of the specification, "keyed by structural
(op, lhs, rhs)"; the two keys that the `DenseMap` reserves (`getEmptyKey` and
`getTombstoneKey`, both on `getCounter(~0U)`) are keys like any other here. -/
def findIndex (E : CounterExpression) : List (CounterExpression × Nat) → Option Nat
  | [] => none
  | (K, I) :: rest => if isEqual K E then some I else findIndex E rest

namespace CounterExpressionBuilder

/-- The public member `getExpressions`. -/
def getExpressions (B : CounterExpressionBuilder) : List CounterExpression := B.Expressions

/-- Modelled from the spec: the body of `CounterExpressionBuilder::get` is missing.
Following the header comment and the interning rule of the specification, an
expression already stored returns the counter that references it; otherwise the
expression is appended to `Expressions`, its index is recorded in the table, and
the counter referencing the new index is returned. -/
def get (B : CounterExpressionBuilder) (E : CounterExpression) :
    Counter × CounterExpressionBuilder :=
  match findIndex E B.ExpressionIndices with
  | some I => (Counter.getExpression I, B)
  | none =>
    (Counter.getExpression B.Expressions.length,
      { Expressions := B.Expressions ++ [E],
        ExpressionIndices := (E, B.Expressions.length) :: B.ExpressionIndices })

end CounterExpressionBuilder

/-- Modelled from the spec: the body of `CounterExpressionBuilder::extractTerms` is
missing. Term extraction flattens an expression into signed terms, appended to
`Terms`: `Zero` contributes nothing, a counter reference contributes `(id, Sign)`,
an `Add` node recurses into both sides with the same sign, a `Subtract` node
recurses into the left side with the same sign and into the right side with the
sign flipped. `Sign` is 1 or -1 in every call, so flipping it never leaves the range
of an `int`. The recursion follows expression identifiers, so it carries fuel;
`none` is a recursion that does not end or an identifier outside `Expressions`. -/
def extractTerms (Expressions : List CounterExpression) :
    Nat → Counter → Int → List Term → Option (List Term)
  | 0, _, _, _ => none
  | fuel + 1, C, Sign, Terms =>
    match C.Kind with
    | CounterKind.Zero => some Terms
    | CounterKind.CounterValueReference => some (Terms ++ [{ CounterID := C.ID, Factor := Sign }])
    | CounterKind.Expression =>
      match Expressions[C.ID]? with
      | none => none
      | some E =>
        match extractTerms Expressions fuel E.LHS Sign Terms with
        | none => none
        | some Terms1 =>
          extractTerms Expressions fuel E.RHS
            (if E.Kind = ExprKind.Subtract then -Sign else Sign) Terms1

/-- Insertion of a term into a list sorted by counter id, before the first term
whose id is not smaller. -/
def insertTerm (T : Term) : List Term → List Term
  | [] => [T]
  | U :: rest => if T.CounterID ≤ U.CounterID then T :: U :: rest else U :: insertTerm T rest

/-- Modelled from the spec: "sort terms by counter id". -/
def sortTerms : List Term → List Term
  | [] => []
  | T :: rest => insertTerm T (sortTerms rest)

/-- Merging of a sorted run into the term `Prev`: a term with the id of `Prev` adds
its factor to it, the sum being an `int`; a term with another id closes `Prev` and
becomes the new one. -/
def combineFrom (Prev : Term) : List Term → List Term
  | [] => [Prev]
  | T :: rest =>
    if T.CounterID = Prev.CounterID then
      combineFrom { CounterID := Prev.CounterID, Factor := toInt32 (Prev.Factor + T.Factor) } rest
    else Prev :: combineFrom T rest

/-- Modelled from the spec: "merge equal ids by summing factors". -/
def combineTerms : List Term → List Term
  | [] => []
  | T :: rest => combineFrom T rest

/-- Modelled from the spec: the simplification of a term sequence, "sort terms by
counter id, merge equal ids by summing factors, drop terms whose combined factor
is 0". -/
def normalizeTerms (Terms : List Term) : List Term :=
  (combineTerms (sortTerms Terms)).filter (fun T => decide (T.Factor ≠ 0))

/-- One positive unit of the term for `CounterID`: the first one is the bare counter
reference, every later one is combined with the tree built so far through `Add`. -/
def addUnit (CounterID : Nat) (S : Counter × CounterExpressionBuilder) :
    Counter × CounterExpressionBuilder :=
  if S.1.isZero then (Counter.getCounter CounterID, S.2)
  else S.2.get { Kind := ExprKind.Add, LHS := S.1, RHS := Counter.getCounter CounterID }

/-- One negative unit of the term for `CounterID`: subtracted from the tree built so far. -/
def subtractUnit (CounterID : Nat) (S : Counter × CounterExpressionBuilder) :
    Counter × CounterExpressionBuilder :=
  S.2.get { Kind := ExprKind.Subtract, LHS := S.1, RHS := Counter.getCounter CounterID }

/-- Repetition of a step `N` times. -/
def iterate {α : Type} (f : α → α) : Nat → α → α
  | 0, a => a
  | N + 1, a => iterate f N (f a)

/-- The additions of the canonical tree: every term with a positive factor, in
order, once per unit of its factor. -/
def createAdditions : List Term → Counter × CounterExpressionBuilder →
    Counter × CounterExpressionBuilder
  | [], S => S
  | T :: rest, S =>
    if 0 < T.Factor then createAdditions rest (iterate (addUnit T.CounterID) T.Factor.toNat S)
    else createAdditions rest S

/-- The subtractions of the canonical tree: every term with a negative factor, in
order, once per unit of the negated factor, which is an `int`. -/
def createSubtractions : List Term → Counter × CounterExpressionBuilder →
    Counter × CounterExpressionBuilder
  | [], S => S
  | T :: rest, S =>
    if T.Factor < 0 then
      createSubtractions rest
        (iterate (subtractUnit T.CounterID) (toInt32 (-T.Factor)).toNat S)
    else createSubtractions rest S

/-- Modelled from the spec: the rebuilding step of `simplify`. No term gives
`Counter::getZero()`, exactly one term with factor 1 gives that bare counter
reference, otherwise the canonical tree is rebuilt, "all positive-factor terms
combined via `Add`, then all negative-factor terms subtracted", every node going
through `get`. -/
def buildTree (Terms : List Term) (B : CounterExpressionBuilder) :
    Counter × CounterExpressionBuilder :=
  createSubtractions Terms (createAdditions Terms (Counter.getZero, B))

namespace CounterExpressionBuilder

/-- Modelled from the spec: the body of `CounterExpressionBuilder::simplify` is
missing. The terms of the expression tree are extracted with sign `+1`,
normalised, and the canonical tree is rebuilt from them. The fuel
`Expressions.length + 1` is enough for every expression vector in which an
expression only refers to earlier ones. -/
def simplify (B : CounterExpressionBuilder) (ExpressionTree : Counter) :
    Option (Counter × CounterExpressionBuilder) :=
  match extractTerms B.Expressions (B.Expressions.length + 1) ExpressionTree 1 [] with
  | none => none
  | some Terms => some (buildTree (normalizeTerms Terms) B)

/-- Modelled from the spec: the terms of the tree `(Kind, LHS, RHS)` that `add` or
`subtract` is called with, before anything is stored, extracted as `extractTerms`
extracts those of a stored node: the terms of `LHS` with sign `+1`,
followed by the terms of `RHS` with sign `+1` for `Add` and `-1` for `Subtract`. -/
def termsOfTree (B : CounterExpressionBuilder) (E : CounterExpression) : Option (List Term) :=
  match extractTerms B.Expressions (B.Expressions.length + 1) E.LHS 1 [] with
  | none => none
  | some Terms =>
    extractTerms B.Expressions (B.Expressions.length + 1) E.RHS
      (if E.Kind = ExprKind.Subtract then -1 else 1) Terms

/-- Modelled from the spec: "Both route through a simplifier before interning". The
tree `(Kind, LHS, RHS)` is simplified before anything is stored: its terms are
extracted, normalised, and the canonical tree is rebuilt from them; only the nodes
of the canonical tree go through `get`, so the tree as written is not interned. -/
def simplifyTree (B : CounterExpressionBuilder) (E : CounterExpression) :
    Option (Counter × CounterExpressionBuilder) :=
  match B.termsOfTree E with
  | none => none
  | some Terms => some (buildTree (normalizeTerms Terms) B)

/-- Modelled from the spec: the body of `CounterExpressionBuilder::add` is missing.
The tree `(Add, LHS, RHS)` is simplified, then interned. -/
def add (B : CounterExpressionBuilder) (LHS RHS : Counter) :
    Option (Counter × CounterExpressionBuilder) :=
  B.simplifyTree { Kind := ExprKind.Add, LHS := LHS, RHS := RHS }

/-- Modelled from the spec: the body of `CounterExpressionBuilder::subtract` is
missing. The tree `(Subtract, LHS, RHS)` is simplified, then interned. -/
def subtract (B : CounterExpressionBuilder) (LHS RHS : Counter) :
    Option (Counter × CounterExpressionBuilder) :=
  B.simplifyTree { Kind := ExprKind.Subtract, LHS := LHS, RHS := RHS }

end CounterExpressionBuilder

/-- A counter is valid below `N` when, as an expression reference, its identifier is
smaller than `N` (it then names an expression stored before position `N`). -/
def Counter.validBelow (C : Counter) (N : Nat) : Prop :=
  C.Kind = CounterKind.Expression → C.ID < N

instance (C : Counter) (N : Nat) : Decidable (C.validBelow N) := by
  unfold Counter.validBelow; exact inferInstance

/-- The class invariant of the builder: every entry of the lookup table points at
the position of `Expressions` that stores its key, and the operands of a stored
expression only refer to expressions stored before it. -/
def CounterExpressionBuilder.WellFormed (B : CounterExpressionBuilder) : Prop :=
  (∀ p ∈ B.ExpressionIndices, B.Expressions[p.2]? = some p.1) ∧
  (∀ I, I < B.Expressions.length → ∀ E, B.Expressions[I]? = some E →
    E.LHS.validBelow I ∧ E.RHS.validBelow I)

/-- The builder states reached from the empty builder by calls of `add` and
`subtract` whose operands are valid in the state they are applied to. -/
inductive CounterExpressionBuilder.Reachable : CounterExpressionBuilder → Prop where
  | empty : Reachable {}
  | add (B B1 : CounterExpressionBuilder) (L R C : Counter) :
      Reachable B → L.validBelow B.Expressions.length → R.validBelow B.Expressions.length →
      B.add L R = some (C, B1) → Reachable B1
  | subtract (B B1 : CounterExpressionBuilder) (L R C : Counter) :
      Reachable B → L.validBelow B.Expressions.length → R.validBelow B.Expressions.length →
      B.subtract L R = some (C, B1) → Reachable B1

/-! ## CounterMappingContext (lines 268-287) -/

/-- Modelled from the spec: the two failures of an evaluation, `CounterOutOfBounds`
and `ExpressionOutOfBounds` (the header only declares that `evaluate` returns an
`Expected<int64_t>`). -/
inductive EvalError where
  | CounterOutOfBounds
  | ExpressionOutOfBounds
  deriving DecidableEq, Repr

/-- The value of an integer as an `int64_t`: reduction into `[-2 ^ 63, 2 ^ 63)`. -/
def toInt64 (x : Int) : Int := (x + 2 ^ 63) % 2 ^ 64 - 2 ^ 63

/-- The value of an integer as a `uint64_t`: reduction into `[0, 2 ^ 64)`. -/
def toUInt64 (x : Int) : Nat := (x % 2 ^ 64).toNat

/-- The outcome of an evaluation: `none` when it does not return, otherwise the
`Expected<int64_t>`, a failure or a value. -/
abbrev EvalResult := Option (Except EvalError Int)

/-- The combination of the two operand results of an expression node: the left
operand is evaluated first and its failure (or its not returning) is the
outcome; then the right operand likewise; two values are added or subtracted
as `int64_t`. -/
def combineResults (Kind : ExprKind) (L R : EvalResult) : EvalResult :=
  match L with
  | none => none
  | some (Except.error e) => some (Except.error e)
  | some (Except.ok a) =>
    match R with
    | none => none
    | some (Except.error e) => some (Except.error e)
    | some (Except.ok b) =>
      match Kind with
      | ExprKind.Add => some (Except.ok (toInt64 (a + b)))
      | ExprKind.Subtract => some (Except.ok (toInt64 (a - b)))

/-- Modelled from the spec: the body of `CounterMappingContext::evaluate` is missing.
`Zero` is 0; a counter reference is `CounterValues[id]` (a `uint64_t` returned as
`int64_t`) and fails with `CounterOutOfBounds` when `id ≥ CounterValues.size()`;
an expression reference fails with `ExpressionOutOfBounds` when
`id ≥ Expressions.size()`, else evaluates `LHS` and `RHS` recursively (failure
propagates) and combines them with `+` or `-` in 64-bit signed arithmetic.
The recursion carries fuel. -/
def evaluateFuel (Expressions : List CounterExpression) (CounterValues : List Nat) :
    Nat → Counter → EvalResult
  | 0, _ => none
  | fuel + 1, C =>
    match C.Kind with
    | CounterKind.Zero => some (Except.ok 0)
    | CounterKind.CounterValueReference =>
      match CounterValues[C.ID]? with
      | none => some (Except.error EvalError.CounterOutOfBounds)
      | some V => some (Except.ok (toInt64 V))
    | CounterKind.Expression =>
      match Expressions[C.ID]? with
      | none => some (Except.error EvalError.ExpressionOutOfBounds)
      | some E =>
        combineResults E.Kind (evaluateFuel Expressions CounterValues fuel E.LHS)
          (evaluateFuel Expressions CounterValues fuel E.RHS)

/-- The context of an evaluation: the two array references of `CounterMappingContext`. -/
structure CounterMappingContext where
  Expressions : List CounterExpression
  CounterValues : List Nat := []

namespace CounterMappingContext

/-- The member `setCounts`. -/
def setCounts (Ctx : CounterMappingContext) (Counts : List Nat) : CounterMappingContext :=
  { Ctx with CounterValues := Counts }

/-- The member `evaluate`. An evaluation that returns never meets the same
expression twice on one path, so it needs at most `Expressions.size() + 1`
nested calls (`evaluateFuel_adequate` below); with that fuel `none` is exactly an
evaluation that does not return. -/
def evaluate (Ctx : CounterMappingContext) (C : Counter) : EvalResult :=
  evaluateFuel Ctx.Expressions Ctx.CounterValues (Ctx.Expressions.length + 1) C

end CounterMappingContext

/-- The state `B2` extends `B1`: the expressions of `B1` are an initial part of those
of `B2`, and every key found in the table of `B1` is found in the table of `B2`
with the same index. -/
def CounterExpressionBuilder.Extends (B1 B2 : CounterExpressionBuilder) : Prop :=
  (∃ more, B2.Expressions = B1.Expressions ++ more) ∧
  (∀ E I, findIndex E B1.ExpressionIndices = some I →
    findIndex E B2.ExpressionIndices = some I)

/-- A step of the tree construction can be replayed: it only extends the state, and
from any state that extends its result it returns the same counter and leaves
that state unchanged. -/
def Replayable (f : Counter × CounterExpressionBuilder → Counter × CounterExpressionBuilder) :
    Prop :=
  ∀ (C : Counter) (B : CounterExpressionBuilder),
    B.Extends (f (C, B)).2 ∧
    ∀ B2 : CounterExpressionBuilder, (f (C, B)).2.Extends B2 → f (C, B2) = ((f (C, B)).1, B2)

/-- A construction state is sound when its builder is well formed and the counter
built so far is valid in it. -/
def SoundState (S : Counter × CounterExpressionBuilder) : Prop :=
  S.2.WellFormed ∧ S.1.validBelow S.2.Expressions.length

/-- The net factor of the counter `CounterID` in a term sequence: the sum of the
factors of the terms that name it. -/
def netFactor (CounterID : Nat) : List Term → Int
  | [] => 0
  | T :: rest => (if T.CounterID = CounterID then T.Factor else 0) + netFactor CounterID rest

/-- A term sequence is a normal form when its counter ids increase strictly and no
factor is 0. -/
def IsNormalForm : List Term → Prop
  | [] => True
  | T :: rest => T.Factor ≠ 0 ∧ (∀ U ∈ rest, T.CounterID < U.CounterID) ∧ IsNormalForm rest

/-- The counter ids of a term sequence do not decrease. -/
def SortedById : List Term → Prop
  | [] => True
  | T :: rest => (∀ U ∈ rest, T.CounterID ≤ U.CounterID) ∧ SortedById rest

/-- The counter ids of a term sequence increase strictly. -/
def StrictById : List Term → Prop
  | [] => True
  | T :: rest => (∀ U ∈ rest, T.CounterID < U.CounterID) ∧ StrictById rest

/-- The terms of a counter in a builder state: the extraction that `simplify` starts
from. -/
def termsOf (B : CounterExpressionBuilder) (C : Counter) : Option (List Term) :=
  extractTerms B.Expressions (B.Expressions.length + 1) C 1 []

/-- The terms of a sequence with every factor negated. -/
def negTerms (Terms : List Term) : List Term :=
  Terms.map (fun T => { CounterID := T.CounterID, Factor := -T.Factor })

/-- The terms of the right operand of a node, as they enter the terms of the node. -/
def signedTerms (Kind : ExprKind) (Terms : List Term) : List Term :=
  if Kind = ExprKind.Subtract then negTerms Terms else Terms

/-- Two expressions `(Kind, LHS, RHS)` are semantically equal in a builder state when
their term sequences give every profile counter the same net factor: they denote
the same linear combination of the profile counters. -/
def SemanticallyEqual (B : CounterExpressionBuilder) (X Y : CounterExpression) : Prop :=
  ∃ TX TY, B.termsOfTree X = some TX ∧ B.termsOfTree Y = some TY ∧
    ∀ id, netFactor id TX = netFactor id TY

/-- Every factor of a term sequence is a value of the type `int`. -/
def InRange (Terms : List Term) : Prop :=
  ∀ T ∈ Terms, -2 ^ 31 ≤ T.Factor ∧ T.Factor < 2 ^ 31

/-- Every factor of a term sequence is 1 or -1, as in an extracted sequence. -/
def Units (Terms : List Term) : Prop :=
  ∀ T ∈ Terms, T.Factor = 1 ∨ T.Factor = -1

/-- The builder state after the calls `add(getCounter(1), getCounter(0))` and
`add(getExpression(0), getCounter(2))` on an empty builder: the canonical node
`counter 0 + counter 1` at index 0 and the node `expression 0 + counter 2` at index 1. -/
def exampleBuilder : CounterExpressionBuilder :=
  { Expressions :=
      [{ Kind := ExprKind.Add, LHS := Counter.getCounter 0, RHS := Counter.getCounter 1 },
       { Kind := ExprKind.Add, LHS := Counter.getExpression 0, RHS := Counter.getCounter 2 }],
    ExpressionIndices :=
      [({ Kind := ExprKind.Add, LHS := Counter.getExpression 0, RHS := Counter.getCounter 2 }, 1),
       ({ Kind := ExprKind.Add, LHS := Counter.getCounter 0, RHS := Counter.getCounter 1 }, 0)] }

/-- The leaves that `createAdditions` adds to the tree, in order: one unit term for
every unit of a positive factor. -/
def additionTerms : List Term → List Term
  | [] => []
  | T :: rest =>
    (if 0 < T.Factor then List.replicate T.Factor.toNat { CounterID := T.CounterID, Factor := 1 }
     else []) ++ additionTerms rest

/-- The leaves that `createSubtractions` adds to the tree, in order: one negative
unit term for every unit of the negated factor, an `int`. -/
def subtractionTerms : List Term → List Term
  | [] => []
  | T :: rest =>
    (if T.Factor < 0 then
      List.replicate (toInt32 (-T.Factor)).toNat { CounterID := T.CounterID, Factor := -1 }
     else []) ++ subtractionTerms rest

/-- The context of `0 - counter 0` with the count 1: its value is negative. -/
def negativeContext : CounterMappingContext :=
  { Expressions :=
      [{ Kind := ExprKind.Subtract, LHS := Counter.getZero, RHS := Counter.getCounter 0 }],
    CounterValues := [1] }

/-- The context of `counter 0 + counter 0` with the count `2 ^ 62`: the sum is `2 ^ 63`. -/
def wrappingContext : CounterMappingContext :=
  { Expressions :=
      [{ Kind := ExprKind.Add, LHS := Counter.getCounter 0, RHS := Counter.getCounter 0 }],
    CounterValues := [4611686018427387904] }

/-- A context whose only expression refers to an expression that is not stored. -/
def danglingContext : CounterMappingContext :=
  { Expressions :=
      [{ Kind := ExprKind.Add, LHS := Counter.getExpression 5, RHS := Counter.getZero }],
    CounterValues := [] }

/-- A source location: `using LineColPair = std::pair<unsigned, unsigned>`. -/
abbrev LineColPair := Nat × Nat

/-- The order of `std::pair`: lexicographic on (line, column), not strict. -/
def LineColPair.le (a b : LineColPair) : Prop := a.1 < b.1 ∨ (a.1 = b.1 ∧ a.2 ≤ b.2)

/-- The order of `std::pair`: lexicographic on (line, column), strict. -/
def LineColPair.lt (a b : LineColPair) : Prop := a.1 < b.1 ∨ (a.1 = b.1 ∧ a.2 < b.2)

instance (a b : LineColPair) : Decidable (LineColPair.le a b) := by
  unfold LineColPair.le; exact inferInstance

instance (a b : LineColPair) : Decidable (LineColPair.lt a b) := by
  unfold LineColPair.lt; exact inferInstance

/-- The kind of a region: `enum RegionKind { CodeRegion, ExpansionRegion, SkippedRegion }`. -/
inductive RegionKind where
  | CodeRegion
  | ExpansionRegion
  | SkippedRegion
  deriving DecidableEq, Repr

/-- A counter mapping region associates a source range with a counter. -/
structure CounterMappingRegion where
  Count : Counter
  FileID : Nat
  ExpandedFileID : Nat
  LineStart : Nat
  ColumnStart : Nat
  LineEnd : Nat
  ColumnEnd : Nat
  Kind : RegionKind
  deriving DecidableEq, Repr

namespace CounterMappingRegion

/-- The factory `makeRegion`. -/
def makeRegion (Count : Counter) (FileID LineStart ColumnStart LineEnd ColumnEnd : Nat) :
    CounterMappingRegion :=
  { Count := Count, FileID := FileID, ExpandedFileID := 0, LineStart := LineStart,
    ColumnStart := ColumnStart, LineEnd := LineEnd, ColumnEnd := ColumnEnd,
    Kind := RegionKind.CodeRegion }

/-- The factory `makeExpansion`. -/
def makeExpansion (FileID ExpandedFileID LineStart ColumnStart LineEnd ColumnEnd : Nat) :
    CounterMappingRegion :=
  { Count := {}, FileID := FileID, ExpandedFileID := ExpandedFileID, LineStart := LineStart,
    ColumnStart := ColumnStart, LineEnd := LineEnd, ColumnEnd := ColumnEnd,
    Kind := RegionKind.ExpansionRegion }

/-- The factory `makeSkipped`. -/
def makeSkipped (FileID LineStart ColumnStart LineEnd ColumnEnd : Nat) :
    CounterMappingRegion :=
  { Count := {}, FileID := FileID, ExpandedFileID := 0, LineStart := LineStart,
    ColumnStart := ColumnStart, LineEnd := LineEnd, ColumnEnd := ColumnEnd,
    Kind := RegionKind.SkippedRegion }

/-- The member `startLoc`. -/
def startLoc (R : CounterMappingRegion) : LineColPair := (R.LineStart, R.ColumnStart)

/-- The member `endLoc`. -/
def endLoc (R : CounterMappingRegion) : LineColPair := (R.LineEnd, R.ColumnEnd)

end CounterMappingRegion

/-- A region with its execution count: `struct CountedRegion : CounterMappingRegion`
with the member `uint64_t ExecutionCount`. -/
structure CountedRegion extends CounterMappingRegion where
  ExecutionCount : Nat
  deriving DecidableEq, Repr

/-- The start of a counted region (the inherited `startLoc`). -/
def CountedRegion.startLoc (R : CountedRegion) : LineColPair := R.toCounterMappingRegion.startLoc

/-- The end of a counted region (the inherited `endLoc`). -/
def CountedRegion.endLoc (R : CountedRegion) : LineColPair := R.toCounterMappingRegion.endLoc

/-! ## CoverageSegment (lines 365-394) -/

/-- The execution count information starting at a point in a file. -/
structure CoverageSegment where
  Line : Nat
  Col : Nat
  Count : Nat
  HasCount : Bool
  IsRegionEntry : Bool
  deriving DecidableEq, Repr

namespace CoverageSegment

/-- The constructor `CoverageSegment(Line, Col, IsRegionEntry)`: no count. -/
def withoutCount (Line Col : Nat) (IsRegionEntry : Bool) : CoverageSegment :=
  { Line := Line, Col := Col, Count := 0, HasCount := false, IsRegionEntry := IsRegionEntry }

/-- The constructor `CoverageSegment(Line, Col, Count, IsRegionEntry)`. -/
def withCount (Line Col Count : Nat) (IsRegionEntry : Bool) : CoverageSegment :=
  { Line := Line, Col := Col, Count := Count, HasCount := true, IsRegionEntry := IsRegionEntry }

end CoverageSegment

/-! ## The segment builder -/

/-- Modelled from the spec: the order in which regions enter the sweep, "pre-sorted by
`startLoc` with tie-break: at equal `startLoc` ... a region whose `endLoc` is >=
another's `endLoc` is treated as the (wider) parent and opens first". -/
def opensBefore (L R : CountedRegion) : Prop :=
  LineColPair.lt L.startLoc R.startLoc ∨
    (L.startLoc = R.startLoc ∧ LineColPair.le R.endLoc L.endLoc)

instance (L R : CountedRegion) : Decidable (opensBefore L R) := by
  unfold opensBefore; exact inferInstance

/-- Insertion of a region before the first one it opens before; regions of the same
span keep their order. -/
def insertRegion (R : CountedRegion) : List CountedRegion → List CountedRegion
  | [] => [R]
  | U :: rest => if opensBefore R U then R :: U :: rest else U :: insertRegion R rest

/-- Modelled from the spec: the sort of the regions of a unit, stable ("equal spans are
processed in original record order"). -/
def sortNestedRegions : List CountedRegion → List CountedRegion
  | [] => []
  | R :: rest => insertRegion R (sortNestedRegions rest)

/-- Modelled from the spec: the emission of a segment, "consecutive emitted segments
at an identical (line,col) collapse to the last one only (later overrides earlier
at the same point)". -/
def emitSegment (Segments : List CoverageSegment) (S : CoverageSegment) :
    List CoverageSegment :=
  match Segments.getLast? with
  | none => [S]
  | some Last =>
    if Last.Line = S.Line ∧ Last.Col = S.Col then Segments.dropLast ++ [S]
    else Segments ++ [S]

/-- The segment that carries the count of `Region` from the point (Line, Col): its
execution count, or no count when the region is skipped. -/
def regionSegment (Line Col : Nat) (IsRegionEntry : Bool) (Region : CountedRegion) :
    CoverageSegment :=
  if Region.Kind = RegionKind.SkippedRegion then
    CoverageSegment.withoutCount Line Col IsRegionEntry
  else CoverageSegment.withCount Line Col Region.ExecutionCount IsRegionEntry

/-- The active region whose end event comes first in a sweep from left to right: the
region with the least `endLoc`, and among regions that end at the same point the one
nearest the top of the stack. `Best` is the candidate among the regions looked at so
far, the list holds the regions below them. -/
def firstToEnd (Best : CountedRegion) : List CountedRegion → CountedRegion
  | [] => Best
  | R :: rest =>
    if LineColPair.lt R.endLoc Best.endLoc then firstToEnd R rest else firstToEnd Best rest

/-- The state of the sweep: the segments emitted so far and the stack of active
regions, innermost first. -/
structure SegmentBuilder where
  Segments : List CoverageSegment := []
  ActiveRegions : List CountedRegion := []
  deriving Repr

namespace SegmentBuilder

/-- Modelled from the spec: a region's start event, "push it; if it is `Code` or
`Expansion`, emit a segment at its start with `isRegionEntry=true`,
`hasCount=true`, `count` = its resolved count; if it is `Skipped`, emit a segment
at its start with `hasCount=false`, `isRegionEntry=true`". -/
def pushRegion (B : SegmentBuilder) (Region : CountedRegion) : SegmentBuilder :=
  { Segments := emitSegment B.Segments
      (regionSegment Region.LineStart Region.ColumnStart true Region),
    ActiveRegions := Region :: B.ActiveRegions }

/-- Modelled from the spec: a region's end event, "pop it; if the stack is non-empty
afterward, emit a segment at the end location with `isRegionEntry=false` carrying
the now-exposed enclosing region's count (or `hasCount=false` if the enclosing
region is `Skipped`); if the stack becomes empty, emit a segment marking return
to no active region (`hasCount=false`)". The end event taken is the next one from
left to right, that of the active region that ends first (`firstToEnd`); this
region leaves the stack, wherever it is in it, and the region exposed is the top
of the stack that is left. -/
def popRegion (B : SegmentBuilder) : SegmentBuilder :=
  match B.ActiveRegions with
  | [] => B
  | Top :: rest =>
    match (Top :: rest).erase (firstToEnd Top rest) with
    | [] =>
      { Segments := emitSegment B.Segments
          (CoverageSegment.withoutCount (firstToEnd Top rest).LineEnd
            (firstToEnd Top rest).ColumnEnd false),
        ActiveRegions := [] }
    | Parent :: more =>
      { Segments := emitSegment B.Segments
          (regionSegment (firstToEnd Top rest).LineEnd (firstToEnd Top rest).ColumnEnd
            false Parent),
        ActiveRegions := Parent :: more }

/-- The end events that come before the start at `Start`: as long as the active region
that ends first ends at or before `Start`, its end event is taken. `Steps` bounds
the number of end events; the number of active regions is enough. -/
def popEnded (Start : LineColPair) : Nat → SegmentBuilder → SegmentBuilder
  | 0, B => B
  | Steps + 1, B =>
    match B.ActiveRegions with
    | [] => B
    | Top :: rest =>
      if LineColPair.le (firstToEnd Top rest).endLoc Start then
        popEnded Start Steps (popRegion B)
      else B

/-- The end events after the last start: `Steps` end events are taken, each that of
the active region that ends first. -/
def popAll : Nat → SegmentBuilder → SegmentBuilder
  | 0, B => B
  | Steps + 1, B => popAll Steps (popRegion B)

/-- Modelled from the spec: the sweep, "a single left-to-right sweep over start/end
boundary events using an explicit stack of active regions". The regions come in
the order of their start events; before the start event of a region the end
events at or before its start are taken, from left to right, and after the last
start event the end events of all regions still active are taken, from left to
right. -/
def sweep : List CountedRegion → SegmentBuilder → SegmentBuilder
  | [], B => popAll B.ActiveRegions.length B
  | Region :: rest, B =>
    sweep rest ((popEnded Region.startLoc B.ActiveRegions.length B).pushRegion Region)

/-- Modelled from the spec: the segment builder, the sweep over the sorted regions of
one unit, started with no segment and no active region. -/
def buildSegments (Regions : List CountedRegion) : List CoverageSegment :=
  (sweep (sortNestedRegions Regions) {}).Segments

end SegmentBuilder

/-- A code region of file 0 with the counter `getCounter(0)`, from (LineStart,
ColumnStart) to (LineEnd, ColumnEnd), with its execution count. -/
def codeRegion (LineStart ColumnStart LineEnd ColumnEnd ExecutionCount : Nat) : CountedRegion :=
  { toCounterMappingRegion :=
      CounterMappingRegion.makeRegion (Counter.getCounter 0) 0 LineStart ColumnStart
        LineEnd ColumnEnd,
    ExecutionCount := ExecutionCount }

/-- The nesting scenario: A spans lines 1-5 with count 10, B lines 2-3 with count 3. -/
def nestedRegions : List CountedRegion := [codeRegion 1 1 5 1 10, codeRegion 2 1 3 1 3]

/-- A region of lines 1-5 and, inside it, a region of zero width at line 2. -/
def zeroWidthRegions : List CountedRegion := [codeRegion 1 1 5 1 10, codeRegion 2 1 2 1 3]

/-! ## FunctionRecord (lines 289-311) and CoverageMapping (lines 487-559) -/

/-- Code coverage information for a single function. -/
structure FunctionRecord where
  Name : String
  Filenames : List String
  CountedRegions : List CountedRegion
  ExecutionCount : Nat
  deriving DecidableEq, Repr

namespace FunctionRecord

/-- The constructor `FunctionRecord(Name, Filenames)`. It leaves `ExecutionCount`
uninitialised; `Indeterminate` is the value the member happens to hold. -/
def create (Name : String) (Filenames : List String) (Indeterminate : Nat) : FunctionRecord :=
  { Name := Name, Filenames := Filenames, CountedRegions := [], ExecutionCount := Indeterminate }

/-- The member `pushRegion`: the first region pushed sets `ExecutionCount`. -/
def pushRegion (F : FunctionRecord) (Region : CounterMappingRegion) (Count : Nat) :
    FunctionRecord :=
  { F with
    ExecutionCount := if F.CountedRegions.isEmpty then Count else F.ExecutionCount,
    CountedRegions := F.CountedRegions ++
      [{ toCounterMappingRegion := Region, ExecutionCount := Count }] }

end FunctionRecord

/-- Modelled from the spec: the decoded record of the external decoder (the header only
declares `struct CoverageMappingRecord`), "{functionName, functionHash, filenames,
regions}", together with the expression list its counters refer to. -/
structure CoverageMappingRecord where
  FunctionName : String
  FunctionHash : Nat
  Filenames : List String
  Expressions : List CounterExpression
  MappingRegions : List CounterMappingRegion

/-- Modelled from the spec: the two failures of the profile source. -/
inductive ProfileError where
  | UnknownFunction
  | HashMismatch
  deriving DecidableEq, Repr

/-- Modelled from the spec: the external profile source (the header only declares
`class IndexedInstrProfReader`), "given (functionName, functionHash), returns an
ordered raw-count sequence or fails with UnknownFunction / HashMismatch". -/
abbrev ProfileSource := String → Nat → Except ProfileError (List Nat)

/-- The three data members of `CoverageMapping`; `MismatchedFunctionCount` is an
`unsigned`. -/
structure CoverageMapping where
  FunctionNames : List String := []
  Functions : List FunctionRecord := []
  MismatchedFunctionCount : Nat := 0
  deriving Repr

/-- Modelled from the spec: the regions of a record are evaluated in order against the
context and pushed with their counts; the first failure is the result ("if any
region fails to evaluate, the whole record is discarded"). `none` is an
evaluation that does not return. -/
def evaluateRegions (Ctx : CounterMappingContext) :
    List CounterMappingRegion → FunctionRecord → Option (Except EvalError FunctionRecord)
  | [], F => some (Except.ok F)
  | Region :: rest, F =>
    match Ctx.evaluate Region.Count with
    | none => none
    | some (Except.error e) => some (Except.error e)
    | some (Except.ok V) => evaluateRegions Ctx rest (F.pushRegion Region (toUInt64 V))

namespace CoverageMapping

/-- The member `getMismatchedCount`. -/
def getMismatchedCount (CM : CoverageMapping) : Nat := CM.MismatchedFunctionCount

/-- The increment of the `unsigned` member `MismatchedFunctionCount`. -/
def countMismatch (CM : CoverageMapping) : CoverageMapping :=
  { CM with MismatchedFunctionCount := (CM.MismatchedFunctionCount + 1) % 2 ^ 32 }

/-- Modelled from the spec: the body of `loadFunctionRecord` is missing. The record is
looked up in the profile source; on "unknown function" or "hash mismatch" the
mismatch count is incremented and the record discarded; otherwise a fresh
`FunctionRecord` is built, every region's counter is evaluated with the raw
counts retrieved, and the record is appended to `Functions` and its name
recorded, or, when a region fails to evaluate, discarded with the mismatch count
incremented. -/
def loadFunctionRecord (CM : CoverageMapping) (Record : CoverageMappingRecord)
    (ProfileReader : ProfileSource) (Indeterminate : Nat) : Option CoverageMapping :=
  match ProfileReader Record.FunctionName Record.FunctionHash with
  | Except.error _ => some CM.countMismatch
  | Except.ok Counts =>
    match evaluateRegions { Expressions := Record.Expressions, CounterValues := Counts }
        Record.MappingRegions
        (FunctionRecord.create Record.FunctionName Record.Filenames Indeterminate) with
    | none => none
    | some (Except.error _) => some CM.countMismatch
    | some (Except.ok F) =>
      some { CM with
        Functions := CM.Functions ++ [F],
        FunctionNames :=
          if Record.FunctionName ∈ CM.FunctionNames then CM.FunctionNames
          else CM.FunctionNames ++ [Record.FunctionName] }

/-- The records of the decoders, loaded in order into `CM`. -/
def loadRecords (ProfileReader : ProfileSource) (Indeterminate : Nat) :
    List CoverageMappingRecord → CoverageMapping → Option CoverageMapping
  | [], CM => some CM
  | Record :: rest, CM =>
    match CM.loadFunctionRecord Record ProfileReader Indeterminate with
    | none => none
    | some CM1 => loadRecords ProfileReader Indeterminate rest CM1

/-- Modelled from the spec: `load` "iterates all decoded records ..., calling
`loadFunctionRecord` for each", starting from an empty aggregator. -/
def load (Records : List CoverageMappingRecord) (ProfileReader : ProfileSource)
    (Indeterminate : Nat) : Option CoverageMapping :=
  loadRecords ProfileReader Indeterminate Records {}

end CoverageMapping

/-- A decoded record is mismatched when the profile source does not know its name
or has another hash for it. -/
def isMismatched (ProfileReader : ProfileSource) (Record : CoverageMappingRecord) : Bool :=
  match ProfileReader Record.FunctionName Record.FunctionHash with
  | Except.error _ => true
  | Except.ok _ => false

/-- The function record that a matched record whose regions all evaluate gives. -/
def functionRecordOf (ProfileReader : ProfileSource) (Indeterminate : Nat)
    (Record : CoverageMappingRecord) : Option FunctionRecord :=
  match ProfileReader Record.FunctionName Record.FunctionHash with
  | Except.error _ => none
  | Except.ok Counts =>
    match evaluateRegions { Expressions := Record.Expressions, CounterValues := Counts }
        Record.MappingRegions
        (FunctionRecord.create Record.FunctionName Record.Filenames Indeterminate) with
    | some (Except.ok F) => some F
    | _ => none

/-- A decoded record with one region counted by `getCounter(0)`. -/
def sampleRecord (Name : String) (Hash : Nat) : CoverageMappingRecord :=
  { FunctionName := Name, FunctionHash := Hash, Filenames := ["a.c"], Expressions := [],
    MappingRegions := [CounterMappingRegion.makeRegion (Counter.getCounter 0) 0 1 1 5 1] }

/-- A profile source that knows the function `f` with hash 1 and the counts `[4]`. -/
def sampleProfile : ProfileSource := fun Name Hash =>
  if Name = "f" then
    if Hash = 1 then Except.ok [4] else Except.error ProfileError.HashMismatch
  else Except.error ProfileError.UnknownFunction

/-- Four decoded records: `f` with the hash of the profile, an unknown function, `f`
with another hash, and `f` with the hash of the profile again. -/
def sampleRecords : List CoverageMappingRecord :=
  [sampleRecord "f" 1, sampleRecord "g" 0, sampleRecord "f" 2, sampleRecord "f" 1]

/-! ## Comparison of counters (lines 116-126) -/

/-- The value of an enumerator of `CounterKind`, in the order of the declaration
`enum CounterKind { Zero, CounterValueReference, Expression }`. -/
def CounterKind.toNat : CounterKind → Nat
  | CounterKind.Zero => 0
  | CounterKind.CounterValueReference => 1
  | CounterKind.Expression => 2

namespace Counter

/-- The friend `operator==`: `LHS.Kind == RHS.Kind && LHS.ID == RHS.ID`. -/
def operatorEq (LHS RHS : Counter) : Bool :=
  decide (LHS.Kind = RHS.Kind) && decide (LHS.ID = RHS.ID)

/-- The friend `operator!=`: `!(LHS == RHS)`. -/
def operatorNe (LHS RHS : Counter) : Bool := !(operatorEq LHS RHS)

/-- The friend `operator<`: `std::tie(LHS.Kind, LHS.ID) < std::tie(RHS.Kind, RHS.ID)`.
The comparison of `std::tuple` lets the first components decide unless neither of them
is less than the other, and then compares the second components. -/
def operatorLt (LHS RHS : Counter) : Bool :=
  decide (LHS.Kind.toNat < RHS.Kind.toNat) ||
    (!decide (RHS.Kind.toNat < LHS.Kind.toNat) && decide (LHS.ID < RHS.ID))

end Counter

/-! ## InstantiationGroup (lines 396-451) -/

/-- A list of function records that are instantiations of the same function. The
pointers `const FunctionRecord *` are modelled by the records they point to. -/
structure InstantiationGroup where
  Line : Nat
  Col : Nat
  Instantiations : List FunctionRecord
  deriving DecidableEq, Repr

/-- The two ways in which `getName` can fail to return a name. -/
inductive NameFailure where
  | AssertionFailed
  | OutOfBounds
  deriving DecidableEq, Repr

namespace InstantiationGroup

/-- The member `size`. -/
def size (G : InstantiationGroup) : Nat := G.Instantiations.length

/-- The member `getLine`. -/
def getLine (G : InstantiationGroup) : Nat := G.Line

/-- The member `getColumn`. -/
def getColumn (G : InstantiationGroup) : Nat := G.Col

/-- The loop of `hasName` with `Steps = E - I` iterations left: it returns `false` at
the first index whose name differs from the name at index 0. -/
def hasNameFrom (Instantiations : List FunctionRecord) : Nat → Nat → Bool
  | 0, _ => true
  | Steps + 1, I =>
    if (Instantiations[I]?).map (fun F => F.Name) ≠ (Instantiations[0]?).map (fun F => F.Name)
    then false
    else hasNameFrom Instantiations Steps (I + 1)

/-- The member `hasName`:
`for (unsigned I = 1, E = Instantiations.size(); I < E; ++I)`. The bound `E` is an
`unsigned`, so it holds the size reduced modulo 2^32. -/
def hasName (G : InstantiationGroup) : Bool :=
  hasNameFrom G.Instantiations (G.Instantiations.length % 2 ^ 32 - 1) 1

/-- The member `getName`: `assert(hasName())`, then `Instantiations[0]->Name`. -/
def getName (G : InstantiationGroup) : Except NameFailure String :=
  if G.hasName then
    match G.Instantiations[0]? with
    | some F => Except.ok F.Name
    | none => Except.error NameFailure.OutOfBounds
  else Except.error NameFailure.AssertionFailed

/-- The member `getTotalExecutionCount`: `Count += F->ExecutionCount` in a `uint64_t`. -/
def getTotalExecutionCount (G : InstantiationGroup) : Nat :=
  G.Instantiations.foldl (fun Count F => (Count + F.ExecutionCount) % 2 ^ 64) 0

/-- The member `getInstantiations`. -/
def getInstantiations (G : InstantiationGroup) : List FunctionRecord := G.Instantiations

end InstantiationGroup

/-- A function record named `Name` in `a.c` whose first region starts at line 10,
column 3 and was executed `Count` times. -/
def instantiationAt (Name : String) (Count : Nat) : FunctionRecord :=
  (FunctionRecord.create Name ["a.c"] 0).pushRegion
    (CounterMappingRegion.makeRegion (Counter.getCounter 0) 0 10 3 12 1) Count

/-- Two instantiations of `f` that share the defining point (10, 3). -/
def sharedPointGroup : InstantiationGroup :=
  { Line := 10, Col := 3, Instantiations := [instantiationAt "f" 4, instantiationAt "f" 7] }

/-- A group of 2^32 + 1 members: 2^32 instantiations named `f` and one named `g`. -/
def hugeGroup : InstantiationGroup :=
  { Line := 10, Col := 3,
    Instantiations := List.replicate (2 ^ 32) (instantiationAt "f" 1) ++ [instantiationAt "g" 1] }

/-- A sequence of `pushRegion` calls, made one after the other on the same record. -/
def FunctionRecord.pushRegions (F : FunctionRecord)
    (Calls : List (CounterMappingRegion × Nat)) : FunctionRecord :=
  Calls.foldl (fun G Call => G.pushRegion Call.1 Call.2) F

/-! ## FunctionRecordIterator (lines 313-345) and the function ranges (lines 540-551) -/

/-- An `ArrayRef<FunctionRecord>`: `none` is the default-constructed reference, whose
data pointer is null; `some L` refers to the storage of a vector with the elements `L`. -/
abbrev RecordsRef := Option (List FunctionRecord)

/-- The pointer `Records.begin()`: `none` is the null pointer, `some I` points `I`
elements behind the start of the vector. -/
def RecordsRef.arrayBegin : RecordsRef → Option Nat
  | none => none
  | some _ => some 0

/-- The pointer `Records.end()`. -/
def RecordsRef.arrayEnd : RecordsRef → Option Nat
  | none => none
  | some L => some L.length

/-- An iterator over the function records, optionally filtered to a single file. -/
structure FunctionRecordIterator where
  Records : RecordsRef
  Current : Option Nat
  Filename : String
  deriving DecidableEq, Repr

/-- Modelled from the spec: the search of `skipOtherFiles` ("Skip records whose primary
file is not `Filename`" in the header, which only declares it), from the record at
index `I` on; the primary file of a record is the first entry of its `Filenames`, and
an empty `Filename` filters nothing. `none`: the end of the records was reached. -/
def skipTo (Filename : String) : List FunctionRecord → Nat → Option Nat
  | [], _ => none
  | F :: Rest, I =>
    if Filename ≠ "" ∧ F.Filenames.head? ≠ some Filename then skipTo Filename Rest (I + 1)
    else some I

namespace FunctionRecordIterator

/-- The default constructor `FunctionRecordIterator() : Current(Records.begin()) {}`. -/
def createDefault : FunctionRecordIterator :=
  { Records := none, Current := RecordsRef.arrayBegin none, Filename := "" }

/-- Modelled from the spec: `skipOtherFiles`, declared in the header only. It moves
`Current` to the next record whose primary file is `Filename`; at the end of the
records the iterator becomes the default-constructed one, the end of every range
(`coveredFunctions` is "finite"). -/
def skipOtherFiles (It : FunctionRecordIterator) : FunctionRecordIterator :=
  match It.Records, It.Current with
  | some L, some I =>
    match skipTo It.Filename (L.drop I) I with
    | some J => { It with Current := some J }
    | none => createDefault
  | _, _ => createDefault

/-- The constructor `FunctionRecordIterator(Records_, Filename)`: it starts at
`Records.begin()` and calls `skipOtherFiles`. -/
def create (Records : RecordsRef) (Filename : String) : FunctionRecordIterator :=
  skipOtherFiles { Records := Records, Current := Records.arrayBegin, Filename := Filename }

/-- The member `operator==`: `Current == RHS.Current && Filename == RHS.Filename`. -/
def operatorEq (It RHS : FunctionRecordIterator) : Bool :=
  decide (It.Current = RHS.Current) && decide (It.Filename = RHS.Filename)

/-- The member `operator*`: `*Current`; `none` when `Current` points to no record. -/
def operatorStar (It : FunctionRecordIterator) : Option FunctionRecord :=
  match It.Records, It.Current with
  | some L, some I => L[I]?
  | _, _ => none

/-- The member `operator++`: `assert(Current != Records.end())`, then `++Current` and
`skipOtherFiles()`; `none` when the assertion fails. -/
def operatorInc (It : FunctionRecordIterator) : Option FunctionRecordIterator :=
  if It.Current = It.Records.arrayEnd then none
  else some (skipOtherFiles { It with Current := It.Current.map (fun I => I + 1) })

end FunctionRecordIterator

/-- The member `getCoveredFunctions()`: the range from `FunctionRecordIterator(Functions)`,
whose `Filename` has the default value `""`, to `FunctionRecordIterator()`. -/
def CoverageMapping.getCoveredFunctions (CM : CoverageMapping) :
    FunctionRecordIterator × FunctionRecordIterator :=
  (FunctionRecordIterator.create (some CM.Functions) "", FunctionRecordIterator.createDefault)

/-- The member `getCoveredFunctions(Filename)`: the range from
`FunctionRecordIterator(Functions, Filename)` to `FunctionRecordIterator()`. -/
def CoverageMapping.getCoveredFunctionsOf (CM : CoverageMapping) (Filename : String) :
    FunctionRecordIterator × FunctionRecordIterator :=
  (FunctionRecordIterator.create (some CM.Functions) Filename,
    FunctionRecordIterator.createDefault)

/-- The traversal `for (It = Begin; !(It == End); ++It)` of a range, collecting `*It`.
`none`: the traversal does not finish within the fuel, dereferences an iterator that
points to no record, or fails the assertion of `operator++`. -/
def visitRange :
    Nat → FunctionRecordIterator → FunctionRecordIterator → Option (List FunctionRecord)
  | 0, _, _ => none
  | Fuel + 1, It, End =>
    if It.operatorEq End then some []
    else
      match It.operatorStar, It.operatorInc with
      | some F, some Next => (visitRange Fuel Next End).map (fun Visited => F :: Visited)
      | _, _ => none

/-- Three function records: `f` and `h` have the primary file `a.c`, `g` has `b.c`. -/
def sampleFunctions : List FunctionRecord :=
  [FunctionRecord.create "f" ["a.c"] 0, FunctionRecord.create "g" ["b.c", "a.c"] 0,
    FunctionRecord.create "h" ["a.c", "b.c"] 0]

/-- A coverage mapping that holds the three sample function records. -/
def sampleMapping : CoverageMapping :=
  { FunctionNames := ["f", "g", "h"], Functions := sampleFunctions, MismatchedFunctionCount := 0 }

/-! ## The unique source files (line 525) -/

/-- Modelled from the spec: the lexicographic order of two character sequences. The
first position at which they differ decides, by the code of the character; a proper
prefix is less than the sequence it is a prefix of. -/
def lexLess : List Char → List Char → Bool
  | _, [] => false
  | [], _ :: _ => true
  | A :: S, B :: T =>
    decide (A.toNat < B.toNat) || (decide (A.toNat = B.toNat) && lexLess S T)

/-- Modelled from the spec: the lexicographic order of filenames. -/
def filenameLess (S T : String) : Bool := lexLess S.toList T.toList

/-- Modelled from the spec: the insertion of a filename into an ascending list. -/
def insertFilename (S : String) : List String → List String
  | [] => [S]
  | T :: Rest => if filenameLess S T then S :: T :: Rest else T :: insertFilename S Rest

/-- Modelled from the spec: sorting filenames in ascending lexicographic order. -/
def sortFilenames : List String → List String
  | [] => []
  | S :: Rest => insertFilename S (sortFilenames Rest)

/-- Modelled from the spec: dropping the filenames that repeat their predecessor,
where `Prev` is the predecessor. -/
def uniqueFrom (Prev : String) : List String → List String
  | [] => [Prev]
  | T :: Rest => if T = Prev then uniqueFrom Prev Rest else Prev :: uniqueFrom T Rest

/-- Modelled from the spec: dropping the repetitions of a sorted list of filenames. -/
def uniqueFilenames : List String → List String
  | [] => []
  | S :: Rest => uniqueFrom S Rest

/-- Modelled from the spec: `getUniqueSourceFiles` (the header only declares it, as
returning "a lexicographically sorted, unique list of files that are covered"), the
"lexicographically sorted, deduplicated union of every `filenames` entry across all
`functions`". -/
def CoverageMapping.getUniqueSourceFiles (CM : CoverageMapping) : List String :=
  uniqueFilenames (sortFilenames (CM.Functions.flatMap (fun F => F.Filenames)))

/-! ## Value profiling data (InstrProf.h, lines 162-203) -/

/-- A profiled value and the number of times it was seen:
`struct InstrProfValueData { uint64_t Value; uint64_t Count; }`. -/
structure InstrProfValueData where
  Value : Nat
  Count : Nat
  deriving DecidableEq, Repr

/-- The insertion step of a stable sort with the comparison
`left.Value < right.Value`: `D` passes the entries that are less than it and stops in
front of the first entry that is not. -/
def insertByValue (D : InstrProfValueData) : List InstrProfValueData → List InstrProfValueData
  | [] => [D]
  | E :: Rest => if E.Value < D.Value then E :: insertByValue D Rest else D :: E :: Rest

/-- The call `ValueData.sort(comparison)` of `std::list`, which is the stable sort of the
standard library; it is rendered as a stable insertion sort. -/
def sortValueData : List InstrProfValueData → List InstrProfValueData
  | [] => []
  | D :: Rest => insertByValue D (sortValueData Rest)

/-- The loop `while (I != IE && I->Value < J->Value) ++I`: the entries that `I` passes
and the entries from the place where `I` stops. -/
def advance (Value : Nat) :
    List InstrProfValueData → List InstrProfValueData × List InstrProfValueData
  | [] => ([], [])
  | I :: Rest =>
    if I.Value < Value then ((I :: (advance Value Rest).1), (advance Value Rest).2)
    else ([], I :: Rest)

/-- The loop over `J` of `mergeValueData`, from the position `I` of the list of `this`
(the first argument holds the entries from `I` on) and the position `J` of the list of
`Input`; the result is what the list of `this` holds from the old position of `I` on.
An entry of `Input` whose value is at `I` adds its count to the count at `I`, in a
`uint64_t`, and `I` moves on; any other entry is inserted in front of `I`. -/
def mergeFrom : List InstrProfValueData → List InstrProfValueData → List InstrProfValueData
  | Rest, [] => Rest
  | Rest, J :: Js =>
    match (advance J.Value Rest).2 with
    | [] => (advance J.Value Rest).1 ++ J :: mergeFrom [] Js
    | I :: After =>
      if I.Value = J.Value then
        (advance J.Value Rest).1 ++
          { Value := I.Value, Count := (I.Count + J.Count) % 2 ^ 64 } :: mergeFrom After Js
      else (advance J.Value Rest).1 ++ J :: mergeFrom (I :: After) Js

/-- The loop over `J` of `mergeValueData` when `Input` is `this` record itself, so that
`I` and `J` walk one and the same list and start at the same entry: at every entry
`I->Value < J->Value` is false and `I->Value == J->Value` is true, so the count of the
entry is added to itself, in a `uint64_t`, and both `I` and `J` move on to the next
entry; nothing is inserted. -/
def mergeSelfFrom : List InstrProfValueData → List InstrProfValueData
  | [] => []
  | J :: Js => { Value := J.Value, Count := (J.Count + J.Count) % 2 ^ 64 } :: mergeSelfFrom Js

/-- The value profiling data at one value site: `std::list<InstrProfValueData> ValueData`. -/
structure InstrProfValueSiteRecord where
  ValueData : List InstrProfValueData := []
  deriving DecidableEq, Repr

namespace InstrProfValueSiteRecord

/-- The member `sortByTargetValues`. -/
def sortByTargetValues (R : InstrProfValueSiteRecord) : InstrProfValueSiteRecord :=
  { ValueData := sortValueData R.ValueData }

/-- The member `mergeValueData(Input)` for an `Input` that is a record other than
`this`: both lists are sorted, then the entries of `Input` are merged into the list of
`this`. The result is the new state of `this` and the new state of `Input`. -/
def mergeValueData (This Input : InstrProfValueSiteRecord) :
    InstrProfValueSiteRecord × InstrProfValueSiteRecord :=
  ({ ValueData :=
      mergeFrom This.sortByTargetValues.ValueData Input.sortByTargetValues.ValueData },
    Input.sortByTargetValues)

/-- The member `mergeValueData(Input)` when `Input` is `this` record itself (the
parameter is a reference that is not `const`, so `S.mergeValueData(S)` is a call the
member accepts): the one list is sorted twice, then the loop runs with `I` and `J` on
that list. -/
def mergeValueDataSelf (This : InstrProfValueSiteRecord) : InstrProfValueSiteRecord :=
  { ValueData := mergeSelfFrom This.sortByTargetValues.sortByTargetValues.ValueData }

end InstrProfValueSiteRecord

/-- The call `Records[This].mergeValueData(Records[Input])` on site records that live in
a vector: the two operands are objects, named by their positions, and they are one and
the same object when the positions agree. The result is the vector after the call;
`none` when a position is outside the vector. -/
def mergeValueDataAt (Records : List InstrProfValueSiteRecord) (This Input : Nat) :
    Option (List InstrProfValueSiteRecord) :=
  match Records[This]?, Records[Input]? with
  | some T, some S =>
    if This = Input then some (Records.set This T.mergeValueDataSelf)
    else some ((Records.set This (T.mergeValueData S).1).set Input (T.mergeValueData S).2)
  | _, _ => none

/-- The count recorded for `Value` in a list of value data: the sum of the counts of the
entries with that value, 0 when there is none. -/
def countOf (Value : Nat) (L : List InstrProfValueData) : Nat :=
  ((L.filter (fun D => decide (D.Value = Value))).map (fun D => D.Count)).sum

/-- The merge of two lists of value data, step by step from their heads: the lesser head
goes first, and two heads with the same value are joined into one entry with the sum of
their counts in a `uint64_t`. -/
def zipMerge : List InstrProfValueData → List InstrProfValueData → List InstrProfValueData
  | [], S => S
  | A :: T, [] => A :: T
  | A :: T, B :: S =>
    if A.Value < B.Value then A :: zipMerge T (B :: S)
    else if B.Value < A.Value then B :: zipMerge (A :: T) S
    else { Value := A.Value, Count := (A.Count + B.Count) % 2 ^ 64 } :: zipMerge T S

/-! ## InstrProfRecord (InstrProf.h, lines 120-347) -/

/-- The error codes of the profile reader: `enum class instrprof_error`. -/
inductive instrprof_error where
  | success
  | eof
  | bad_magic
  | bad_header
  | unsupported_version
  | unsupported_hash_type
  | too_large
  | truncated
  | malformed
  | unknown_function
  | hash_mismatch
  | count_mismatch
  | counter_overflow
  | value_site_count_mismatch
  deriving DecidableEq, Repr

/-- The only value kind: `IPVK_IndirectCallTarget = 0`. -/
def IPVK_IndirectCallTarget : Nat := 0

/-- The table `ValueMapType`, `std::vector<std::pair<uint64_t, const char *>>`: a key and
the address of the string it is mapped to. -/
abbrev ValueMapType := List (Nat × Nat)

/-- The call `std::lower_bound(HashKeys->begin(), HashKeys->end(), Value, comparison)`
with the comparison `LHS.first < RHS`, on a table sorted by key: the first entry whose
key is not less than `Value`; `none` is `HashKeys->end()`. -/
def lowerBound (Value : Nat) : ValueMapType → Option (Nat × Nat)
  | [] => none
  | P :: Rest => if P.1 < Value then lowerBound Value Rest else some P

/-- Profiling information for a single function. -/
structure InstrProfRecord where
  Name : String := ""
  Hash : Nat := 0
  Counts : List Nat := []
  IndirectCallSites : List InstrProfValueSiteRecord := []
  deriving DecidableEq, Repr

/-- The loop `for (I = 0; I < ThisNumValueSites; I++)` of `mergeValueProfData`, with
`Steps` iterations left at index `I`:
`ThisSiteRecords[I].mergeValueData(OtherSiteRecords[I])`. `none`: an index is outside
one of the vectors. -/
def mergeSitesFrom : Nat → Nat → List InstrProfValueSiteRecord →
    List InstrProfValueSiteRecord →
    Option (List InstrProfValueSiteRecord × List InstrProfValueSiteRecord)
  | 0, _, This, Other => some (This, Other)
  | Steps + 1, I, This, Other =>
    match This[I]?, Other[I]? with
    | some T, some S =>
      mergeSitesFrom Steps (I + 1) (This.set I (T.mergeValueData S).1)
        (Other.set I (T.mergeValueData S).2)
    | _, _ => none

namespace InstrProfRecord

/-- The private member `getValueSitesForKind`: the sites of the indirect call targets;
`none` for any other kind, where the code is `llvm_unreachable("Unknown value kind!")`. -/
def getValueSitesForKind (R : InstrProfRecord) (ValueKind : Nat) :
    Option (List InstrProfValueSiteRecord) :=
  if ValueKind = IPVK_IndirectCallTarget then some R.IndirectCallSites else none

/-- The member `getNumValueSites`: the size of the vector, returned as a `uint32_t`. -/
def getNumValueSites (R : InstrProfRecord) (ValueKind : Nat) : Option Nat :=
  (R.getValueSitesForKind ValueKind).map (fun Sites => Sites.length % 2 ^ 32)

/-- The member `getNumValueDataForSite`: the size of the list at `Site`, returned as a
`uint32_t`; `none` when `Site` is outside the vector. -/
def getNumValueDataForSite (R : InstrProfRecord) (ValueKind Site : Nat) : Option Nat :=
  match R.getValueSitesForKind ValueKind with
  | some Sites => (Sites[Site]?).map (fun S => S.ValueData.length % 2 ^ 32)
  | none => none

/-- The private member `remapValue`: without a table the value is returned as it is;
for `IPVK_IndirectCallTarget` the value becomes the address stored in the entry that
`std::lower_bound` finds, after `assert(Result != HashKeys->end())`; for any other
kind the `switch` does nothing. `none`: the assertion fails. -/
def remapValue (Value ValueKind : Nat) (HashKeys : Option ValueMapType) : Option Nat :=
  match HashKeys with
  | none => some Value
  | some Keys =>
    if ValueKind = IPVK_IndirectCallTarget then
      match lowerBound Value Keys with
      | none => none
      | some Result => some Result.2
    else some Value

/-- The first loop of `addValueData`: `VData[I].Value = remapValue(...)` for the first
`N` entries of `VData`. `none`: an assertion fails or `VData` has fewer than `N` entries. -/
def remapValues (ValueKind : Nat) (HashKeys : Option ValueMapType) :
    Nat → List InstrProfValueData → Option (List InstrProfValueData)
  | 0, _ => some []
  | _ + 1, [] => none
  | N + 1, D :: Rest =>
    match remapValue D.Value ValueKind HashKeys, remapValues ValueKind HashKeys N Rest with
    | some V, some Tail => some ({ Value := V, Count := D.Count } :: Tail)
    | _, _ => none

/-- The member `addValueData`: the values of the `N` entries are remapped, and a new
site that holds them is appended to the sites of the kind (`push_back` of an empty
record for `N == 0`, `emplace_back(VData, VData + N)` otherwise). The parameter `Site`
is not used in the body. -/
def addValueData (R : InstrProfRecord) (ValueKind _Site : Nat)
    (VData : List InstrProfValueData) (N : Nat) (HashKeys : Option ValueMapType) :
    Option InstrProfRecord :=
  match remapValues ValueKind HashKeys N VData, R.getValueSitesForKind ValueKind with
  | some Entries, some ValueSites =>
    if N = 0 then some { R with IndirectCallSites := ValueSites ++ [{ ValueData := [] }] }
    else some { R with IndirectCallSites := ValueSites ++ [{ ValueData := Entries }] }
  | _, _ => none

/-- The member `mergeValueProfData`: the two numbers of sites, each a `uint32_t`, are
compared; if they agree, site `I` of `Src` is merged into site `I` of this record for
every `I` below that number. The result is the error code, the new state of this
record and the new state of `Src`. -/
def mergeValueProfData (R Src : InstrProfRecord) (ValueKind : Nat) :
    Option (instrprof_error × InstrProfRecord × InstrProfRecord) :=
  match R.getNumValueSites ValueKind, Src.getNumValueSites ValueKind with
  | some ThisNumValueSites, some OtherNumValueSites =>
    if ThisNumValueSites ≠ OtherNumValueSites then
      some (instrprof_error.value_site_count_mismatch, R, Src)
    else
      match mergeSitesFrom ThisNumValueSites 0 R.IndirectCallSites Src.IndirectCallSites with
      | some (ThisSiteRecords, OtherSiteRecords) =>
        some (instrprof_error.success, { R with IndirectCallSites := ThisSiteRecords },
          { Src with IndirectCallSites := OtherSiteRecords })
      | none => none
  | _, _ => none

end InstrProfRecord

/-- A record with one value site, which holds no data. -/
def oneSiteRecord : InstrProfRecord := { IndirectCallSites := [{ ValueData := [] }] }

/-- A record with 2^32 + 1 value sites, none of which holds data. -/
def hugeSiteRecord : InstrProfRecord :=
  { IndirectCallSites := List.replicate (2 ^ 32) { ValueData := [] } ++ [{ ValueData := [] }] }

/-- A record with two value sites that hold data. -/
def twoSiteRecord : InstrProfRecord :=
  { IndirectCallSites := [{ ValueData := [⟨5, 2⟩, ⟨3, 1⟩] }, { ValueData := [⟨9, 9⟩] }] }

/-- Another record with two value sites that hold data. -/
def twoSiteSource : InstrProfRecord :=
  { IndirectCallSites := [{ ValueData := [⟨7, 4⟩, ⟨5, 1⟩] }, { ValueData := [] }] }

/-! ## The hash of an expression and the calls of the builder -/

/-- The member `DenseMapInfo<CounterExpression>::getHashValue`:
`static_cast<unsigned>(hash_combine(V.Kind, V.LHS.getKind(), V.LHS.getCounterID(),
V.RHS.getKind(), V.RHS.getCounterID()))`. The function `hash_combine` of
`llvm/ADT/Hashing.h` is not part of the sources at hand and is a parameter. -/
def getHashValue (hash_combine : ExprKind → CounterKind → Nat → CounterKind → Nat → Nat)
    (V : CounterExpression) : Nat :=
  hash_combine V.Kind V.LHS.getKind V.LHS.getCounterID V.RHS.getKind V.RHS.getCounterID % 2 ^ 32

/-- The lookup table and the expression vector describe each other: every entry of the
table points at the position that stores its key, every stored expression is found in
the table, and no expression is stored twice. -/
def CounterExpressionBuilder.Interned (B : CounterExpressionBuilder) : Prop :=
  (∀ p ∈ B.ExpressionIndices, B.Expressions[p.2]? = some p.1) ∧
  (∀ E ∈ B.Expressions, ∃ I, findIndex E B.ExpressionIndices = some I) ∧
  B.Expressions.Pairwise (fun E1 E2 => isEqual E1 E2 = false)

/-- The states of a builder after a sequence of calls of `add` and `subtract` that
returned, starting from the empty builder, together with the counters returned by
these calls, the latest first. -/
inductive CounterExpressionBuilder.Calls :
    CounterExpressionBuilder → List Counter → Prop where
  | empty : Calls {} []
  | add (B B1 : CounterExpressionBuilder) (L R C : Counter) (Returned : List Counter) :
      Calls B Returned → B.add L R = some (C, B1) → Calls B1 (C :: Returned)
  | subtract (B B1 : CounterExpressionBuilder) (L R C : Counter) (Returned : List Counter) :
      Calls B Returned → B.subtract L R = some (C, B1) → Calls B1 (C :: Returned)

/-- A group without members. -/
def emptyGroup : InstantiationGroup := { Line := 10, Col := 3, Instantiations := [] }

/-! ## The reserved keys of the lookup table (lines 677-693) -/

/-- The member `DenseMapInfo<CounterExpression>::getEmptyKey`:
`CounterExpression(Subtract, Counter::getCounter(~0U), Counter::getCounter(~0U))`,
where `~0U` is the greatest `unsigned`, 2^32 - 1. -/
def getEmptyKey : CounterExpression :=
  { Kind := ExprKind.Subtract, LHS := Counter.getCounter (2 ^ 32 - 1),
    RHS := Counter.getCounter (2 ^ 32 - 1) }

/-- The member `DenseMapInfo<CounterExpression>::getTombstoneKey`:
`CounterExpression(Add, Counter::getCounter(~0U), Counter::getCounter(~0U))`. -/
def getTombstoneKey : CounterExpression :=
  { Kind := ExprKind.Add, LHS := Counter.getCounter (2 ^ 32 - 1),
    RHS := Counter.getCounter (2 ^ 32 - 1) }

/-! # Properties -/

/-! ## The lookup table and `get` -/

theorem isEqual_iff (L R : CounterExpression) : isEqual L R = true ↔ L = R := by
  cases L with
  | mk k l r =>
    cases R with
    | mk k2 l2 r2 =>
      cases l; cases r; cases l2; cases r2
      simp [isEqual, and_assoc]

theorem findIndex_mem (E : CounterExpression) (T : List (CounterExpression × Nat)) (I : Nat)
    (h : findIndex E T = some I) : (E, I) ∈ T := by
  induction T with
  | nil => simp [findIndex] at h
  | cons p rest ih =>
    obtain ⟨K, J⟩ := p
    simp only [findIndex] at h
    by_cases hk : isEqual K E = true
    · rw [if_pos hk] at h
      have hKE := (isEqual_iff K E).1 hk
      simp only [Option.some.injEq] at h
      subst hKE; subst h
      exact List.mem_cons_self _ _
    · rw [if_neg hk] at h
      exact List.mem_cons_of_mem _ (ih h)

theorem Extends.refl (B : CounterExpressionBuilder) : B.Extends B :=
  ⟨⟨[], by simp⟩, fun _ _ h => h⟩

theorem Extends.trans {B1 B2 B3 : CounterExpressionBuilder}
    (h12 : B1.Extends B2) (h23 : B2.Extends B3) : B1.Extends B3 := by
  obtain ⟨⟨m1, e1⟩, f1⟩ := h12
  obtain ⟨⟨m2, e2⟩, f2⟩ := h23
  refine ⟨⟨m1 ++ m2, ?_⟩, fun E I h => f2 E I (f1 E I h)⟩
  rw [e2, e1, List.append_assoc]

theorem get_of_found (B : CounterExpressionBuilder) (E : CounterExpression) (I : Nat)
    (h : findIndex E B.ExpressionIndices = some I) :
    B.get E = (Counter.getExpression I, B) := by
  simp [CounterExpressionBuilder.get, h]

theorem get_found (B : CounterExpressionBuilder) (E : CounterExpression) :
    findIndex E (B.get E).2.ExpressionIndices = some (B.get E).1.ID := by
  unfold CounterExpressionBuilder.get
  cases h : findIndex E B.ExpressionIndices with
  | some I => simp [h, Counter.getExpression]
  | none =>
    have : isEqual E E = true := (isEqual_iff E E).2 rfl
    simp [findIndex, this, Counter.getExpression]

theorem get_kind (B : CounterExpressionBuilder) (E : CounterExpression) :
    (B.get E).1 = Counter.getExpression (B.get E).1.ID := by
  unfold CounterExpressionBuilder.get
  cases h : findIndex E B.ExpressionIndices <;> simp [Counter.getExpression]

theorem get_extends (B : CounterExpressionBuilder) (E : CounterExpression) :
    B.Extends (B.get E).2 := by
  unfold CounterExpressionBuilder.get
  cases h : findIndex E B.ExpressionIndices with
  | some I => exact Extends.refl B
  | none =>
    refine ⟨⟨[E], rfl⟩, fun E2 I h2 => ?_⟩
    have hne : ¬ isEqual E E2 = true := by
      intro he
      have := (isEqual_iff E E2).1 he
      subst this
      rw [h] at h2
      exact Option.noConfusion h2
    simp [findIndex, hne, h2]

theorem get_replay (B B2 : CounterExpressionBuilder) (E : CounterExpression)
    (h : (B.get E).2.Extends B2) : B2.get E = ((B.get E).1, B2) := by
  have h1 := h.2 E _ (get_found B E)
  rw [get_of_found B2 E _ h1]
  rw [← get_kind]

/-! ## Replaying the construction of the canonical tree -/

theorem replayable_addUnit (CounterID : Nat) : Replayable (addUnit CounterID) := by
  intro C B
  unfold addUnit
  by_cases hz : C.isZero = true
  · refine ⟨?_, fun B2 _ => ?_⟩
    · simp only [hz, if_true]; exact Extends.refl B
    · simp only [hz, if_true]
  · simp only [hz]
    exact ⟨get_extends B _, fun B2 h => get_replay B B2 _ h⟩

theorem replayable_subtractUnit (CounterID : Nat) : Replayable (subtractUnit CounterID) := by
  intro C B
  unfold subtractUnit
  exact ⟨get_extends B _, fun B2 h => get_replay B B2 _ h⟩

theorem replayable_id : Replayable (fun S => S) := by
  intro C B
  exact ⟨Extends.refl B, fun B2 _ => rfl⟩

theorem replayable_comp {f g : Counter × CounterExpressionBuilder → Counter × CounterExpressionBuilder}
    (hf : Replayable f) (hg : Replayable g) : Replayable (fun S => g (f S)) := by
  intro C B
  have hf1 := hf C B
  have hg1 := hg (f (C, B)).1 (f (C, B)).2
  simp only [Prod.mk.eta] at hg1
  refine ⟨Extends.trans hf1.1 hg1.1, fun B2 h => ?_⟩
  have e1 : f (C, B2) = ((f (C, B)).1, B2) := hf1.2 B2 (Extends.trans hg1.1 h)
  show g (f (C, B2)) = _
  rw [e1]
  have := hg1.2 B2 h
  exact this

theorem replayable_iterate {f : Counter × CounterExpressionBuilder → Counter × CounterExpressionBuilder}
    (hf : Replayable f) (N : Nat) : Replayable (iterate f N) := by
  induction N with
  | zero => exact replayable_id
  | succ n ih =>
    have : iterate f (n + 1) = fun S => iterate f n (f S) := by
      funext S; rfl
    rw [this]
    exact replayable_comp hf ih

theorem replayable_createAdditions (Terms : List Term) : Replayable (createAdditions Terms) := by
  induction Terms with
  | nil => exact replayable_id
  | cons T rest ih =>
    by_cases h : 0 < T.Factor
    · have : createAdditions (T :: rest) =
          fun S => createAdditions rest (iterate (addUnit T.CounterID) T.Factor.toNat S) := by
        funext S; simp [createAdditions, h]
      rw [this]
      exact replayable_comp (replayable_iterate (replayable_addUnit _) _) ih
    · have : createAdditions (T :: rest) = createAdditions rest := by
        funext S; simp [createAdditions, h]
      rw [this]; exact ih

theorem replayable_createSubtractions (Terms : List Term) :
    Replayable (createSubtractions Terms) := by
  induction Terms with
  | nil => exact replayable_id
  | cons T rest ih =>
    by_cases h : T.Factor < 0
    · have : createSubtractions (T :: rest) =
          fun S => createSubtractions rest
            (iterate (subtractUnit T.CounterID) (toInt32 (-T.Factor)).toNat S) := by
        funext S; simp [createSubtractions, h]
      rw [this]
      exact replayable_comp (replayable_iterate (replayable_subtractUnit _) _) ih
    · have : createSubtractions (T :: rest) = createSubtractions rest := by
        funext S; simp [createSubtractions, h]
      rw [this]; exact ih

theorem buildTree_extends (Terms : List Term) (B : CounterExpressionBuilder) :
    B.Extends (buildTree Terms B).2 :=
  (replayable_comp (replayable_createAdditions Terms)
    (replayable_createSubtractions Terms) Counter.getZero B).1

theorem buildTree_replay (Terms : List Term) (B B2 : CounterExpressionBuilder)
    (h : (buildTree Terms B).2.Extends B2) :
    buildTree Terms B2 = ((buildTree Terms B).1, B2) :=
  (replayable_comp (replayable_createAdditions Terms)
    (replayable_createSubtractions Terms) Counter.getZero B).2 B2 h

/-! ## Term extraction -/

theorem extractTerms_succ (Ex : List CounterExpression) (n : Nat) :
    ∀ (C : Counter) (s : Int) (acc T : List Term),
      extractTerms Ex n C s acc = some T → extractTerms Ex (n + 1) C s acc = some T := by
  induction n with
  | zero => intro C s acc T h; simp [extractTerms] at h
  | succ n ih =>
    intro C s acc T h
    rw [extractTerms] at h
    rw [extractTerms]
    cases hk : C.Kind with
    | Zero => simpa [hk] using h
    | CounterValueReference => simpa [hk] using h
    | Expression =>
      simp only [hk] at h ⊢
      cases hE : Ex[C.ID]? with
      | none => simp [hE] at h
      | some E =>
        simp only [hE] at h ⊢
        cases hL : extractTerms Ex n E.LHS s acc with
        | none => simp [hL] at h
        | some T1 =>
          simp only [hL] at h
          rw [ih _ _ _ _ hL]
          exact ih _ _ _ _ h

theorem extractTerms_mono (Ex : List CounterExpression) (n m : Nat) (hnm : n ≤ m)
    (C : Counter) (s : Int) (acc T : List Term)
    (h : extractTerms Ex n C s acc = some T) : extractTerms Ex m C s acc = some T := by
  induction hnm with
  | refl => exact h
  | step _ ih => exact extractTerms_succ Ex _ C s acc T ih

theorem extractTerms_append (Ex more : List CounterExpression) (n : Nat) :
    ∀ (C : Counter) (s : Int) (acc T : List Term),
      extractTerms Ex n C s acc = some T → extractTerms (Ex ++ more) n C s acc = some T := by
  induction n with
  | zero => intro C s acc T h; simp [extractTerms] at h
  | succ n ih =>
    intro C s acc T h
    rw [extractTerms] at h
    rw [extractTerms]
    cases hk : C.Kind with
    | Zero => simpa [hk] using h
    | CounterValueReference => simpa [hk] using h
    | Expression =>
      simp only [hk] at h ⊢
      cases hE : Ex[C.ID]? with
      | none => simp [hE] at h
      | some E =>
        have hE2 : (Ex ++ more)[C.ID]? = some E := by
          have hlt : C.ID < Ex.length := by
            by_contra hc
            rw [List.getElem?_eq_none (by omega)] at hE
            exact Option.noConfusion hE
          rw [List.getElem?_append_left hlt]; exact hE
        simp only [hE] at h
        simp only [hE2]
        cases hL : extractTerms Ex n E.LHS s acc with
        | none => simp [hL] at h
        | some T1 =>
          simp only [hL] at h
          rw [ih _ _ _ _ hL]
          exact ih _ _ _ _ h

theorem extractTerms_acc (Ex : List CounterExpression) (n : Nat) :
    ∀ (C : Counter) (s : Int) (acc : List Term),
      extractTerms Ex n C s acc = (extractTerms Ex n C s []).map (fun T => acc ++ T) := by
  induction n with
  | zero => intro C s acc; simp [extractTerms]
  | succ n ih =>
    intro C s acc
    rw [extractTerms, extractTerms]
    cases hk : C.Kind with
    | Zero => simp
    | CounterValueReference => simp
    | Expression =>
      simp only []
      cases hE : Ex[C.ID]? with
      | none => simp
      | some E =>
        simp only []
        rw [ih E.LHS s acc]
        cases hL : extractTerms Ex n E.LHS s [] with
        | none => simp
        | some T1 =>
          simp only [Option.map_some']
          rw [ih E.RHS _ (acc ++ T1), ih E.RHS _ T1]
          cases extractTerms Ex n E.RHS (if E.Kind = ExprKind.Subtract then -s else s) [] with
          | none => simp
          | some T2 => simp

/-- In a vector whose expressions only refer to earlier ones, the extraction from
a counter valid below `k` returns with fuel `k + 1`. -/
theorem extractTerms_total (Ex : List CounterExpression)
    (hdag : ∀ I, I < Ex.length → ∀ E, Ex[I]? = some E →
      E.LHS.validBelow I ∧ E.RHS.validBelow I) (k : Nat) :
    ∀ (C : Counter) (s : Int) (acc : List Term), k ≤ Ex.length → C.validBelow k →
      ∃ T, extractTerms Ex (k + 1) C s acc = some T := by
  induction k using Nat.strong_induction_on with
  | _ k ih =>
    intro C s acc hk hv
    rw [extractTerms]
    cases hkind : C.Kind with
    | Zero => exact ⟨_, rfl⟩
    | CounterValueReference => exact ⟨_, rfl⟩
    | Expression =>
      have hlt : C.ID < k := hv hkind
      have hlt2 : C.ID < Ex.length := by omega
      have hE : Ex[C.ID]? = some Ex[C.ID] := List.getElem?_eq_getElem hlt2
      simp only [hE]
      obtain ⟨hl, hr⟩ := hdag C.ID hlt2 _ hE
      obtain ⟨T1, h1⟩ := ih C.ID hlt Ex[C.ID].LHS s acc (by omega) hl
      have h1k := extractTerms_mono Ex (C.ID + 1) k (by omega) _ _ _ _ h1
      rw [h1k]
      obtain ⟨T2, h2⟩ := ih C.ID hlt Ex[C.ID].RHS
        (if Ex[C.ID].Kind = ExprKind.Subtract then -s else s) T1 (by omega) hr
      exact ⟨T2, extractTerms_mono Ex (C.ID + 1) k (by omega) _ _ _ _ h2⟩

/-! ## The class invariant -/

theorem wellFormed_empty : CounterExpressionBuilder.WellFormed {} := by
  constructor
  · intro p hp; simp at hp
  · intro I hI; simp at hI

theorem validBelow_mono {C : Counter} {n m : Nat} (h : C.validBelow n) (hnm : n ≤ m) :
    C.validBelow m := fun hk => Nat.lt_of_lt_of_le (h hk) hnm

theorem validBelow_getCounter (id N : Nat) : (Counter.getCounter id).validBelow N := by
  intro h; simp [Counter.getCounter] at h

theorem validBelow_getZero (N : Nat) : Counter.getZero.validBelow N := by
  intro h; simp [Counter.getZero] at h

theorem extends_length {B1 B2 : CounterExpressionBuilder} (h : B1.Extends B2) :
    B1.Expressions.length ≤ B2.Expressions.length := by
  obtain ⟨⟨more, e⟩, _⟩ := h
  rw [e, List.length_append]; omega

theorem get_stored (B : CounterExpressionBuilder) (E : CounterExpression)
    (hwf : B.WellFormed) : (B.get E).2.Expressions[(B.get E).1.ID]? = some E := by
  unfold CounterExpressionBuilder.get
  cases h : findIndex E B.ExpressionIndices with
  | some I =>
    simp only [Counter.getExpression]
    exact hwf.1 (E, I) (findIndex_mem E _ I h)
  | none =>
    simp [Counter.getExpression]

theorem get_id_lt (B : CounterExpressionBuilder) (E : CounterExpression)
    (hwf : B.WellFormed) : (B.get E).1.ID < (B.get E).2.Expressions.length := by
  have h := get_stored B E hwf
  by_contra hc
  rw [List.getElem?_eq_none (by omega)] at h
  exact Option.noConfusion h

theorem get_wellFormed (B : CounterExpressionBuilder) (E : CounterExpression)
    (hwf : B.WellFormed) (hl : E.LHS.validBelow B.Expressions.length)
    (hr : E.RHS.validBelow B.Expressions.length) : (B.get E).2.WellFormed := by
  unfold CounterExpressionBuilder.get
  cases h : findIndex E B.ExpressionIndices with
  | some I => exact hwf
  | none =>
    constructor
    · intro p hp
      simp only [List.mem_cons] at hp
      rcases hp with hp | hp
      · subst hp; simp
      · have h1 := hwf.1 p hp
        have hlt : p.2 < B.Expressions.length := by
          by_contra hc
          rw [List.getElem?_eq_none (by omega)] at h1
          exact Option.noConfusion h1
        simp only
        rw [List.getElem?_append_left hlt]; exact h1
    · intro I hI E2 hE2
      simp only [List.length_append, List.length_singleton] at hI
      simp only at hE2
      by_cases hlt : I < B.Expressions.length
      · rw [List.getElem?_append_left hlt] at hE2
        exact hwf.2 I hlt E2 hE2
      · have hIeq : I = B.Expressions.length := by omega
        subst hIeq
        simp at hE2
        subst hE2
        exact ⟨hl, hr⟩

theorem get_sound (B : CounterExpressionBuilder) (E : CounterExpression)
    (hwf : B.WellFormed) (hl : E.LHS.validBelow B.Expressions.length)
    (hr : E.RHS.validBelow B.Expressions.length) : SoundState (B.get E) := by
  refine ⟨get_wellFormed B E hwf hl hr, fun _ => get_id_lt B E hwf⟩

theorem sound_addUnit (CounterID : Nat) (S : Counter × CounterExpressionBuilder)
    (h : SoundState S) : SoundState (addUnit CounterID S) := by
  unfold addUnit
  by_cases hz : S.1.isZero = true
  · simp only [hz, if_true]
    exact ⟨h.1, validBelow_getCounter _ _⟩
  · simp only [hz]
    exact get_sound S.2 _ h.1 h.2 (validBelow_getCounter _ _)

theorem sound_subtractUnit (CounterID : Nat) (S : Counter × CounterExpressionBuilder)
    (h : SoundState S) : SoundState (subtractUnit CounterID S) := by
  unfold subtractUnit
  exact get_sound S.2 _ h.1 h.2 (validBelow_getCounter _ _)

theorem sound_iterate {f : Counter × CounterExpressionBuilder → Counter × CounterExpressionBuilder}
    (hf : ∀ S, SoundState S → SoundState (f S)) (N : Nat) :
    ∀ S, SoundState S → SoundState (iterate f N S) := by
  induction N with
  | zero => intro S h; exact h
  | succ n ih => intro S h; exact ih (f S) (hf S h)

theorem sound_createAdditions (Terms : List Term) :
    ∀ S, SoundState S → SoundState (createAdditions Terms S) := by
  induction Terms with
  | nil => intro S h; exact h
  | cons T rest ih =>
    intro S h
    unfold createAdditions
    by_cases hp : 0 < T.Factor
    · simp only [hp, if_true]
      exact ih _ (sound_iterate (sound_addUnit _) _ S h)
    · simp only [hp]
      exact ih S h

theorem sound_createSubtractions (Terms : List Term) :
    ∀ S, SoundState S → SoundState (createSubtractions Terms S) := by
  induction Terms with
  | nil => intro S h; exact h
  | cons T rest ih =>
    intro S h
    unfold createSubtractions
    by_cases hp : T.Factor < 0
    · simp only [hp, if_true]
      exact ih _ (sound_iterate (sound_subtractUnit _) _ S h)
    · simp only [hp]
      exact ih S h

theorem sound_buildTree (Terms : List Term) (B : CounterExpressionBuilder)
    (hwf : B.WellFormed) : SoundState (buildTree Terms B) :=
  sound_createSubtractions Terms _
    (sound_createAdditions Terms _ ⟨hwf, validBelow_getZero _⟩)

/-! ## Normalisation of term sequences -/

theorem netFactor_append (id : Nat) (L1 L2 : List Term) :
    netFactor id (L1 ++ L2) = netFactor id L1 + netFactor id L2 := by
  induction L1 with
  | nil => simp [netFactor]
  | cons T rest ih =>
    show (if T.CounterID = id then T.Factor else 0) + netFactor id (rest ++ L2) = _
    rw [ih]; simp only [netFactor]; ring

theorem netFactor_insertTerm (id : Nat) (T : Term) (L : List Term) :
    netFactor id (insertTerm T L) = netFactor id (T :: L) := by
  induction L with
  | nil => simp [insertTerm]
  | cons U rest ih =>
    unfold insertTerm
    by_cases h : T.CounterID ≤ U.CounterID
    · simp only [h, if_true]
    · simp only [h]
      simp only [netFactor] at ih ⊢
      rw [ih]; ring

theorem netFactor_sortTerms (id : Nat) (L : List Term) :
    netFactor id (sortTerms L) = netFactor id L := by
  induction L with
  | nil => simp [sortTerms]
  | cons T rest ih =>
    simp only [sortTerms]
    rw [netFactor_insertTerm]
    simp only [netFactor, ih]

theorem toInt32_of_inRange (x : Int) (h1 : -2 ^ 31 ≤ x) (h2 : x < 2 ^ 31) : toInt32 x = x := by
  unfold toInt32; omega

theorem toInt32_inRange (x : Int) : -2 ^ 31 ≤ toInt32 x ∧ toInt32 x < 2 ^ 31 := by
  unfold toInt32; omega

theorem toInt32_add_left (a b : Int) : toInt32 (toInt32 a + b) = toInt32 (a + b) := by
  unfold toInt32; omega

theorem toInt32_congr_add (c x y : Int) (h : toInt32 x = toInt32 y) :
    toInt32 (c + x) = toInt32 (c + y) := by
  unfold toInt32 at *; omega

/-- Merging keeps every net factor as an `int`: the sums agree modulo 2^32. -/
theorem netFactor_combineFrom (id : Nat) (L : List Term) :
    ∀ P : Term, toInt32 (netFactor id (combineFrom P L)) = toInt32 (netFactor id (P :: L)) := by
  induction L with
  | nil => intro P; simp [combineFrom]
  | cons T rest ih =>
    intro P
    unfold combineFrom
    by_cases h : T.CounterID = P.CounterID
    · simp only [h, if_true]
      rw [ih]
      simp only [netFactor, h]
      by_cases h2 : P.CounterID = id
      · simp only [h2, if_true]
        rw [toInt32_add_left]
        congr 1; ring
      · simp only [h2, if_false]
        congr 1; ring
    · simp only [h]
      simp only [netFactor] at ih ⊢
      exact toInt32_congr_add _ _ _ (ih T)

theorem netFactor_combineTerms (id : Nat) (L : List Term) :
    toInt32 (netFactor id (combineTerms L)) = toInt32 (netFactor id L) := by
  cases L with
  | nil => simp [combineTerms]
  | cons T rest => simp only [combineTerms]; exact netFactor_combineFrom id rest T

theorem netFactor_filter (id : Nat) (L : List Term) :
    netFactor id (L.filter (fun T => decide (T.Factor ≠ 0))) = netFactor id L := by
  induction L with
  | nil => simp
  | cons T rest ih =>
    by_cases h : T.Factor = 0
    · simp only [List.filter, h, ne_eq, not_true_eq_false, decide_False, netFactor, ih]
      simp
    · simp only [List.filter, h, ne_eq, not_false_eq_true, decide_True, netFactor, ih]

theorem netFactor_eq_zero (id : Nat) (L : List Term)
    (h : ∀ U ∈ L, U.CounterID ≠ id) : netFactor id L = 0 := by
  induction L with
  | nil => rfl
  | cons T rest ih =>
    have h1 : T.CounterID ≠ id := h T (List.mem_cons_self _ _)
    simp only [netFactor, h1, if_false, zero_add]
    exact ih (fun U hU => h U (List.mem_cons_of_mem _ hU))

theorem mem_insertTerm (T U : Term) (L : List Term) :
    U ∈ insertTerm T L ↔ U = T ∨ U ∈ L := by
  induction L with
  | nil => simp [insertTerm]
  | cons V rest ih =>
    unfold insertTerm
    by_cases h : T.CounterID ≤ V.CounterID
    · simp only [h, if_true, List.mem_cons]
    · simp only [h, if_false, List.mem_cons, ih]
      tauto

theorem sorted_insertTerm (T : Term) (L : List Term) (h : SortedById L) :
    SortedById (insertTerm T L) := by
  induction L with
  | nil => simp [insertTerm, SortedById]
  | cons V rest ih =>
    unfold insertTerm
    by_cases hle : T.CounterID ≤ V.CounterID
    · simp only [hle, if_true]
      refine ⟨fun U hU => ?_, h⟩
      rcases List.mem_cons.1 hU with hU | hU
      · subst hU; exact hle
      · exact Nat.le_trans hle (h.1 U hU)
    · simp only [hle, if_false]
      refine ⟨fun U hU => ?_, ih h.2⟩
      rcases (mem_insertTerm T U rest).1 hU with hU | hU
      · subst hU; omega
      · exact h.1 U hU

theorem sorted_sortTerms (L : List Term) : SortedById (sortTerms L) := by
  induction L with
  | nil => simp [sortTerms, SortedById]
  | cons T rest ih => exact sorted_insertTerm T _ ih

theorem strict_combineFrom (L : List Term) :
    ∀ P : Term, (∀ U ∈ L, P.CounterID ≤ U.CounterID) → SortedById L →
      StrictById (combineFrom P L) ∧ ∀ U ∈ combineFrom P L, P.CounterID ≤ U.CounterID := by
  induction L with
  | nil =>
    intro P _ _
    simp [combineFrom, StrictById]
  | cons T rest ih =>
    intro P hP hs
    unfold combineFrom
    have hPT : P.CounterID ≤ T.CounterID := hP T (List.mem_cons_self _ _)
    by_cases h : T.CounterID = P.CounterID
    · simp only [h, if_true]
      have := ih { CounterID := P.CounterID, Factor := toInt32 (P.Factor + T.Factor) }
        (fun U hU => hP U (List.mem_cons_of_mem _ hU)) hs.2
      exact this
    · simp only [h, if_false]
      obtain ⟨h1, h2⟩ := ih T hs.1 hs.2
      refine ⟨⟨fun U hU => ?_, h1⟩, fun U hU => ?_⟩
      · have := h2 U hU; omega
      · rcases List.mem_cons.1 hU with hU | hU
        · subst hU; exact Nat.le_refl _
        · have := h2 U hU; omega

theorem strict_combineTerms (L : List Term) (hs : SortedById L) :
    StrictById (combineTerms L) := by
  cases L with
  | nil => simp [combineTerms, StrictById]
  | cons T rest => exact (strict_combineFrom rest T hs.1 hs.2).1

theorem normalForm_filter (L : List Term) (hs : StrictById L) :
    IsNormalForm (L.filter (fun T => decide (T.Factor ≠ 0))) := by
  induction L with
  | nil => simp [IsNormalForm]
  | cons T rest ih =>
    by_cases h : T.Factor = 0
    · simp only [List.filter, h, ne_eq, not_true_eq_false, decide_False]
      exact ih hs.2
    · simp only [List.filter, h, ne_eq, not_false_eq_true, decide_True]
      exact ⟨h, fun U hU => hs.1 U (List.mem_of_mem_filter hU), ih hs.2⟩

theorem normalForm_normalizeTerms (L : List Term) : IsNormalForm (normalizeTerms L) :=
  normalForm_filter _ (strict_combineTerms _ (sorted_sortTerms L))

/-- A normal form is determined by its net factors. -/
theorem normalForm_unique (M1 : List Term) :
    ∀ M2 : List Term, IsNormalForm M1 → IsNormalForm M2 →
      (∀ id, netFactor id M1 = netFactor id M2) → M1 = M2 := by
  induction M1 with
  | nil =>
    intro M2 _ h2 h
    cases M2 with
    | nil => rfl
    | cons b M2 =>
      exfalso
      have hb := h b.CounterID
      have hz : netFactor b.CounterID M2 = 0 :=
        netFactor_eq_zero _ _ (fun U hU => by have := h2.2.1 U hU; omega)
      simp only [netFactor, hz, if_true, add_zero] at hb
      exact h2.1 hb.symm
  | cons a M1 ih =>
    intro M2 h1 h2 h
    have ha0 : netFactor a.CounterID M1 = 0 :=
      netFactor_eq_zero _ _ (fun U hU => by have := h1.2.1 U hU; omega)
    cases M2 with
    | nil =>
      exfalso
      have hb := h a.CounterID
      simp only [netFactor, ha0, if_true, add_zero] at hb
      exact h1.1 hb
    | cons b M2 =>
      have hb0 : netFactor b.CounterID M2 = 0 :=
        netFactor_eq_zero _ _ (fun U hU => by have := h2.2.1 U hU; omega)
      have hid : a.CounterID = b.CounterID := by
        rcases Nat.lt_trichotomy a.CounterID b.CounterID with hlt | heq | hgt
        · exfalso
          have hb := h a.CounterID
          have hz : netFactor a.CounterID M2 = 0 :=
            netFactor_eq_zero _ _ (fun U hU => by have := h2.2.1 U hU; omega)
          have hne : ¬ b.CounterID = a.CounterID := by omega
          simp only [netFactor, ha0, hz, hne, if_true, if_false, add_zero] at hb
          exact h1.1 hb
        · exact heq
        · exfalso
          have hb := h b.CounterID
          have hz : netFactor b.CounterID M1 = 0 :=
            netFactor_eq_zero _ _ (fun U hU => by have := h1.2.1 U hU; omega)
          have hne : ¬ a.CounterID = b.CounterID := by omega
          simp only [netFactor, hb0, hz, hne, if_true, if_false, add_zero] at hb
          exact h2.1 hb.symm
      have hf : a.Factor = b.Factor := by
        have hb := h a.CounterID
        rw [hid] at ha0
        simp only [netFactor, hid, ha0, hb0, if_true, add_zero] at hb
        exact hb
      have hab : a = b := by
        cases a; cases b; simp only [Term.mk.injEq]; exact ⟨hid, hf⟩
      subst hab
      have htail : M1 = M2 := by
        apply ih M2 h1.2.2 h2.2.2
        intro id
        have hb := h id
        simp only [netFactor] at hb
        exact add_left_cancel hb
      rw [htail]

theorem mem_sortTerms (U : Term) (L : List Term) : U ∈ sortTerms L ↔ U ∈ L := by
  induction L with
  | nil => simp [sortTerms]
  | cons T rest ih => simp only [sortTerms, mem_insertTerm, ih, List.mem_cons]

theorem inRange_combineFrom (L : List Term) :
    ∀ P : Term, InRange (P :: L) → InRange (combineFrom P L) := by
  induction L with
  | nil => intro P h; simpa [combineFrom] using h
  | cons T rest ih =>
    intro P h
    unfold combineFrom
    by_cases hc : T.CounterID = P.CounterID
    · simp only [hc, if_true]
      apply ih
      intro U hU
      rcases List.mem_cons.1 hU with hU | hU
      · rw [hU]; exact toInt32_inRange _
      · exact h U (List.mem_cons_of_mem _ (List.mem_cons_of_mem _ hU))
    · simp only [hc, if_false]
      intro U hU
      rcases List.mem_cons.1 hU with hU | hU
      · rw [hU]; exact h P (List.mem_cons_self _ _)
      · exact ih T (fun V hV => h V (List.mem_cons_of_mem _ hV)) U hU

/-- Normalisation of factors that are values of `int` gives such factors. -/
theorem inRange_normalizeTerms (L : List Term) (h : InRange L) : InRange (normalizeTerms L) := by
  unfold normalizeTerms
  intro U hU
  have hU2 : U ∈ combineTerms (sortTerms L) := List.mem_of_mem_filter hU
  have hs : InRange (sortTerms L) := fun V hV => h V ((mem_sortTerms V L).1 hV)
  cases hL : sortTerms L with
  | nil => rw [hL] at hU2; simp [combineTerms] at hU2
  | cons T rest =>
    rw [hL] at hU2 hs
    exact inRange_combineFrom rest T hs U hU2

/-- In a normal form the net factor of a counter is the factor of its one term, or 0. -/
theorem netFactor_inRange (id : Nat) (N : List Term) (hN : IsNormalForm N) (hr : InRange N) :
    -2 ^ 31 ≤ netFactor id N ∧ netFactor id N < 2 ^ 31 := by
  induction N with
  | nil => simp [netFactor]
  | cons T rest ih =>
    have hrest := ih hN.2.2 (fun U hU => hr U (List.mem_cons_of_mem _ hU))
    by_cases hc : T.CounterID = id
    · have hz : netFactor id rest = 0 :=
        netFactor_eq_zero _ _ (fun U hU => by have := hN.2.1 U hU; omega)
      simp only [netFactor, hc, if_true, hz, add_zero]
      exact hr T (List.mem_cons_self _ _)
    · simp only [netFactor, hc, if_false, zero_add]
      exact hrest

/-- The net factor of a counter after normalisation is its net factor before, as an
`int`. -/
theorem netFactor_normalizeTerms (id : Nat) (L : List Term) (h : InRange L) :
    netFactor id (normalizeTerms L) = toInt32 (netFactor id L) := by
  have h1 : toInt32 (netFactor id (normalizeTerms L)) = toInt32 (netFactor id L) := by
    unfold normalizeTerms
    rw [netFactor_filter, netFactor_combineTerms, netFactor_sortTerms]
  have h2 := netFactor_inRange id _ (normalForm_normalizeTerms L) (inRange_normalizeTerms L h)
  rw [← h1, toInt32_of_inRange _ h2.1 h2.2]

theorem normalizeTerms_congr (T1 T2 : List Term) (h1 : InRange T1) (h2 : InRange T2)
    (h : ∀ id, toInt32 (netFactor id T1) = toInt32 (netFactor id T2)) :
    normalizeTerms T1 = normalizeTerms T2 :=
  normalForm_unique _ _ (normalForm_normalizeTerms T1) (normalForm_normalizeTerms T2)
    (fun id => by rw [netFactor_normalizeTerms _ _ h1, netFactor_normalizeTerms _ _ h2]; exact h id)

theorem normalizeTerms_nil_of_netFactor (T : List Term) (hT : InRange T)
    (h : ∀ id, netFactor id T = 0) :
    normalizeTerms T = [] := by
  have : normalizeTerms T = normalizeTerms [] :=
    normalizeTerms_congr T [] hT (fun U hU => by simp at hU) (fun id => by rw [h id]; rfl)
  rw [this]; rfl

theorem inRange_of_units (T : List Term) (h : Units T) : InRange T := by
  intro U hU
  rcases h U hU with h1 | h1 <;> rw [h1] <;> constructor <;> norm_num

theorem units_append (T1 T2 : List Term) (h1 : Units T1) (h2 : Units T2) : Units (T1 ++ T2) := by
  intro U hU
  rcases List.mem_append.1 hU with hU | hU
  · exact h1 U hU
  · exact h2 U hU

theorem units_negTerms (T : List Term) (h : Units T) : Units (negTerms T) := by
  intro U hU
  unfold negTerms at hU
  obtain ⟨V, hV, hVU⟩ := List.mem_map.1 hU
  rw [← hVU]
  rcases h V hV with h1 | h1
  · right; simp only [h1]
  · left; simp only [h1]; norm_num

/-- Every extracted term has the factor 1 or -1. -/
theorem extractTerms_units (Ex : List CounterExpression) (n : Nat) :
    ∀ (C : Counter) (s : Int) (acc T : List Term), (s = 1 ∨ s = -1) → Units acc →
      extractTerms Ex n C s acc = some T → Units T := by
  induction n with
  | zero => intro C s acc T _ _ h; simp [extractTerms] at h
  | succ n ih =>
    intro C s acc T hs hacc h
    rw [extractTerms] at h
    cases hk : C.Kind with
    | Zero =>
      simp only [hk, Option.some.injEq] at h
      rw [← h]; exact hacc
    | CounterValueReference =>
      simp only [hk, Option.some.injEq] at h
      rw [← h]
      exact units_append _ _ hacc (fun U hU => by
        rw [List.mem_singleton.1 hU]; exact hs)
    | Expression =>
      simp only [hk] at h
      cases hE : Ex[C.ID]? with
      | none => simp [hE] at h
      | some E =>
        simp only [hE] at h
        cases hL : extractTerms Ex n E.LHS s acc with
        | none => simp [hL] at h
        | some T1 =>
          simp only [hL] at h
          have hT1 := ih E.LHS s acc T1 hs hacc hL
          refine ih E.RHS _ T1 T ?_ hT1 h
          split
          · rcases hs with hs | hs
            · right; rw [hs]
            · left; rw [hs]; norm_num
          · exact hs

/-! ## The terms of a counter -/

theorem extractTerms_neg (Ex : List CounterExpression) (n : Nat) :
    ∀ (C : Counter) (s : Int),
      extractTerms Ex n C (-s) [] = (extractTerms Ex n C s []).map negTerms := by
  induction n with
  | zero => intro C s; simp [extractTerms]
  | succ n ih =>
    intro C s
    rw [extractTerms, extractTerms]
    cases hk : C.Kind with
    | Zero => simp [negTerms]
    | CounterValueReference => simp [negTerms]
    | Expression =>
      simp only []
      cases hE : Ex[C.ID]? with
      | none => simp
      | some E =>
        simp only []
        rw [ih E.LHS s]
        cases hL : extractTerms Ex n E.LHS s [] with
        | none => simp
        | some T1 =>
          simp only [Option.map_some']
          rw [extractTerms_acc Ex n E.RHS _ (negTerms T1), extractTerms_acc Ex n E.RHS _ T1]
          have hsign : (if E.Kind = ExprKind.Subtract then - -s else -s) =
              -(if E.Kind = ExprKind.Subtract then -s else s) := by
            split <;> rfl
          rw [hsign, ih E.RHS]
          cases extractTerms Ex n E.RHS (if E.Kind = ExprKind.Subtract then -s else s) [] with
          | none => simp
          | some T2 => simp [negTerms]

theorem simplify_eq (B : CounterExpressionBuilder) (C : Counter) :
    B.simplify C = (termsOf B C).map (fun T => buildTree (normalizeTerms T) B) := by
  unfold CounterExpressionBuilder.simplify termsOf
  cases extractTerms B.Expressions (B.Expressions.length + 1) C 1 [] <;> rfl

theorem termsOf_defined (B : CounterExpressionBuilder) (C : Counter)
    (hwf : B.WellFormed) (hv : C.validBelow B.Expressions.length) :
    ∃ T, termsOf B C = some T :=
  extractTerms_total _ hwf.2 _ C 1 [] (Nat.le_refl _) hv

theorem termsOf_extends {B B2 : CounterExpressionBuilder} (h : B.Extends B2) (C : Counter)
    (T : List Term) (hT : termsOf B C = some T) : termsOf B2 C = some T := by
  unfold termsOf at hT ⊢
  obtain ⟨more, e⟩ := h.1
  have h1 := extractTerms_append B.Expressions more _ C 1 [] T hT
  rw [← e] at h1
  exact extractTerms_mono _ _ _ (by have := extends_length h; omega) C 1 [] T h1

theorem termsOf_zero (B : CounterExpressionBuilder) (C : Counter)
    (h : C.Kind = CounterKind.Zero) : termsOf B C = some [] := by
  simp [termsOf, extractTerms, h]

theorem termsOf_counter (B : CounterExpressionBuilder) (C : Counter)
    (h : C.Kind = CounterKind.CounterValueReference) :
    termsOf B C = some [{ CounterID := C.ID, Factor := 1 }] := by
  simp [termsOf, extractTerms, h]

/-- The terms of a stored node are the terms of its left operand followed by the
signed terms of its right operand. -/
theorem termsOf_node (B : CounterExpressionBuilder) (hwf : B.WellFormed)
    (C : Counter) (hC : C.Kind = CounterKind.Expression)
    (E : CounterExpression) (hE : B.Expressions[C.ID]? = some E) :
    ∃ TL TR, termsOf B E.LHS = some TL ∧ termsOf B E.RHS = some TR ∧
      termsOf B C = some (TL ++ signedTerms E.Kind TR) := by
  have hlt : C.ID < B.Expressions.length := by
    by_contra hc
    rw [List.getElem?_eq_none (by omega)] at hE
    exact Option.noConfusion hE
  obtain ⟨hl, hr⟩ := hwf.2 C.ID hlt E hE
  obtain ⟨TL, hTL⟩ := termsOf_defined B E.LHS hwf (validBelow_mono hl (by omega))
  obtain ⟨TR, hTR⟩ := termsOf_defined B E.RHS hwf (validBelow_mono hr (by omega))
  obtain ⟨T, hT⟩ := termsOf_defined B C hwf (fun _ => hlt)
  refine ⟨TL, TR, hTL, hTR, ?_⟩
  rw [hT]
  have hbig := extractTerms_succ _ _ C 1 [] T hT
  rw [extractTerms] at hbig
  simp only [hC, hE] at hbig
  unfold termsOf at hTL hTR
  rw [hTL] at hbig
  simp only at hbig
  rw [extractTerms_acc] at hbig
  have hR : extractTerms B.Expressions (B.Expressions.length + 1) E.RHS
      (if E.Kind = ExprKind.Subtract then -1 else 1) [] = some (signedTerms E.Kind TR) := by
    unfold signedTerms
    by_cases hs : E.Kind = ExprKind.Subtract
    · simp only [hs, if_true]
      rw [extractTerms_neg, hTR]; rfl
    · simp only [hs, if_false]; exact hTR
  rw [hR] at hbig
  simp only [Option.map_some', Option.some.injEq] at hbig
  rw [← hbig]

/-! ## `add` and `subtract` through their terms -/

theorem netFactor_negTerms (id : Nat) (T : List Term) :
    netFactor id (negTerms T) = -netFactor id T := by
  induction T with
  | nil => simp [negTerms, netFactor]
  | cons t rest ih =>
    unfold negTerms at ih ⊢
    simp only [List.map_cons, netFactor, ih]
    by_cases h : t.CounterID = id
    · simp only [h, if_true]; ring
    · simp only [h, if_false]; ring

theorem get_terms (B : CounterExpressionBuilder) (E : CounterExpression)
    (hwf : B.WellFormed) (hl : E.LHS.validBelow B.Expressions.length)
    (hr : E.RHS.validBelow B.Expressions.length) :
    ∃ TL TR, termsOf B E.LHS = some TL ∧ termsOf B E.RHS = some TR ∧
      termsOf (B.get E).2 (B.get E).1 = some (TL ++ signedTerms E.Kind TR) := by
  have hwf2 := get_wellFormed B E hwf hl hr
  have hk : (B.get E).1.Kind = CounterKind.Expression := by
    rw [get_kind B E]; rfl
  obtain ⟨TL, TR, h1, h2, h3⟩ := termsOf_node (B.get E).2 hwf2 (B.get E).1 hk E
    (get_stored B E hwf)
  obtain ⟨TL0, hTL0⟩ := termsOf_defined B E.LHS hwf hl
  obtain ⟨TR0, hTR0⟩ := termsOf_defined B E.RHS hwf hr
  have e1 := termsOf_extends (get_extends B E) _ _ hTL0
  have e2 := termsOf_extends (get_extends B E) _ _ hTR0
  rw [h1] at e1; rw [h2] at e2
  simp only [Option.some.injEq] at e1 e2
  subst e1; subst e2
  exact ⟨TL, TR, hTL0, hTR0, h3⟩

theorem termsOf_units (B : CounterExpressionBuilder) (C : Counter) (T : List Term)
    (h : termsOf B C = some T) : Units T :=
  extractTerms_units _ _ C 1 [] T (Or.inl rfl) (fun U hU => by simp at hU) h

/-- The terms of a tree that is not stored are the terms of its left operand followed
by the signed terms of its right operand. -/
theorem termsOfTree_eq (B : CounterExpressionBuilder) (E : CounterExpression) :
    B.termsOfTree E =
      (termsOf B E.LHS).bind (fun TL =>
        (termsOf B E.RHS).map (fun TR => TL ++ signedTerms E.Kind TR)) := by
  unfold CounterExpressionBuilder.termsOfTree termsOf
  cases hL : extractTerms B.Expressions (B.Expressions.length + 1) E.LHS 1 [] with
  | none => rfl
  | some TL =>
    simp only [Option.some_bind]
    rw [extractTerms_acc]
    unfold signedTerms
    by_cases hs : E.Kind = ExprKind.Subtract
    · simp only [hs, if_true]
      rw [extractTerms_neg]
      cases extractTerms B.Expressions (B.Expressions.length + 1) E.RHS 1 [] <;> simp
    · simp only [hs, if_false]

theorem simplifyTree_eq (B : CounterExpressionBuilder) (E : CounterExpression)
    (TL TR : List Term) (h1 : termsOf B E.LHS = some TL) (h2 : termsOf B E.RHS = some TR) :
    B.simplifyTree E =
      some (buildTree (normalizeTerms (TL ++ signedTerms E.Kind TR)) B) := by
  unfold CounterExpressionBuilder.simplifyTree
  rw [termsOfTree_eq, h1, h2]
  rfl

theorem add_eq (B : CounterExpressionBuilder) (L R : Counter)
    (hwf : B.WellFormed) (hl : L.validBelow B.Expressions.length)
    (hr : R.validBelow B.Expressions.length) :
    ∃ TL TR, termsOf B L = some TL ∧ termsOf B R = some TR ∧
      B.add L R = some (buildTree (normalizeTerms (TL ++ TR)) B) := by
  obtain ⟨TL, h1⟩ := termsOf_defined B L hwf hl
  obtain ⟨TR, h2⟩ := termsOf_defined B R hwf hr
  refine ⟨TL, TR, h1, h2, ?_⟩
  unfold CounterExpressionBuilder.add
  rw [simplifyTree_eq B _ TL TR h1 h2]
  simp [signedTerms]

theorem subtract_eq (B : CounterExpressionBuilder) (L R : Counter)
    (hwf : B.WellFormed) (hl : L.validBelow B.Expressions.length)
    (hr : R.validBelow B.Expressions.length) :
    ∃ TL TR, termsOf B L = some TL ∧ termsOf B R = some TR ∧
      B.subtract L R = some (buildTree (normalizeTerms (TL ++ negTerms TR)) B) := by
  obtain ⟨TL, h1⟩ := termsOf_defined B L hwf hl
  obtain ⟨TR, h2⟩ := termsOf_defined B R hwf hr
  refine ⟨TL, TR, h1, h2, ?_⟩
  unfold CounterExpressionBuilder.subtract
  rw [simplifyTree_eq B _ TL TR h1 h2]
  simp [signedTerms]

theorem add_sound (B B1 : CounterExpressionBuilder) (L R C : Counter)
    (hwf : B.WellFormed) (hl : L.validBelow B.Expressions.length)
    (hr : R.validBelow B.Expressions.length) (h : B.add L R = some (C, B1)) :
    SoundState (C, B1) ∧ B.Extends B1 := by
  obtain ⟨TL, TR, _, _, h3⟩ := add_eq B L R hwf hl hr
  rw [h3] at h
  simp only [Option.some.injEq] at h
  have hs := sound_buildTree (normalizeTerms (TL ++ TR)) B hwf
  have he := buildTree_extends (normalizeTerms (TL ++ TR)) B
  rw [h] at hs he
  exact ⟨hs, he⟩

theorem subtract_sound (B B1 : CounterExpressionBuilder) (L R C : Counter)
    (hwf : B.WellFormed) (hl : L.validBelow B.Expressions.length)
    (hr : R.validBelow B.Expressions.length) (h : B.subtract L R = some (C, B1)) :
    SoundState (C, B1) ∧ B.Extends B1 := by
  obtain ⟨TL, TR, _, _, h3⟩ := subtract_eq B L R hwf hl hr
  rw [h3] at h
  simp only [Option.some.injEq] at h
  have hs := sound_buildTree (normalizeTerms (TL ++ negTerms TR)) B hwf
  have he := buildTree_extends (normalizeTerms (TL ++ negTerms TR)) B
  rw [h] at hs he
  exact ⟨hs, he⟩

/-- Every state reached through the public interface satisfies the class invariant. -/
theorem reachable_wellFormed (B : CounterExpressionBuilder)
    (h : CounterExpressionBuilder.Reachable B) : B.WellFormed := by
  induction h with
  | empty => exact wellFormed_empty
  | add B B1 L R C _ hl hr hadd ih => exact (add_sound B B1 L R C ih hl hr hadd).1.1
  | subtract B B1 L R C _ hl hr hsub ih => exact (subtract_sound B B1 L R C ih hl hr hsub).1.1

theorem terms_addUnit (id : Nat) (S : Counter × CounterExpressionBuilder) (acc : List Term)
    (hs : SoundState S) (hT : termsOf S.2 S.1 = some acc) :
    termsOf (addUnit id S).2 (addUnit id S).1 =
      some (acc ++ [{ CounterID := id, Factor := 1 }]) := by
  unfold addUnit
  by_cases hz : S.1.isZero = true
  · simp only [hz, if_true]
    have hk : S.1.Kind = CounterKind.Zero := by simpa [Counter.isZero] using hz
    rw [termsOf_zero _ _ hk] at hT
    simp only [Option.some.injEq] at hT
    subst hT
    simp [termsOf, extractTerms, Counter.getCounter]
  · rw [if_neg hz]
    obtain ⟨TL, TR, h1, h2, h3⟩ := get_terms S.2
      { Kind := ExprKind.Add, LHS := S.1, RHS := Counter.getCounter id } hs.1 hs.2
      (validBelow_getCounter _ _)
    simp only at h1 h2
    rw [hT] at h1
    rw [termsOf_counter _ _ rfl] at h2
    simp only [Option.some.injEq] at h1 h2
    subst h1; subst h2
    rw [h3]; simp [signedTerms, Counter.getCounter]

theorem terms_subtractUnit (id : Nat) (S : Counter × CounterExpressionBuilder)
    (acc : List Term) (hs : SoundState S) (hT : termsOf S.2 S.1 = some acc) :
    termsOf (subtractUnit id S).2 (subtractUnit id S).1 =
      some (acc ++ [{ CounterID := id, Factor := -1 }]) := by
  unfold subtractUnit
  obtain ⟨TL, TR, h1, h2, h3⟩ := get_terms S.2
    { Kind := ExprKind.Subtract, LHS := S.1, RHS := Counter.getCounter id } hs.1 hs.2
    (validBelow_getCounter _ _)
  simp only at h1 h2
  rw [hT] at h1
  rw [termsOf_counter _ _ rfl] at h2
  simp only [Option.some.injEq] at h1 h2
  subst h1; subst h2
  rw [h3]; simp [signedTerms, negTerms, Counter.getCounter]

theorem terms_iterate_addUnit (id : Nat) (N : Nat) :
    ∀ (S : Counter × CounterExpressionBuilder) (acc : List Term), SoundState S →
      termsOf S.2 S.1 = some acc →
      termsOf (iterate (addUnit id) N S).2 (iterate (addUnit id) N S).1 =
        some (acc ++ List.replicate N { CounterID := id, Factor := 1 }) := by
  induction N with
  | zero => intro S acc _ hT; simpa [iterate] using hT
  | succ n ih =>
    intro S acc hs hT
    have h1 := ih (addUnit id S) _ (sound_addUnit id S hs) (terms_addUnit id S acc hs hT)
    have e : iterate (addUnit id) (n + 1) S = iterate (addUnit id) n (addUnit id S) := rfl
    rw [e, h1, List.append_assoc]
    simp [List.replicate_succ]

theorem terms_iterate_subtractUnit (id : Nat) (N : Nat) :
    ∀ (S : Counter × CounterExpressionBuilder) (acc : List Term), SoundState S →
      termsOf S.2 S.1 = some acc →
      termsOf (iterate (subtractUnit id) N S).2 (iterate (subtractUnit id) N S).1 =
        some (acc ++ List.replicate N { CounterID := id, Factor := -1 }) := by
  induction N with
  | zero => intro S acc _ hT; simpa [iterate] using hT
  | succ n ih =>
    intro S acc hs hT
    have h1 := ih (subtractUnit id S) _ (sound_subtractUnit id S hs)
      (terms_subtractUnit id S acc hs hT)
    have e : iterate (subtractUnit id) (n + 1) S =
        iterate (subtractUnit id) n (subtractUnit id S) := rfl
    rw [e, h1, List.append_assoc]
    simp [List.replicate_succ]

theorem terms_createAdditions (Terms : List Term) :
    ∀ (S : Counter × CounterExpressionBuilder) (acc : List Term), SoundState S →
      termsOf S.2 S.1 = some acc →
      termsOf (createAdditions Terms S).2 (createAdditions Terms S).1 =
        some (acc ++ additionTerms Terms) := by
  induction Terms with
  | nil => intro S acc _ hT; simpa [createAdditions, additionTerms] using hT
  | cons T rest ih =>
    intro S acc hs hT
    unfold createAdditions additionTerms
    by_cases hp : 0 < T.Factor
    · simp only [hp, if_true]
      rw [ih _ _ (sound_iterate (sound_addUnit _) _ S hs)
        (terms_iterate_addUnit T.CounterID _ S acc hs hT), List.append_assoc]
    · simp only [hp, if_false, List.nil_append]
      exact ih S acc hs hT

theorem terms_createSubtractions (Terms : List Term) :
    ∀ (S : Counter × CounterExpressionBuilder) (acc : List Term), SoundState S →
      termsOf S.2 S.1 = some acc →
      termsOf (createSubtractions Terms S).2 (createSubtractions Terms S).1 =
        some (acc ++ subtractionTerms Terms) := by
  induction Terms with
  | nil => intro S acc _ hT; simpa [createSubtractions, subtractionTerms] using hT
  | cons T rest ih =>
    intro S acc hs hT
    unfold createSubtractions subtractionTerms
    by_cases hp : T.Factor < 0
    · simp only [hp, if_true]
      rw [ih _ _ (sound_iterate (sound_subtractUnit _) _ S hs)
        (terms_iterate_subtractUnit T.CounterID _ S acc hs hT), List.append_assoc]
    · simp only [hp, if_false, List.nil_append]
      exact ih S acc hs hT

/-- The terms of the tree that `buildTree` returns are its leaves. -/
theorem terms_buildTree (Terms : List Term) (B : CounterExpressionBuilder)
    (hwf : B.WellFormed) :
    termsOf (buildTree Terms B).2 (buildTree Terms B).1 =
      some (additionTerms Terms ++ subtractionTerms Terms) := by
  unfold buildTree
  have h0 : SoundState (Counter.getZero, B) := ⟨hwf, validBelow_getZero _⟩
  have h1 := terms_createAdditions Terms (Counter.getZero, B) [] h0 (termsOf_zero _ _ rfl)
  have h2 := terms_createSubtractions Terms _ _ (sound_createAdditions Terms _ h0) h1
  simpa using h2

theorem termsOfTree_units (B : CounterExpressionBuilder) (E : CounterExpression)
    (T : List Term) (h : B.termsOfTree E = some T) : Units T := by
  unfold CounterExpressionBuilder.termsOfTree at h
  cases hL : extractTerms B.Expressions (B.Expressions.length + 1) E.LHS 1 [] with
  | none => rw [hL] at h; cases h
  | some TL =>
    rw [hL] at h
    refine extractTerms_units _ _ E.RHS _ TL T ?_
      (extractTerms_units _ _ E.LHS 1 [] TL (Or.inl rfl) (fun U hU => by simp at hU) hL) h
    split
    · exact Or.inr rfl
    · exact Or.inl rfl

/-- The full description of a call of `add`: it returns, it extends the state and
keeps it well formed, the tree it built is found again, unchanged, from every later
state, and the terms of the returned counter are the leaves of the canonical tree. -/
theorem add_full (B : CounterExpressionBuilder) (L R : Counter)
    (hwf : B.WellFormed) (hl : L.validBelow B.Expressions.length)
    (hr : R.validBelow B.Expressions.length) :
    ∃ TL TR C B1, termsOf B L = some TL ∧ termsOf B R = some TR ∧
      B.add L R = some (C, B1) ∧ B.Extends B1 ∧ SoundState (C, B1) ∧
      (∀ B2 : CounterExpressionBuilder, B1.Extends B2 →
        buildTree (normalizeTerms (TL ++ TR)) B2 = (C, B2)) ∧
      termsOf B1 C = some (additionTerms (normalizeTerms (TL ++ TR)) ++
        subtractionTerms (normalizeTerms (TL ++ TR))) := by
  obtain ⟨TL, TR, h1, h2, h3⟩ := add_eq B L R hwf hl hr
  exact ⟨TL, TR, _, _, h1, h2, h3, (add_sound B _ L R _ hwf hl hr h3).2,
    (add_sound B _ L R _ hwf hl hr h3).1,
    fun B2 h => buildTree_replay _ _ B2 h, terms_buildTree _ _ hwf⟩

theorem exampleBuilder_first :
    ({} : CounterExpressionBuilder).add (Counter.getCounter 1) (Counter.getCounter 0) =
      some (Counter.getExpression 0,
        CounterExpressionBuilder.mk
          [CounterExpression.mk ExprKind.Add (Counter.getCounter 0) (Counter.getCounter 1)]
          [(CounterExpression.mk ExprKind.Add (Counter.getCounter 0) (Counter.getCounter 1),
            0)]) := by
  decide

theorem exampleBuilder_eq :
    (CounterExpressionBuilder.mk
        [CounterExpression.mk ExprKind.Add (Counter.getCounter 0) (Counter.getCounter 1)]
        [(CounterExpression.mk ExprKind.Add (Counter.getCounter 0) (Counter.getCounter 1),
          0)]).add (Counter.getExpression 0) (Counter.getCounter 2) =
      some (Counter.getExpression 1, exampleBuilder) := by
  decide

theorem exampleBuilder_reachable : CounterExpressionBuilder.Reachable exampleBuilder :=
  CounterExpressionBuilder.Reachable.add _ exampleBuilder (Counter.getExpression 0)
    (Counter.getCounter 2) (Counter.getExpression 1)
    (CounterExpressionBuilder.Reachable.add {} _ (Counter.getCounter 1)
      (Counter.getCounter 0) (Counter.getExpression 0) CounterExpressionBuilder.Reachable.empty
      (validBelow_getCounter _ _) (validBelow_getCounter _ _) exampleBuilder_first)
    (by decide) (validBelow_getCounter _ _) exampleBuilder_eq

theorem exampleBuilder_wellFormed : exampleBuilder.WellFormed :=
  reachable_wellFormed _ exampleBuilder_reachable

/-- C2 (zero law). In every well-formed builder state and for every counter `C1`
valid in it (zero, a counter reference or an expression reference),
`subtract(C1, C1)` returns `Counter::getZero()`. -/
theorem subtract_self_zero (B : CounterExpressionBuilder) (C1 : Counter)
    (hwf : B.WellFormed) (hv : C1.validBelow B.getExpressions.length) :
    ∃ B1, B.subtract C1 C1 = some (Counter.getZero, B1) := by
  obtain ⟨TL, TR, h1, h2, h3⟩ := subtract_eq B C1 C1 hwf hv hv
  rw [h1] at h2
  simp only [Option.some.injEq] at h2
  subst h2
  have hu := termsOf_units B C1 TL h1
  have hn : normalizeTerms (TL ++ negTerms TL) = [] :=
    normalizeTerms_nil_of_netFactor _
      (inRange_of_units _ (units_append _ _ hu (units_negTerms _ hu))) (fun id => by
      rw [netFactor_append, netFactor_negTerms]; ring)
  rw [hn] at h3
  exact ⟨_, h3⟩

/-- C2 at a concrete input: the example state and its node `getExpression(1)`. -/
theorem subtract_self_zero_witness :
    exampleBuilder.WellFormed ∧
    (Counter.getExpression 1).validBelow exampleBuilder.getExpressions.length ∧
    ∃ B1, exampleBuilder.subtract (Counter.getExpression 1) (Counter.getExpression 1) =
      some (Counter.getZero, B1) :=
  ⟨exampleBuilder_wellFormed, by decide,
    subtract_self_zero exampleBuilder (Counter.getExpression 1) exampleBuilder_wellFormed
      (by decide)⟩

/-- C3 (interning law). In every well-formed builder state and for all counters `A`
and `B` valid in it, `add(A, B)` returns a counter, and the same call made again
immediately afterwards returns an equal counter and does not change the length of
`getExpressions()`. -/
theorem add_twice_interned (B0 : CounterExpressionBuilder) (A B : Counter)
    (hwf : B0.WellFormed) (hA : A.validBelow B0.getExpressions.length)
    (hB : B.validBelow B0.getExpressions.length) :
    ∃ C1 B1 C2 B2, B0.add A B = some (C1, B1) ∧ B1.add A B = some (C2, B2) ∧
      C2 = C1 ∧ B2.getExpressions.length = B1.getExpressions.length := by
  obtain ⟨TL, TR, C, B1, h1, h2, h3, hext, hs, hrep, _⟩ := add_full B0 A B hwf hA hB
  have hA1 := validBelow_mono hA (extends_length hext)
  have hB1 := validBelow_mono hB (extends_length hext)
  obtain ⟨TL2, TR2, g1, g2, g3⟩ := add_eq B1 A B hs.1 hA1 hB1
  rw [termsOf_extends hext _ _ h1] at g1
  rw [termsOf_extends hext _ _ h2] at g2
  simp only [Option.some.injEq] at g1 g2
  subst g1; subst g2
  rw [hrep B1 (Extends.refl B1)] at g3
  exact ⟨C, B1, C, B1, h3, g3, rfl, rfl⟩

/-- C3 at a concrete input: the example state, `add(getExpression(0), getCounter(2))`. -/
theorem add_twice_interned_witness :
    exampleBuilder.WellFormed ∧
    (Counter.getExpression 0).validBelow exampleBuilder.getExpressions.length ∧
    (Counter.getCounter 2).validBelow exampleBuilder.getExpressions.length ∧
    ∃ C1 B1 C2 B2,
      exampleBuilder.add (Counter.getExpression 0) (Counter.getCounter 2) = some (C1, B1) ∧
      B1.add (Counter.getExpression 0) (Counter.getCounter 2) = some (C2, B2) ∧
      C2 = C1 ∧ B2.getExpressions.length = B1.getExpressions.length :=
  ⟨exampleBuilder_wellFormed, by decide, by decide,
    add_twice_interned exampleBuilder (Counter.getExpression 0) (Counter.getCounter 2)
      exampleBuilder_wellFormed (by decide) (by decide)⟩

theorem add_comm_counters (B0 : CounterExpressionBuilder) (A B : Counter) :
    B0.add A B = B0.add B A := by
  unfold CounterExpressionBuilder.add CounterExpressionBuilder.simplifyTree
  rw [termsOfTree_eq, termsOfTree_eq]
  simp only [signedTerms, reduceCtorEq, if_false]
  cases hA : termsOf B0 A with
  | none => cases hB : termsOf B0 B <;> rfl
  | some TA =>
    cases hB : termsOf B0 B with
    | none => rfl
    | some TB =>
      simp only [Option.some_bind, Option.map_some', Option.some.injEq]
      have hu1 := termsOf_units B0 A TA hA
      have hu2 := termsOf_units B0 B TB hB
      rw [normalizeTerms_congr (TA ++ TB) (TB ++ TA)
        (inRange_of_units _ (units_append _ _ hu1 hu2))
        (inRange_of_units _ (units_append _ _ hu2 hu1))
        (fun id => by rw [netFactor_append, netFactor_append, add_comm])]

/-- C5 (canonical form). In every builder state, two expressions `(Kind, LHS, RHS)`
that are semantically equal (the same net factor for every profile counter) are
simplified and interned to the identical counter, with the same resulting state;
`add(A, B)` and `subtract(A, B)` are this simplification of `(Add, A, B)` and of
`(Subtract, A, B)`. In particular `add(A, B)` and `add(B, A)`, called in the same
state, give the same result for all counters, and for counter references `A` and
`B` they return, in every builder state, the same counter. -/
theorem canonical_form (B0 : CounterExpressionBuilder) (X Y : CounterExpression)
    (A B : Counter) (a b : Nat) (hsem : SemanticallyEqual B0 X Y) :
    (∃ C B1, B0.simplifyTree X = some (C, B1) ∧ B0.simplifyTree Y = some (C, B1)) ∧
    B0.add A B = B0.simplifyTree (CounterExpression.mk ExprKind.Add A B) ∧
    B0.subtract A B = B0.simplifyTree (CounterExpression.mk ExprKind.Subtract A B) ∧
    B0.add A B = B0.add B A ∧
    (∃ C B1, B0.add (Counter.getCounter a) (Counter.getCounter b) = some (C, B1) ∧
      B0.add (Counter.getCounter b) (Counter.getCounter a) = some (C, B1)) := by
  refine ⟨?_, rfl, rfl, add_comm_counters B0 A B, ?_⟩
  · obtain ⟨TX, TY, hX, hY, hnet⟩ := hsem
    have hnorm := normalizeTerms_congr TX TY
      (inRange_of_units _ (termsOfTree_units B0 X TX hX))
      (inRange_of_units _ (termsOfTree_units B0 Y TY hY)) (fun id => by rw [hnet id])
    refine ⟨(buildTree (normalizeTerms TX) B0).1, (buildTree (normalizeTerms TX) B0).2, ?_, ?_⟩
    · unfold CounterExpressionBuilder.simplifyTree
      rw [hX]
    · unfold CounterExpressionBuilder.simplifyTree
      rw [hY]
      simp only [← hnorm]
  · have h1 : B0.add (Counter.getCounter a) (Counter.getCounter b) =
        some (buildTree (normalizeTerms
          [{ CounterID := a, Factor := 1 }, { CounterID := b, Factor := 1 }]) B0) := by
      unfold CounterExpressionBuilder.add
      rw [simplifyTree_eq B0 _ _ _ (termsOf_counter _ _ rfl) (termsOf_counter _ _ rfl)]
      rfl
    exact ⟨_, _, h1, by rw [← add_comm_counters]; exact h1⟩

/-- C5 at a concrete input: in the example state the expressions
`expression 1 - counter 2` and `counter 1 + counter 0` are semantically equal, and
both are simplified to `getExpression(0)`, the node `counter 0 + counter 1`. -/
theorem canonical_form_witness :
    SemanticallyEqual exampleBuilder
      (CounterExpression.mk ExprKind.Subtract (Counter.getExpression 1) (Counter.getCounter 2))
      (CounterExpression.mk ExprKind.Add (Counter.getCounter 1) (Counter.getCounter 0)) ∧
    exampleBuilder.subtract (Counter.getExpression 1) (Counter.getCounter 2) =
      some (Counter.getExpression 0, exampleBuilder) ∧
    exampleBuilder.add (Counter.getCounter 1) (Counter.getCounter 0) =
      some (Counter.getExpression 0, exampleBuilder) ∧
    (∃ C B1, exampleBuilder.simplifyTree
        (CounterExpression.mk ExprKind.Subtract (Counter.getExpression 1)
          (Counter.getCounter 2)) = some (C, B1) ∧
      exampleBuilder.simplifyTree
        (CounterExpression.mk ExprKind.Add (Counter.getCounter 1) (Counter.getCounter 0)) =
          some (C, B1)) ∧
    (∃ C B1, exampleBuilder.add (Counter.getCounter 1) (Counter.getCounter 0) = some (C, B1) ∧
      exampleBuilder.add (Counter.getCounter 0) (Counter.getCounter 1) = some (C, B1)) :=
  have hsem : SemanticallyEqual exampleBuilder
      (CounterExpression.mk ExprKind.Subtract (Counter.getExpression 1) (Counter.getCounter 2))
      (CounterExpression.mk ExprKind.Add (Counter.getCounter 1) (Counter.getCounter 0)) :=
    ⟨[⟨0, 1⟩, ⟨1, 1⟩, ⟨2, 1⟩, ⟨2, -1⟩], [⟨1, 1⟩, ⟨0, 1⟩], by decide, by decide, fun id => by
      simp only [netFactor]; split_ifs <;> norm_num⟩
  ⟨hsem, by decide, by decide,
    (canonical_form exampleBuilder _ _ (Counter.getCounter 1) (Counter.getCounter 0) 1 0
      hsem).1,
    (canonical_form exampleBuilder _ _ (Counter.getCounter 1) (Counter.getCounter 0) 1 0
      hsem).2.2.2.2⟩

theorem combineResults_mono (K : ExprKind) (L1 R1 L2 R2 : EvalResult)
    (hL : ∀ r, L1 = some r → L2 = some r) (hR : ∀ r, R1 = some r → R2 = some r)
    (r : Except EvalError Int) (h : combineResults K L1 R1 = some r) :
    combineResults K L2 R2 = some r := by
  cases L1 with
  | none => simp [combineResults] at h
  | some l =>
    rw [hL l rfl]
    cases l with
    | error e => simpa [combineResults] using h
    | ok a =>
      cases R1 with
      | none => simp [combineResults] at h
      | some rr =>
        rw [hR rr rfl]
        exact h

theorem evaluateFuel_succ (Ex : List CounterExpression) (CV : List Nat) (n : Nat) :
    ∀ (C : Counter) (r : Except EvalError Int),
      evaluateFuel Ex CV n C = some r → evaluateFuel Ex CV (n + 1) C = some r := by
  induction n with
  | zero => intro C r h; simp [evaluateFuel] at h
  | succ n ih =>
    intro C r h
    rw [evaluateFuel] at h
    rw [evaluateFuel]
    cases hk : C.Kind with
    | Zero => simpa [hk] using h
    | CounterValueReference => simpa [hk] using h
    | Expression =>
      simp only [hk] at h ⊢
      cases hE : Ex[C.ID]? with
      | none => simpa [hE] using h
      | some E =>
        simp only [hE] at h ⊢
        exact combineResults_mono _ _ _ _ _ (ih E.LHS) (ih E.RHS) r h

theorem evaluateFuel_mono (Ex : List CounterExpression) (CV : List Nat) (n m : Nat)
    (hnm : n ≤ m) (C : Counter) (r : Except EvalError Int)
    (h : evaluateFuel Ex CV n C = some r) : evaluateFuel Ex CV m C = some r := by
  induction hnm with
  | refl => exact h
  | step _ ih => exact evaluateFuel_succ Ex CV _ C r ih

theorem evaluateFuel_none_of_le (Ex : List CounterExpression) (CV : List Nat) (n m : Nat)
    (hnm : n ≤ m) (C : Counter) (h : evaluateFuel Ex CV m C = none) :
    evaluateFuel Ex CV n C = none := by
  cases hn : evaluateFuel Ex CV n C with
  | none => rfl
  | some r =>
    rw [evaluateFuel_mono Ex CV n m hnm C r hn] at h
    exact Option.noConfusion h

/-- An evaluation that returns with some fuel never meets an expression twice on one
path: with a set `S` of expressions that cannot return within the fuel at hand,
`Expressions.length + 1 - |S|` nested calls are enough. -/
theorem evaluateFuel_blocked (Ex : List CounterExpression) (CV : List Nat) (m : Nat) :
    ∀ (C : Counter) (r : Except EvalError Int) (S : Finset Nat),
      (∀ i ∈ S, i < Ex.length) →
      (∀ i ∈ S, evaluateFuel Ex CV m (Counter.getExpression i) = none) →
      evaluateFuel Ex CV m C = some r →
      evaluateFuel Ex CV (Ex.length + 1 - S.card) C = some r := by
  induction m with
  | zero => intro C r S _ _ h; simp [evaluateFuel] at h
  | succ m ih =>
    intro C r S hS hblock h
    have hcard : S.card ≤ Ex.length := by
      have hsub : S ⊆ Finset.range Ex.length := fun i hi => Finset.mem_range.2 (hS i hi)
      simpa using Finset.card_le_card hsub
    obtain ⟨k, hk⟩ : ∃ k, Ex.length + 1 - S.card = k + 1 := ⟨Ex.length - S.card, by omega⟩
    have hblock2 : ∀ i ∈ S, evaluateFuel Ex CV m (Counter.getExpression i) = none :=
      fun i hi => evaluateFuel_none_of_le Ex CV m (m + 1) (by omega) _ (hblock i hi)
    cases hkind : C.Kind with
    | Zero =>
      rw [hk]; rw [evaluateFuel] at h ⊢
      simpa [hkind] using h
    | CounterValueReference =>
      rw [hk]; rw [evaluateFuel] at h ⊢
      simpa [hkind] using h
    | Expression =>
      have hC : C = Counter.getExpression C.ID := by
        cases C; simp only [Counter.getExpression] at hkind ⊢; simp only [hkind]
      cases hE : Ex[C.ID]? with
      | none =>
        rw [hk]; rw [evaluateFuel] at h ⊢
        simpa [hkind, hE] using h
      | some E =>
        have hlt : C.ID < Ex.length := by
          by_contra hc
          rw [List.getElem?_eq_none (by omega)] at hE
          exact Option.noConfusion hE
        cases hprev : evaluateFuel Ex CV m C with
        | some r0 =>
          have := evaluateFuel_succ Ex CV m C r0 hprev
          rw [h] at this
          simp only [Option.some.injEq] at this
          subst this
          exact ih C r S hS hblock2 hprev
        | none =>
          have hnotin : C.ID ∉ S := by
            intro hin
            have := hblock C.ID hin
            rw [← hC, h] at this
            exact Option.noConfusion this
          have hS2 : ∀ i ∈ insert C.ID S, i < Ex.length := by
            intro i hi
            rcases Finset.mem_insert.1 hi with hi | hi
            · rw [hi]; exact hlt
            · exact hS i hi
          have hb2 : ∀ i ∈ insert C.ID S,
              evaluateFuel Ex CV m (Counter.getExpression i) = none := by
            intro i hi
            rcases Finset.mem_insert.1 hi with hi | hi
            · rw [hi, ← hC]; exact hprev
            · exact hblock2 i hi
          have hcard2 : (insert C.ID S).card = S.card + 1 := Finset.card_insert_of_not_mem hnotin
          have hfuel : Ex.length + 1 - S.card = (Ex.length + 1 - (insert C.ID S).card) + 1 := by
            have hsub : insert C.ID S ⊆ Finset.range Ex.length :=
              fun i hi => Finset.mem_range.2 (hS2 i hi)
            have := Finset.card_le_card hsub
            simp only [Finset.card_range] at this
            omega
          rw [hfuel]
          rw [evaluateFuel] at h ⊢
          simp only [hkind, hE] at h ⊢
          exact combineResults_mono _ _ _ _ _
            (fun r1 h1 => ih E.LHS r1 _ hS2 hb2 h1)
            (fun r1 h1 => ih E.RHS r1 _ hS2 hb2 h1) r h

/-- The fuel of `evaluate` is adequate: an evaluation that returns with any fuel
returns the same with `Expressions.length + 1`. -/
theorem evaluateFuel_adequate (Ex : List CounterExpression) (CV : List Nat) (m : Nat)
    (C : Counter) (r : Except EvalError Int) (h : evaluateFuel Ex CV m C = some r) :
    evaluateFuel Ex CV (Ex.length + 1) C = some r := by
  have := evaluateFuel_blocked Ex CV m C r ∅ (by simp) (by simp) h
  simpa using this

/-- The defining equation of `evaluate` on a stored expression, free of fuel. -/
theorem evaluate_node (Ctx : CounterMappingContext) (C : Counter)
    (hk : C.Kind = CounterKind.Expression) (E : CounterExpression)
    (hE : Ctx.Expressions[C.ID]? = some E) :
    Ctx.evaluate C = combineResults E.Kind (Ctx.evaluate E.LHS) (Ctx.evaluate E.RHS) := by
  unfold CounterMappingContext.evaluate
  cases hbig : combineResults E.Kind
      (evaluateFuel Ctx.Expressions Ctx.CounterValues (Ctx.Expressions.length + 1) E.LHS)
      (evaluateFuel Ctx.Expressions Ctx.CounterValues (Ctx.Expressions.length + 1) E.RHS) with
  | some r =>
    have h2 : evaluateFuel Ctx.Expressions Ctx.CounterValues (Ctx.Expressions.length + 2) C =
        some r := by
      rw [evaluateFuel]; simp only [hk, hE]; exact hbig
    exact evaluateFuel_adequate _ _ _ C r h2
  | none =>
    cases hsmall : evaluateFuel Ctx.Expressions Ctx.CounterValues
        (Ctx.Expressions.length + 1) C with
    | none => rfl
    | some r =>
      exfalso
      rw [evaluateFuel] at hsmall
      simp only [hk, hE] at hsmall
      have := combineResults_mono _ _ _ _ _
        (fun r1 h1 => evaluateFuel_succ _ _ _ E.LHS r1 h1)
        (fun r1 h1 => evaluateFuel_succ _ _ _ E.RHS r1 h1) r hsmall
      rw [hbig] at this
      exact Option.noConfusion this

/-! ## The evaluation context -/

theorem evaluate_zero (Ctx : CounterMappingContext) (C : Counter)
    (hk : C.Kind = CounterKind.Zero) : Ctx.evaluate C = some (Except.ok 0) := by
  simp [CounterMappingContext.evaluate, evaluateFuel, hk]

theorem evaluate_counter (Ctx : CounterMappingContext) (C : Counter)
    (hk : C.Kind = CounterKind.CounterValueReference) :
    Ctx.evaluate C =
      match Ctx.CounterValues[C.ID]? with
      | none => some (Except.error EvalError.CounterOutOfBounds)
      | some V => some (Except.ok (toInt64 V)) := by
  simp [CounterMappingContext.evaluate, evaluateFuel, hk]

theorem evaluate_expression_out_of_bounds (Ctx : CounterMappingContext) (C : Counter)
    (hk : C.Kind = CounterKind.Expression) (h : Ctx.Expressions.length ≤ C.ID) :
    Ctx.evaluate C = some (Except.error EvalError.ExpressionOutOfBounds) := by
  simp [CounterMappingContext.evaluate, evaluateFuel, hk, List.getElem?_eq_none h]

/-- C6, as amended. `evaluate(Zero)` is 0; `evaluate(getCounter(id))` fails with the
counter-out-of-bounds error if and only if `id >= counts.length`, and otherwise
yields `counts[id]` converted to `int64_t`: `counts[id]` itself when
`counts[id] < 2 ^ 63`, and `counts[id] - 2 ^ 64` otherwise (converted back to
`uint64_t` it is `counts[id]` again). With counts `[5, 7]`, `getCounter(2)` fails
and `add(getCounter(0), getCounter(1))` yields 12. -/
theorem evaluate_direct (Ctx : CounterMappingContext) (id : Nat) :
    Ctx.evaluate Counter.getZero = some (Except.ok 0) ∧
    (Ctx.evaluate (Counter.getCounter id) = some (Except.error EvalError.CounterOutOfBounds) ↔
      Ctx.CounterValues.length ≤ id) ∧
    (∀ V, Ctx.CounterValues[id]? = some V →
      Ctx.evaluate (Counter.getCounter id) = some (Except.ok (toInt64 V)) ∧
      (V < 2 ^ 63 → Ctx.evaluate (Counter.getCounter id) = some (Except.ok (V : Int))) ∧
      (V < 2 ^ 64 → 2 ^ 63 ≤ V →
        Ctx.evaluate (Counter.getCounter id) = some (Except.ok ((V : Int) - 2 ^ 64))) ∧
      (V < 2 ^ 64 → toUInt64 (toInt64 V) = V)) ∧
    ({ Expressions := [], CounterValues := [5, 7] } : CounterMappingContext).evaluate
      (Counter.getCounter 2) = some (Except.error EvalError.CounterOutOfBounds) ∧
    (({} : CounterExpressionBuilder).add (Counter.getCounter 0) (Counter.getCounter 1)).map
      (fun R => ({ Expressions := R.2.getExpressions, CounterValues := [5, 7] } :
        CounterMappingContext).evaluate R.1) = some (some (Except.ok 12)) := by
  refine ⟨evaluate_zero Ctx _ rfl, ?_, ?_, ?_, ?_⟩
  · rw [evaluate_counter Ctx _ rfl]
    simp only [Counter.getCounter]
    cases h : Ctx.CounterValues[id]? with
    | none =>
      simp only [true_iff]
      by_contra hc
      rw [List.getElem?_eq_getElem (by omega)] at h
      exact Option.noConfusion h
    | some V =>
      have hlt : id < Ctx.CounterValues.length := by
        by_contra hc
        rw [List.getElem?_eq_none (by omega)] at h
        exact Option.noConfusion h
      simp only [Option.some.injEq, false_iff, not_le]
      exact ⟨fun hh => Except.noConfusion hh, fun hle => absurd hlt (by omega)⟩
  · intro V hV
    have h1 : Ctx.evaluate (Counter.getCounter id) = some (Except.ok (toInt64 V)) := by
      rw [evaluate_counter Ctx _ rfl]
      simp only [Counter.getCounter, hV]
    refine ⟨h1, fun hs => ?_, fun h64 h63 => ?_, fun h64 => ?_⟩
    · rw [h1]
      have : toInt64 (V : Int) = (V : Int) := by unfold toInt64; omega
      rw [this]
    · rw [h1]
      have : toInt64 (V : Int) = (V : Int) - 2 ^ 64 := by unfold toInt64; omega
      rw [this]
    · unfold toUInt64 toInt64; omega
  · rfl
  · rfl

/-- C6, the claim as stated fails for a count of `2 ^ 63` or more: `evaluate` returns
an `int64_t`, and `counts[0] = 2 ^ 63` comes back as `-2 ^ 63`. -/
theorem evaluate_direct_counterexample :
    ({ Expressions := [], CounterValues := [9223372036854775808] } :
      CounterMappingContext).evaluate (Counter.getCounter 0) =
        some (Except.ok (-9223372036854775808)) ∧
    (-9223372036854775808 : Int) ≠ ((9223372036854775808 : Nat) : Int) := by
  constructor
  · rfl
  · decide

/-- C7, as amended. An expression reference with `id >= expressions.length` fails
with the expression-out-of-bounds error. One with `id < expressions.length`
evaluates `LHS`, then `RHS`: it fails exactly when `LHS` fails, or `LHS` yields a
value and `RHS` fails, and then with that operand's failure (which can itself be
expression-out-of-bounds); when both yield values it returns their sum for `Add`
and their difference for `Subtract` as `int64_t`, wrapping, with neither
saturation nor clamping of a negative result. -/
theorem evaluate_expression (Ctx : CounterMappingContext) (id : Nat) :
    (Ctx.Expressions.length ≤ id →
      Ctx.evaluate (Counter.getExpression id) =
        some (Except.error EvalError.ExpressionOutOfBounds)) ∧
    (∀ E, Ctx.Expressions[id]? = some E →
      Ctx.evaluate (Counter.getExpression id) =
        combineResults E.Kind (Ctx.evaluate E.LHS) (Ctx.evaluate E.RHS) ∧
      (∀ e, Ctx.evaluate (Counter.getExpression id) = some (Except.error e) ↔
        (Ctx.evaluate E.LHS = some (Except.error e) ∨
          ((∃ a, Ctx.evaluate E.LHS = some (Except.ok a)) ∧
            Ctx.evaluate E.RHS = some (Except.error e)))) ∧
      (∀ a b, Ctx.evaluate E.LHS = some (Except.ok a) →
        Ctx.evaluate E.RHS = some (Except.ok b) →
        Ctx.evaluate (Counter.getExpression id) =
          some (Except.ok (toInt64 (if E.Kind = ExprKind.Add then a + b else a - b))))) ∧
    negativeContext.evaluate (Counter.getExpression 0) = some (Except.ok (-1)) ∧
    wrappingContext.evaluate (Counter.getExpression 0) =
      some (Except.ok (-9223372036854775808)) := by
  refine ⟨fun h => evaluate_expression_out_of_bounds Ctx _ rfl h, fun E hE => ?_, rfl, rfl⟩
  have hnode := evaluate_node Ctx (Counter.getExpression id) rfl E hE
  refine ⟨hnode, fun e => ?_, fun a b ha hb => ?_⟩
  · rw [hnode]
    cases hL : Ctx.evaluate E.LHS with
    | none => simp [combineResults]
    | some l =>
      cases l with
      | error e1 => simp [combineResults]
      | ok a =>
        cases hR : Ctx.evaluate E.RHS with
        | none => simp [combineResults]
        | some rr =>
          cases rr with
          | error e2 => simp [combineResults]
          | ok b => cases hK : E.Kind <;> simp [combineResults]
  · rw [hnode, ha, hb]
    cases hK : E.Kind <;> simp [combineResults]

/-- C7, the claim as stated fails for a stored expression whose operand is out of
bounds: `getExpression(0)` is within the expression list and still fails with
the expression-out-of-bounds error, which the evaluation of its `LHS` raised. -/
theorem evaluate_expression_counterexample :
    danglingContext.evaluate (Counter.getExpression 0) =
      some (Except.error EvalError.ExpressionOutOfBounds) ∧
    0 < danglingContext.Expressions.length := by
  constructor
  · rfl
  · decide

/-! ## Evaluation through the terms -/

theorem loc_ne_of_lt {a b : LineColPair} (h : LineColPair.lt a b) :
    ¬ (a.1 = b.1 ∧ a.2 = b.2) := by
  unfold LineColPair.lt at *; omega

/-- C9 (nesting), as amended. For Code regions `A` and `B` with
`A.start < B.start < B.end < A.end` (the inner region has a positive width), the
segments built from {A, B}, in either input order, are exactly: the entry of `A`
with its count, the entry of `B` with its count, a segment at `B.end` that is not
a region entry and carries the count of `A`, and a closing segment at `A.end`
without count. -/
theorem nesting_segments (A B : CountedRegion)
    (hA : A.Kind = RegionKind.CodeRegion) (hB : B.Kind = RegionKind.CodeRegion)
    (h1 : LineColPair.lt A.startLoc B.startLoc) (h2 : LineColPair.lt B.startLoc B.endLoc)
    (h3 : LineColPair.lt B.endLoc A.endLoc) :
    SegmentBuilder.buildSegments [A, B] =
      [CoverageSegment.withCount A.LineStart A.ColumnStart A.ExecutionCount true,
       CoverageSegment.withCount B.LineStart B.ColumnStart B.ExecutionCount true,
       CoverageSegment.withCount B.LineEnd B.ColumnEnd A.ExecutionCount false,
       CoverageSegment.withoutCount A.LineEnd A.ColumnEnd false] ∧
    SegmentBuilder.buildSegments [B, A] = SegmentBuilder.buildSegments [A, B] := by
  have hAB : opensBefore A B := Or.inl h1
  have hBA : ¬ opensBefore B A := by
    revert h1
    unfold opensBefore LineColPair.lt LineColPair.le CountedRegion.startLoc
      CountedRegion.endLoc CounterMappingRegion.startLoc CounterMappingRegion.endLoc
    simp only [Prod.mk.injEq]
    intro h1; omega
  have hsort1 : sortNestedRegions [A, B] = [A, B] := by
    simp [sortNestedRegions, insertRegion, hAB]
  have hsort2 : sortNestedRegions [B, A] = [A, B] := by
    simp [sortNestedRegions, insertRegion, hBA]
  have hpop : ¬ LineColPair.le A.endLoc B.startLoc := by
    revert h1 h2 h3
    unfold LineColPair.lt LineColPair.le CountedRegion.startLoc
      CountedRegion.endLoc CounterMappingRegion.startLoc CounterMappingRegion.endLoc
    intro h1 h2 h3; simp only at *; omega
  have hfirst : ¬ LineColPair.lt A.endLoc B.endLoc := by
    revert h3
    unfold LineColPair.lt CountedRegion.endLoc CounterMappingRegion.endLoc
    intro h3; simp only at *; omega
  have hne1 : ¬ (A.LineStart = B.LineStart ∧ A.ColumnStart = B.ColumnStart) := loc_ne_of_lt h1
  have hne2 : ¬ (B.LineStart = B.LineEnd ∧ B.ColumnStart = B.ColumnEnd) := loc_ne_of_lt h2
  have hne3 : ¬ (B.LineEnd = A.LineEnd ∧ B.ColumnEnd = A.ColumnEnd) := loc_ne_of_lt h3
  have hAk : ¬ A.Kind = RegionKind.SkippedRegion := by rw [hA]; decide
  have hBk : ¬ B.Kind = RegionKind.SkippedRegion := by rw [hB]; decide
  have hmain : (SegmentBuilder.sweep [A, B] {}).Segments =
      [CoverageSegment.withCount A.LineStart A.ColumnStart A.ExecutionCount true,
       CoverageSegment.withCount B.LineStart B.ColumnStart B.ExecutionCount true,
       CoverageSegment.withCount B.LineEnd B.ColumnEnd A.ExecutionCount false,
       CoverageSegment.withoutCount A.LineEnd A.ColumnEnd false] := by
    simp [SegmentBuilder.sweep, SegmentBuilder.popEnded, SegmentBuilder.pushRegion,
      SegmentBuilder.popAll, SegmentBuilder.popRegion, firstToEnd, emitSegment, regionSegment,
      hAk, hBk, hpop, hfirst, CoverageSegment.withCount, CoverageSegment.withoutCount,
      hne1, hne2, hne3]
  unfold SegmentBuilder.buildSegments
  rw [hsort1, hsort2]
  exact ⟨hmain, rfl⟩

/-- C9 at a concrete input: A lines 1-5 with count 10, B lines 2-3 with count 3. -/
theorem nesting_segments_witness :
    (codeRegion 1 1 5 1 10).Kind = RegionKind.CodeRegion ∧
    (codeRegion 2 1 3 1 3).Kind = RegionKind.CodeRegion ∧
    LineColPair.lt (codeRegion 1 1 5 1 10).startLoc (codeRegion 2 1 3 1 3).startLoc ∧
    LineColPair.lt (codeRegion 2 1 3 1 3).startLoc (codeRegion 2 1 3 1 3).endLoc ∧
    LineColPair.lt (codeRegion 2 1 3 1 3).endLoc (codeRegion 1 1 5 1 10).endLoc ∧
    SegmentBuilder.buildSegments [codeRegion 1 1 5 1 10, codeRegion 2 1 3 1 3] =
      [CoverageSegment.withCount 1 1 10 true, CoverageSegment.withCount 2 1 3 true,
       CoverageSegment.withCount 3 1 10 false, CoverageSegment.withoutCount 5 1 false] ∧
    SegmentBuilder.buildSegments [codeRegion 2 1 3 1 3, codeRegion 1 1 5 1 10] =
      SegmentBuilder.buildSegments [codeRegion 1 1 5 1 10, codeRegion 2 1 3 1 3] :=
  ⟨rfl, rfl, by decide, by decide, by decide,
    nesting_segments (codeRegion 1 1 5 1 10) (codeRegion 2 1 3 1 3) rfl rfl (by decide)
      (by decide) (by decide)⟩

/-- C9, the claim as stated fails when the inner region has zero width
(`B.start = B.end`, which `B.start <= B.end` allows): the segment at `B.end`
replaces the entry of `B` at the same point, and three segments are left. -/
theorem nesting_segments_counterexample :
    (∀ R ∈ zeroWidthRegions, R.Kind = RegionKind.CodeRegion) ∧
    LineColPair.lt (codeRegion 1 1 5 1 10).startLoc (codeRegion 2 1 2 1 3).startLoc ∧
    LineColPair.le (codeRegion 2 1 2 1 3).startLoc (codeRegion 2 1 2 1 3).endLoc ∧
    LineColPair.lt (codeRegion 2 1 2 1 3).endLoc (codeRegion 1 1 5 1 10).endLoc ∧
    SegmentBuilder.buildSegments zeroWidthRegions =
      [CoverageSegment.withCount 1 1 10 true, CoverageSegment.withCount 2 1 10 false,
       CoverageSegment.withoutCount 5 1 false] := by
  decide

/-! ## Loading function records -/

theorem evaluateRegions_name (Ctx : CounterMappingContext) (Regions : List CounterMappingRegion) :
    ∀ F G : FunctionRecord, evaluateRegions Ctx Regions F = some (Except.ok G) →
      G.Name = F.Name ∧ G.Filenames = F.Filenames := by
  induction Regions with
  | nil =>
    intro F G h
    simp only [evaluateRegions, Option.some.injEq, Except.ok.injEq] at h
    rw [h]; exact ⟨rfl, rfl⟩
  | cons Region rest ih =>
    intro F G h
    rw [evaluateRegions] at h
    cases hE : Ctx.evaluate Region.Count with
    | none => simp [hE] at h
    | some r =>
      cases r with
      | error e => simp [hE] at h
      | ok V =>
        simp only [hE] at h
        exact ih (F.pushRegion Region (toUInt64 V)) G h

theorem functionRecordOf_mismatched (P : ProfileSource) (U : Nat) (R : CoverageMappingRecord)
    (h : isMismatched P R = true) :
    functionRecordOf P U R = none ∧
      ∀ CM : CoverageMapping, CM.loadFunctionRecord R P U = some CM.countMismatch := by
  unfold isMismatched at h
  unfold functionRecordOf CoverageMapping.loadFunctionRecord
  cases hP : P R.FunctionName R.FunctionHash with
  | error e => exact ⟨rfl, fun _ => rfl⟩
  | ok Counts => simp [hP] at h

theorem functionRecordOf_matched (P : ProfileSource) (U : Nat) (R : CoverageMappingRecord)
    (F : FunctionRecord) (h : functionRecordOf P U R = some F) :
    isMismatched P R = false ∧ F.Name = R.FunctionName ∧
      ∀ CM : CoverageMapping, ∃ Names, CM.loadFunctionRecord R P U =
        some { FunctionNames := Names, Functions := CM.Functions ++ [F],
               MismatchedFunctionCount := CM.MismatchedFunctionCount } := by
  unfold functionRecordOf at h
  unfold isMismatched CoverageMapping.loadFunctionRecord
  cases hP : P R.FunctionName R.FunctionHash with
  | error e => simp [hP] at h
  | ok Counts =>
    simp only [hP] at h ⊢
    cases hE : evaluateRegions { Expressions := R.Expressions, CounterValues := Counts }
        R.MappingRegions (FunctionRecord.create R.FunctionName R.Filenames U) with
    | none => simp [hE] at h
    | some r =>
      cases r with
      | error e => simp [hE] at h
      | ok G =>
        simp only [hE, Option.some.injEq] at h
        subst h
        refine ⟨by trivial, (evaluateRegions_name _ _ _ _ hE).1, fun CM => ⟨_, rfl⟩⟩

theorem loadRecords_spec (P : ProfileSource) (U : Nat) (Records : List CoverageMappingRecord) :
    ∀ CM0 : CoverageMapping, CM0.MismatchedFunctionCount < 2 ^ 32 →
      (∀ R ∈ Records, isMismatched P R = false → (functionRecordOf P U R).isSome = true) →
      ∃ CM, CoverageMapping.loadRecords P U Records CM0 = some CM ∧
        CM.Functions = CM0.Functions ++ Records.filterMap (functionRecordOf P U) ∧
        CM.MismatchedFunctionCount =
          (CM0.MismatchedFunctionCount + (Records.filter (isMismatched P)).length) % 2 ^ 32 := by
  induction Records with
  | nil =>
    intro CM0 h0 _
    refine ⟨CM0, rfl, by simp, ?_⟩
    simp only [List.filter_nil, List.length_nil, Nat.add_zero]
    exact (Nat.mod_eq_of_lt h0).symm
  | cons R rest ih =>
    intro CM0 h0 hgood
    have hrest : ∀ R2 ∈ rest, isMismatched P R2 = false →
        (functionRecordOf P U R2).isSome = true :=
      fun R2 h2 => hgood R2 (List.mem_cons_of_mem _ h2)
    cases hm : isMismatched P R with
    | true =>
      obtain ⟨hnone, hload⟩ := functionRecordOf_mismatched P U R hm
      obtain ⟨CM, h1, h2, h3⟩ := ih CM0.countMismatch
        (by simp only [CoverageMapping.countMismatch]; omega) hrest
      refine ⟨CM, ?_, ?_, ?_⟩
      · simp only [CoverageMapping.loadRecords, hload CM0]; exact h1
      · rw [h2]; simp [List.filterMap_cons, hnone, CoverageMapping.countMismatch]
      · rw [h3]
        simp only [CoverageMapping.countMismatch, List.filter_cons, hm, if_true,
          List.length_cons]
        omega
    | false =>
      have hsome := hgood R (List.mem_cons_self _ _) hm
      obtain ⟨F, hF⟩ := Option.isSome_iff_exists.1 hsome
      obtain ⟨_, _, hload⟩ := functionRecordOf_matched P U R F hF
      obtain ⟨Names, hN⟩ := hload CM0
      obtain ⟨CM, h1, h2, h3⟩ := ih
        { FunctionNames := Names, Functions := CM0.Functions ++ [F],
          MismatchedFunctionCount := CM0.MismatchedFunctionCount } h0 hrest
      refine ⟨CM, ?_, ?_, ?_⟩
      · simp only [CoverageMapping.loadRecords, hN]; exact h1
      · rw [h2]; simp [List.filterMap_cons, hF]
      · rw [h3]; simp [List.filter_cons, hm]

theorem filterMap_functionRecordOf (P : ProfileSource) (U : Nat)
    (Records : List CoverageMappingRecord)
    (hgood : ∀ R ∈ Records, isMismatched P R = false →
      (functionRecordOf P U R).isSome = true) :
    (Records.filterMap (functionRecordOf P U)).length +
        (Records.filter (isMismatched P)).length = Records.length ∧
    (Records.filterMap (functionRecordOf P U)).map FunctionRecord.Name =
      (Records.filter (fun R => !isMismatched P R)).map CoverageMappingRecord.FunctionName := by
  induction Records with
  | nil => simp
  | cons R rest ih =>
    obtain ⟨ih1, ih2⟩ := ih (fun R2 h2 => hgood R2 (List.mem_cons_of_mem _ h2))
    cases hm : isMismatched P R with
    | true =>
      obtain ⟨hnone, _⟩ := functionRecordOf_mismatched P U R hm
      simp only [List.filterMap_cons, hnone, List.filter_cons, hm, if_true, List.length_cons,
        Bool.not_true, Bool.false_eq_true, if_false]
      exact ⟨by omega, ih2⟩
    | false =>
      have hsome := hgood R (List.mem_cons_self _ _) hm
      obtain ⟨F, hF⟩ := Option.isSome_iff_exists.1 hsome
      obtain ⟨_, hname, _⟩ := functionRecordOf_matched P U R F hF
      simp only [List.filterMap_cons, hF, List.filter_cons, hm, if_true, List.length_cons,
        Bool.not_false, Bool.false_eq_true, if_false, List.map_cons, hname, ih2]
      exact ⟨by omega, trivial⟩

/-- C10 (mismatch accounting), as amended. Loading `N` decoded records of which `M`
are unknown to or hash-mismatched in the profile source, the others evaluating
successfully, returns an aggregator whose function records are exactly the
records built from the `N - M` matched inputs, in input order, and whose
`getMismatchedCount()` is `M` modulo `2 ^ 32`, so `M` whenever `M < 2 ^ 32`. -/
theorem mismatch_accounting (Records : List CoverageMappingRecord) (ProfileReader : ProfileSource)
    (Indeterminate : Nat)
    (hgood : ∀ R ∈ Records, isMismatched ProfileReader R = false →
      (functionRecordOf ProfileReader Indeterminate R).isSome = true) :
    ∃ CM, CoverageMapping.load Records ProfileReader Indeterminate = some CM ∧
      CM.Functions.length =
        Records.length - (Records.filter (isMismatched ProfileReader)).length ∧
      CM.Functions = Records.filterMap (functionRecordOf ProfileReader Indeterminate) ∧
      CM.Functions.map FunctionRecord.Name =
        (Records.filter (fun R => !isMismatched ProfileReader R)).map
          CoverageMappingRecord.FunctionName ∧
      CM.getMismatchedCount =
        (Records.filter (isMismatched ProfileReader)).length % 2 ^ 32 ∧
      ((Records.filter (isMismatched ProfileReader)).length < 2 ^ 32 →
        CM.getMismatchedCount = (Records.filter (isMismatched ProfileReader)).length) := by
  obtain ⟨CM, h1, h2, h3⟩ := loadRecords_spec ProfileReader Indeterminate Records {}
    (by decide) hgood
  obtain ⟨g1, g2⟩ := filterMap_functionRecordOf ProfileReader Indeterminate Records hgood
  have h2 : CM.Functions = Records.filterMap (functionRecordOf ProfileReader Indeterminate) := by
    simpa using h2
  have h3 : CM.MismatchedFunctionCount =
      (Records.filter (isMismatched ProfileReader)).length % 2 ^ 32 := by
    simpa using h3
  refine ⟨CM, h1, ?_, h2, ?_, h3, fun hlt => ?_⟩
  · rw [h2]; omega
  · rw [h2]; exact g2
  · unfold CoverageMapping.getMismatchedCount
    rw [h3]; exact Nat.mod_eq_of_lt hlt

theorem sampleRecords_good :
    ∀ R ∈ sampleRecords, isMismatched sampleProfile R = false →
      (functionRecordOf sampleProfile 0 R).isSome = true := by
  intro R hR _
  simp only [sampleRecords, List.mem_cons, List.mem_singleton, List.not_mem_nil, or_false] at hR
  rcases hR with h | h | h | h <;> subst h <;> first | rfl | contradiction

/-- C10 at a concrete input: four records, two of them mismatched. -/
theorem mismatch_accounting_witness :
    (∀ R ∈ sampleRecords, isMismatched sampleProfile R = false →
      (functionRecordOf sampleProfile 0 R).isSome = true) ∧
    sampleRecords.length = 4 ∧ (sampleRecords.filter (isMismatched sampleProfile)).length = 2 ∧
    ∃ CM, CoverageMapping.load sampleRecords sampleProfile 0 = some CM ∧
      CM.Functions.length =
        sampleRecords.length - (sampleRecords.filter (isMismatched sampleProfile)).length ∧
      CM.Functions = sampleRecords.filterMap (functionRecordOf sampleProfile 0) ∧
      CM.Functions.map FunctionRecord.Name =
        (sampleRecords.filter (fun R => !isMismatched sampleProfile R)).map
          CoverageMappingRecord.FunctionName ∧
      CM.getMismatchedCount =
        (sampleRecords.filter (isMismatched sampleProfile)).length % 2 ^ 32 ∧
      ((sampleRecords.filter (isMismatched sampleProfile)).length < 2 ^ 32 →
        CM.getMismatchedCount = (sampleRecords.filter (isMismatched sampleProfile)).length) :=
  ⟨sampleRecords_good, rfl, rfl,
    mismatch_accounting sampleRecords sampleProfile 0 sampleRecords_good⟩

theorem loadRecords_replicate_mismatched (P : ProfileSource) (U : Nat)
    (R : CoverageMappingRecord) (h : isMismatched P R = true) (n : Nat) :
    ∀ CM0 : CoverageMapping, CM0.MismatchedFunctionCount < 2 ^ 32 →
      (CoverageMapping.loadRecords P U (List.replicate n R) CM0).map
        CoverageMapping.getMismatchedCount =
          some ((CM0.MismatchedFunctionCount + n) % 2 ^ 32) := by
  induction n with
  | zero =>
    intro CM0 h0
    simp only [List.replicate_zero, CoverageMapping.loadRecords, Option.map_some',
      CoverageMapping.getMismatchedCount, Nat.add_zero]
    rw [Nat.mod_eq_of_lt h0]
  | succ n ih =>
    intro CM0 h0
    simp only [List.replicate_succ, CoverageMapping.loadRecords,
      (functionRecordOf_mismatched P U R h).2 CM0]
    rw [ih CM0.countMismatch (by simp only [CoverageMapping.countMismatch]; omega)]
    simp only [CoverageMapping.countMismatch]
    congr 1
    omega

/-- C10, the claim as stated fails once `M` reaches `2 ^ 32`: `getMismatchedCount()`
returns an `unsigned`. Loading `2 ^ 32` records of a function the profile source
does not know leaves the mismatch count at 0. -/
theorem mismatch_accounting_counterexample :
    (List.replicate 4294967296 (sampleRecord "g" 0)).length = 4294967296 ∧
    isMismatched sampleProfile (sampleRecord "g" 0) = true ∧
    (CoverageMapping.load (List.replicate 4294967296 (sampleRecord "g" 0)) sampleProfile 0).map
      CoverageMapping.getMismatchedCount = some 0 :=
  ⟨List.length_replicate _ _, rfl,
    loadRecords_replicate_mismatched sampleProfile 0 (sampleRecord "g" 0) rfl 4294967296 {}
      (by decide)⟩

/-! ## Comparison of counters -/

theorem kind_toNat_injective (K1 K2 : CounterKind) (h : K1.toNat = K2.toNat) : K1 = K2 := by
  cases K1 <;> cases K2 <;> simp [CounterKind.toNat] at h ⊢

theorem operatorEq_iff (a b : Counter) : Counter.operatorEq a b = true ↔ a = b := by
  cases a; cases b
  simp [Counter.operatorEq]

theorem operatorLt_iff (a b : Counter) :
    Counter.operatorLt a b = true ↔
      a.Kind.toNat < b.Kind.toNat ∨ (a.Kind.toNat = b.Kind.toNat ∧ a.ID < b.ID) := by
  simp only [Counter.operatorLt, Bool.or_eq_true, Bool.and_eq_true, decide_eq_true_eq,
    Bool.not_eq_true', decide_eq_false_iff_not]
  omega

/-- C17: `operator==` on counters holds exactly when kind and id agree, so that
`getCounter(0) != getZero()` and `getCounter(i) != getExpression(i)`; `operator<` is the
lexicographic order on (kind, id) with `Zero < CounterValueReference < Expression`; of
`a < b`, `a == b`, `b < a` exactly one holds, and `<` is transitive. -/
theorem counter_comparison (a b c : Counter) :
    (Counter.operatorEq a b = true ↔ a.Kind = b.Kind ∧ a.ID = b.ID) ∧
    Counter.operatorNe a b = !Counter.operatorEq a b ∧
    Counter.operatorNe (Counter.getCounter 0) Counter.getZero = true ∧
    (∀ i : Nat, Counter.operatorNe (Counter.getCounter i) (Counter.getExpression i) = true) ∧
    (Counter.operatorLt a b = true ↔
      a.Kind.toNat < b.Kind.toNat ∨ (a.Kind = b.Kind ∧ a.ID < b.ID)) ∧
    (CounterKind.Zero.toNat < CounterKind.CounterValueReference.toNat ∧
      CounterKind.CounterValueReference.toNat < CounterKind.Expression.toNat) ∧
    ((Counter.operatorLt a b = true ∧ Counter.operatorEq a b = false ∧
        Counter.operatorLt b a = false) ∨
      (Counter.operatorLt a b = false ∧ Counter.operatorEq a b = true ∧
        Counter.operatorLt b a = false) ∨
      (Counter.operatorLt a b = false ∧ Counter.operatorEq a b = false ∧
        Counter.operatorLt b a = true)) ∧
    (Counter.operatorLt a b = true → Counter.operatorLt b c = true →
      Counter.operatorLt a c = true) := by
  refine ⟨?_, rfl, by decide, ?_, ?_, by decide, ?_, ?_⟩
  · simp [Counter.operatorEq]
  · intro i
    simp [Counter.operatorNe, Counter.operatorEq, Counter.getCounter, Counter.getExpression]
  · rw [operatorLt_iff]
    constructor
    · rintro (h | ⟨h1, h2⟩)
      · exact Or.inl h
      · exact Or.inr ⟨kind_toNat_injective _ _ h1, h2⟩
    · rintro (h | ⟨h1, h2⟩)
      · exact Or.inl h
      · exact Or.inr ⟨by rw [h1], h2⟩
  · have hab := operatorLt_iff a b
    have hba := operatorLt_iff b a
    have heq : Counter.operatorEq a b = true ↔
        a.Kind.toNat = b.Kind.toNat ∧ a.ID = b.ID := by
      rw [operatorEq_iff]
      constructor
      · rintro rfl
        exact ⟨rfl, rfl⟩
      · rintro ⟨h1, h2⟩
        cases a; cases b
        simp only [Counter.mk.injEq]
        exact ⟨kind_toNat_injective _ _ h1, h2⟩
    cases h1 : Counter.operatorLt a b <;> cases h2 : Counter.operatorEq a b <;>
      cases h3 : Counter.operatorLt b a <;>
      simp only [h1, h2, h3, Bool.false_eq_true, false_iff, true_iff, not_or, not_and,
        not_lt] at hab hba heq <;> simp <;> omega
  · rw [operatorLt_iff, operatorLt_iff, operatorLt_iff]
    omega

/-! ## Segments and regions as they are constructed -/

/-- C18: the three-argument constructor of `CoverageSegment` yields `HasCount = false`
and `Count = 0`, the four-argument constructor yields `HasCount = true` and the given
count; both keep `Line`, `Col` and `IsRegionEntry`, and a segment built by either
constructor has `Count = 0` whenever `HasCount = false`. -/
theorem segment_constructors (Line Col Count : Nat) (IsRegionEntry : Bool) :
    ((CoverageSegment.withoutCount Line Col IsRegionEntry).HasCount = false ∧
      (CoverageSegment.withoutCount Line Col IsRegionEntry).Count = 0 ∧
      (CoverageSegment.withoutCount Line Col IsRegionEntry).Line = Line ∧
      (CoverageSegment.withoutCount Line Col IsRegionEntry).Col = Col ∧
      (CoverageSegment.withoutCount Line Col IsRegionEntry).IsRegionEntry = IsRegionEntry) ∧
    ((CoverageSegment.withCount Line Col Count IsRegionEntry).HasCount = true ∧
      (CoverageSegment.withCount Line Col Count IsRegionEntry).Count = Count ∧
      (CoverageSegment.withCount Line Col Count IsRegionEntry).Line = Line ∧
      (CoverageSegment.withCount Line Col Count IsRegionEntry).Col = Col ∧
      (CoverageSegment.withCount Line Col Count IsRegionEntry).IsRegionEntry = IsRegionEntry) ∧
    (∀ S : CoverageSegment,
      S = CoverageSegment.withoutCount Line Col IsRegionEntry ∨
        S = CoverageSegment.withCount Line Col Count IsRegionEntry →
      S.HasCount = false → S.Count = 0) := by
  refine ⟨⟨rfl, rfl, rfl, rfl, rfl⟩, ⟨rfl, rfl, rfl, rfl, rfl⟩, ?_⟩
  rintro S (rfl | rfl) h
  · rfl
  · simp [CoverageSegment.withCount] at h

/-- C19: `makeRegion` yields a `CodeRegion` with the given counter, `ExpandedFileID = 0`
and the given file id and coordinates; `makeExpansion` yields an `ExpansionRegion` with
the zero counter and the given `FileID`, `ExpandedFileID` and coordinates; `makeSkipped`
yields a `SkippedRegion` with the zero counter, `ExpandedFileID = 0` and the given
`FileID` and coordinates; in all three `startLoc()` and `endLoc()` are the given
(`LineStart`, `ColumnStart`) and (`LineEnd`, `ColumnEnd`). -/
theorem region_factories (Count : Counter)
    (FileID ExpandedFileID LineStart ColumnStart LineEnd ColumnEnd : Nat) :
    CounterMappingRegion.makeRegion Count FileID LineStart ColumnStart LineEnd ColumnEnd =
      CounterMappingRegion.mk Count FileID 0 LineStart ColumnStart LineEnd ColumnEnd
        RegionKind.CodeRegion ∧
    CounterMappingRegion.makeExpansion FileID ExpandedFileID LineStart ColumnStart LineEnd
        ColumnEnd =
      CounterMappingRegion.mk Counter.getZero FileID ExpandedFileID LineStart ColumnStart
        LineEnd ColumnEnd RegionKind.ExpansionRegion ∧
    CounterMappingRegion.makeSkipped FileID LineStart ColumnStart LineEnd ColumnEnd =
      CounterMappingRegion.mk Counter.getZero FileID 0 LineStart ColumnStart LineEnd
        ColumnEnd RegionKind.SkippedRegion ∧
    Counter.getZero.isZero = true ∧
    ((CounterMappingRegion.makeRegion Count FileID LineStart ColumnStart LineEnd
          ColumnEnd).startLoc = (LineStart, ColumnStart) ∧
      (CounterMappingRegion.makeRegion Count FileID LineStart ColumnStart LineEnd
          ColumnEnd).endLoc = (LineEnd, ColumnEnd) ∧
      (CounterMappingRegion.makeExpansion FileID ExpandedFileID LineStart ColumnStart LineEnd
          ColumnEnd).startLoc = (LineStart, ColumnStart) ∧
      (CounterMappingRegion.makeExpansion FileID ExpandedFileID LineStart ColumnStart LineEnd
          ColumnEnd).endLoc = (LineEnd, ColumnEnd) ∧
      (CounterMappingRegion.makeSkipped FileID LineStart ColumnStart LineEnd
          ColumnEnd).startLoc = (LineStart, ColumnStart) ∧
      (CounterMappingRegion.makeSkipped FileID LineStart ColumnStart LineEnd
          ColumnEnd).endLoc = (LineEnd, ColumnEnd)) :=
  ⟨rfl, rfl, rfl, rfl, rfl, rfl, rfl, rfl, rfl, rfl⟩

/-- C20, counterexample: `makeRegion` accepts a region that ends at (1, 1) and starts
at (5, 1); its end lies strictly before its start. -/
theorem region_geometry_counterexample :
    LineColPair.lt (CounterMappingRegion.makeRegion Counter.getZero 0 5 1 1 1).endLoc
        (CounterMappingRegion.makeRegion Counter.getZero 0 5 1 1 1).startLoc ∧
      ¬ LineColPair.le (CounterMappingRegion.makeRegion Counter.getZero 0 5 1 1 1).startLoc
        (CounterMappingRegion.makeRegion Counter.getZero 0 5 1 1 1).endLoc := by
  decide

/-- C20, amended: a region produced by the constructor or by `makeRegion`,
`makeExpansion` or `makeSkipped` starts and ends where the arguments say, without any
check; so `endLoc() >= startLoc()` holds exactly when the given end is not before the
given start. -/
theorem region_geometry (Count : Counter) (Kind : RegionKind)
    (FileID ExpandedFileID LineStart ColumnStart LineEnd ColumnEnd : Nat) :
    ((CounterMappingRegion.mk Count FileID ExpandedFileID LineStart ColumnStart LineEnd
          ColumnEnd Kind).startLoc = (LineStart, ColumnStart) ∧
      (CounterMappingRegion.mk Count FileID ExpandedFileID LineStart ColumnStart LineEnd
          ColumnEnd Kind).endLoc = (LineEnd, ColumnEnd) ∧
      (CounterMappingRegion.makeRegion Count FileID LineStart ColumnStart LineEnd
          ColumnEnd).startLoc = (LineStart, ColumnStart) ∧
      (CounterMappingRegion.makeRegion Count FileID LineStart ColumnStart LineEnd
          ColumnEnd).endLoc = (LineEnd, ColumnEnd) ∧
      (CounterMappingRegion.makeExpansion FileID ExpandedFileID LineStart ColumnStart LineEnd
          ColumnEnd).startLoc = (LineStart, ColumnStart) ∧
      (CounterMappingRegion.makeExpansion FileID ExpandedFileID LineStart ColumnStart LineEnd
          ColumnEnd).endLoc = (LineEnd, ColumnEnd) ∧
      (CounterMappingRegion.makeSkipped FileID LineStart ColumnStart LineEnd
          ColumnEnd).startLoc = (LineStart, ColumnStart) ∧
      (CounterMappingRegion.makeSkipped FileID LineStart ColumnStart LineEnd
          ColumnEnd).endLoc = (LineEnd, ColumnEnd)) ∧
    (LineColPair.le
        (CounterMappingRegion.mk Count FileID ExpandedFileID LineStart ColumnStart LineEnd
          ColumnEnd Kind).startLoc
        (CounterMappingRegion.mk Count FileID ExpandedFileID LineStart ColumnStart LineEnd
          ColumnEnd Kind).endLoc ↔
      LineStart < LineEnd ∨ (LineStart = LineEnd ∧ ColumnStart ≤ ColumnEnd)) ∧
    (LineColPair.le
        (CounterMappingRegion.makeRegion Count FileID LineStart ColumnStart LineEnd
          ColumnEnd).startLoc
        (CounterMappingRegion.makeRegion Count FileID LineStart ColumnStart LineEnd
          ColumnEnd).endLoc ↔
      LineStart < LineEnd ∨ (LineStart = LineEnd ∧ ColumnStart ≤ ColumnEnd)) ∧
    (LineColPair.le
        (CounterMappingRegion.makeExpansion FileID ExpandedFileID LineStart ColumnStart
          LineEnd ColumnEnd).startLoc
        (CounterMappingRegion.makeExpansion FileID ExpandedFileID LineStart ColumnStart
          LineEnd ColumnEnd).endLoc ↔
      LineStart < LineEnd ∨ (LineStart = LineEnd ∧ ColumnStart ≤ ColumnEnd)) ∧
    (LineColPair.le
        (CounterMappingRegion.makeSkipped FileID LineStart ColumnStart LineEnd
          ColumnEnd).startLoc
        (CounterMappingRegion.makeSkipped FileID LineStart ColumnStart LineEnd
          ColumnEnd).endLoc ↔
      LineStart < LineEnd ∨ (LineStart = LineEnd ∧ ColumnStart ≤ ColumnEnd)) :=
  ⟨⟨rfl, rfl, rfl, rfl, rfl, rfl, rfl, rfl⟩, Iff.rfl, Iff.rfl, Iff.rfl, Iff.rfl⟩

/-! ## Function records and instantiation groups -/

theorem pushRegions_fields (Calls : List (CounterMappingRegion × Nat)) (F : FunctionRecord) :
    (F.pushRegions Calls).Name = F.Name ∧ (F.pushRegions Calls).Filenames = F.Filenames ∧
    (F.pushRegions Calls).CountedRegions =
      F.CountedRegions ++ Calls.map (fun Call => CountedRegion.mk Call.1 Call.2) ∧
    (F.CountedRegions ≠ [] → (F.pushRegions Calls).ExecutionCount = F.ExecutionCount) := by
  induction Calls generalizing F with
  | nil => simp [FunctionRecord.pushRegions]
  | cons Call Rest ih =>
    have hstep : F.pushRegions (Call :: Rest) = (F.pushRegion Call.1 Call.2).pushRegions Rest :=
      rfl
    obtain ⟨h1, h2, h3, h4⟩ := ih (F.pushRegion Call.1 Call.2)
    rw [hstep]
    refine ⟨h1, h2, ?_, ?_⟩
    · rw [h3]
      simp [FunctionRecord.pushRegion]
    · intro hne
      rw [h4 (by simp [FunctionRecord.pushRegion])]
      have hemp : F.CountedRegions.isEmpty = false := by
        cases hc : F.CountedRegions with
        | nil => exact absurd hc hne
        | cons A B => rfl
      simp [FunctionRecord.pushRegion, hemp]

/-- C16: after a non-empty sequence of `pushRegion` calls on a newly constructed
`FunctionRecord`, whatever its uninitialised `ExecutionCount` held, `ExecutionCount` is
the `Count` of the first call and `CountedRegions` is the list of pushed pairs in call
order; `Name` and `Filenames` are those of the constructor, and any further push leaves
`ExecutionCount`, `Name` and `Filenames` as they are. -/
theorem entry_count_invariant (Name : String) (Filenames : List String) (Indeterminate : Nat)
    (First : CounterMappingRegion × Nat) (Rest : List (CounterMappingRegion × Nat)) :
    ((FunctionRecord.create Name Filenames Indeterminate).pushRegions
        (First :: Rest)).ExecutionCount = First.2 ∧
    ((FunctionRecord.create Name Filenames Indeterminate).pushRegions
        (First :: Rest)).CountedRegions =
      (First :: Rest).map (fun Call => CountedRegion.mk Call.1 Call.2) ∧
    ((FunctionRecord.create Name Filenames Indeterminate).pushRegions
        (First :: Rest)).Name = Name ∧
    ((FunctionRecord.create Name Filenames Indeterminate).pushRegions
        (First :: Rest)).Filenames = Filenames ∧
    (∀ (Region : CounterMappingRegion) (Count : Nat),
      (((FunctionRecord.create Name Filenames Indeterminate).pushRegions
          (First :: Rest)).pushRegion Region Count).ExecutionCount = First.2 ∧
      (((FunctionRecord.create Name Filenames Indeterminate).pushRegions
          (First :: Rest)).pushRegion Region Count).Name = Name ∧
      (((FunctionRecord.create Name Filenames Indeterminate).pushRegions
          (First :: Rest)).pushRegion Region Count).Filenames = Filenames) := by
  have hstep : (FunctionRecord.create Name Filenames Indeterminate).pushRegions (First :: Rest) =
      ((FunctionRecord.create Name Filenames Indeterminate).pushRegion First.1
        First.2).pushRegions Rest := rfl
  obtain ⟨h1, h2, h3, h4⟩ := pushRegions_fields Rest
    ((FunctionRecord.create Name Filenames Indeterminate).pushRegion First.1 First.2)
  have hcount : ((FunctionRecord.create Name Filenames Indeterminate).pushRegions
      (First :: Rest)).ExecutionCount = First.2 := by
    rw [hstep, h4 (by simp [FunctionRecord.pushRegion])]
    simp [FunctionRecord.pushRegion, FunctionRecord.create]
  have hregions : ((FunctionRecord.create Name Filenames Indeterminate).pushRegions
      (First :: Rest)).CountedRegions =
      (First :: Rest).map (fun Call => CountedRegion.mk Call.1 Call.2) := by
    rw [hstep, h3]
    simp [FunctionRecord.pushRegion, FunctionRecord.create]
  refine ⟨hcount, hregions, by rw [hstep, h1]; rfl, by rw [hstep, h2]; rfl, ?_⟩
  intro Region Count
  refine ⟨?_, by rw [hstep]; exact h1, by rw [hstep]; exact h2⟩
  have hemp : ((FunctionRecord.create Name Filenames Indeterminate).pushRegions
      (First :: Rest)).CountedRegions.isEmpty = false := by
    rw [hregions]; rfl
  simp only [FunctionRecord.pushRegion, hemp]
  simpa using hcount

theorem total_fold (L : List FunctionRecord) (Acc : Nat) (h : Acc < 2 ^ 64) :
    L.foldl (fun Count F => (Count + F.ExecutionCount) % 2 ^ 64) Acc =
      (Acc + (L.map (fun F => F.ExecutionCount)).sum) % 2 ^ 64 := by
  induction L generalizing Acc with
  | nil =>
    simp only [List.foldl_nil, List.map_nil, List.sum_nil, Nat.add_zero]
    exact (Nat.mod_eq_of_lt h).symm
  | cons F Rest ih =>
    simp only [List.foldl_cons, List.map_cons, List.sum_cons]
    rw [ih _ (Nat.mod_lt _ (by norm_num))]
    omega

/-- C14: `getTotalExecutionCount` returns the sum of the members' `ExecutionCount`
reduced modulo 2^64; it is the exact sum whenever that sum is below 2^64 and 0 for an
empty group; two records sharing the defining point (10, 3), executed 4 and 7 times,
give 11. -/
theorem total_execution_count (G : InstantiationGroup) :
    G.getTotalExecutionCount =
      (G.Instantiations.map (fun F => F.ExecutionCount)).sum % 2 ^ 64 ∧
    ((G.Instantiations.map (fun F => F.ExecutionCount)).sum < 2 ^ 64 →
      G.getTotalExecutionCount = (G.Instantiations.map (fun F => F.ExecutionCount)).sum) ∧
    (G.size = 0 → G.getTotalExecutionCount = 0) ∧
    (sharedPointGroup.size = 2 ∧ sharedPointGroup.getLine = 10 ∧
      sharedPointGroup.getColumn = 3 ∧ sharedPointGroup.getTotalExecutionCount = 4 + 7) := by
  have hsum : G.getTotalExecutionCount =
      (G.Instantiations.map (fun F => F.ExecutionCount)).sum % 2 ^ 64 := by
    unfold InstantiationGroup.getTotalExecutionCount
    rw [total_fold _ 0 (by norm_num), Nat.zero_add]
  refine ⟨hsum, ?_, ?_, by decide⟩
  · intro hlt
    rw [hsum, Nat.mod_eq_of_lt hlt]
  · intro hz
    have hnil : G.Instantiations = [] := List.length_eq_zero.mp hz
    rw [hsum, hnil]
    rfl

/-! ## The common name of an instantiation group -/

theorem hasNameFrom_iff (L : List FunctionRecord) (Steps I : Nat) :
    InstantiationGroup.hasNameFrom L Steps I = true ↔
      ∀ J, I ≤ J → J < I + Steps →
        (L[J]?).map (fun F => F.Name) = (L[0]?).map (fun F => F.Name) := by
  induction Steps generalizing I with
  | zero =>
    simp only [InstantiationGroup.hasNameFrom, true_iff]
    intro J h1 h2
    omega
  | succ n ih =>
    simp only [InstantiationGroup.hasNameFrom]
    by_cases hne : (L[I]?).map (fun F => F.Name) = (L[0]?).map (fun F => F.Name)
    · rw [if_neg (not_not.mpr hne), ih]
      constructor
      · intro h J h1 h2
        by_cases hJ : J = I
        · rw [hJ]; exact hne
        · exact h J (by omega) (by omega)
      · intro h J h1 h2
        exact h J (by omega) (by omega)
    · rw [if_pos hne]
      constructor
      · intro h
        cases h
      · intro h
        exact absurd (h I (Nat.le_refl I) (by omega)) hne

theorem mem_take_index (L : List FunctionRecord) (E : Nat) (F : FunctionRecord) :
    F ∈ L.take E ↔ ∃ J, J < E ∧ L[J]? = some F := by
  rw [List.mem_iff_getElem?]
  constructor
  · rintro ⟨J, hJ⟩
    rw [List.getElem?_take] at hJ
    by_cases hlt : J < E
    · rw [if_pos hlt] at hJ
      exact ⟨J, hlt, hJ⟩
    · rw [if_neg hlt] at hJ
      cases hJ
  · rintro ⟨J, hlt, hJ⟩
    exact ⟨J, by rw [List.getElem?_take, if_pos hlt]; exact hJ⟩

theorem hasName_checked (G : InstantiationGroup) :
    G.hasName = true ↔
      ∀ F ∈ G.Instantiations.take (G.size % 2 ^ 32),
        ∀ F2 ∈ G.Instantiations.take (G.size % 2 ^ 32), F.Name = F2.Name := by
  unfold InstantiationGroup.hasName InstantiationGroup.size
  rw [hasNameFrom_iff]
  generalize hE : G.Instantiations.length % 2 ^ 32 = E
  have hEle : E ≤ G.Instantiations.length := by
    rw [← hE]; exact Nat.mod_le _ _
  constructor
  · intro h
    have hzero : ∀ F ∈ G.Instantiations.take E,
        some F.Name = (G.Instantiations[0]?).map (fun F => F.Name) := by
      intro F hF
      obtain ⟨J, hJ, hget⟩ := (mem_take_index _ _ _).mp hF
      by_cases hJ0 : J = 0
      · rw [hJ0] at hget
        rw [hget]; rfl
      · have := h J (by omega) (by omega)
        rw [hget] at this
        exact this
    intro F hF F2 hF2
    have h1 := hzero F hF
    have h2 := hzero F2 hF2
    rw [← h2] at h1
    exact Option.some.inj h1
  · intro h J h1 h2
    have hJ : J < G.Instantiations.length := by omega
    have h0 : 0 < G.Instantiations.length := by omega
    rw [List.getElem?_eq_getElem hJ, List.getElem?_eq_getElem h0]
    simp only [Option.map_some']
    congr 1
    exact h _ ((mem_take_index _ _ _).mpr ⟨J, by omega, List.getElem?_eq_getElem hJ⟩)
      _ ((mem_take_index _ _ _).mpr ⟨0, by omega, List.getElem?_eq_getElem h0⟩)

theorem hasName_small (G : InstantiationGroup) (h : G.size % 2 ^ 32 ≤ 1) :
    G.hasName = true := by
  rw [hasName_checked]
  intro F hF F2 hF2
  obtain ⟨J, hJ, hget⟩ := (mem_take_index _ _ _).mp hF
  obtain ⟨J2, hJ2, hget2⟩ := (mem_take_index _ _ _).mp hF2
  have e1 : J = 0 := by omega
  have e2 : J2 = 0 := by omega
  rw [e1] at hget
  rw [e2, hget] at hget2
  rw [Option.some.inj hget2]

theorem hasName_all_iff (G : InstantiationGroup) (hlt : G.size < 2 ^ 32) :
    G.hasName = true ↔
      ∀ F ∈ G.Instantiations, ∀ F2 ∈ G.Instantiations, F.Name = F2.Name := by
  have h := hasName_checked G
  rw [Nat.mod_eq_of_lt hlt] at h
  unfold InstantiationGroup.size at h
  rw [List.take_length] at h
  exact h

theorem hugeGroup_size : hugeGroup.size = 2 ^ 32 + 1 := by
  show (List.replicate (2 ^ 32) (instantiationAt "f" 1) ++ [instantiationAt "g" 1]).length =
    2 ^ 32 + 1
  rw [List.length_append, List.length_replicate, List.length_singleton]

theorem hugeGroup_hasName : hugeGroup.hasName = true := by
  apply hasName_small
  rw [hugeGroup_size]
  norm_num

/-- C13, counterexample: in a group of 2^32 + 1 members the bound `unsigned E` is 1, so
the loop of `hasName` compares nothing and answers `true`, although a member named `f`
and a member named `g` are in the group. -/
theorem hasName_counterexample :
    hugeGroup.hasName = true ∧ hugeGroup.size = 2 ^ 32 + 1 ∧
      instantiationAt "f" 1 ∈ hugeGroup.Instantiations ∧
      instantiationAt "g" 1 ∈ hugeGroup.Instantiations ∧
      (instantiationAt "f" 1).Name = "f" ∧ (instantiationAt "g" 1).Name = "g" ∧
      (instantiationAt "f" 1).Name ≠ (instantiationAt "g" 1).Name := by
  refine ⟨hugeGroup_hasName, hugeGroup_size, ?_, ?_, rfl, rfl, by decide⟩
  · unfold hugeGroup
    exact List.mem_append_left _ (List.mem_replicate.mpr ⟨by norm_num, rfl⟩)
  · unfold hugeGroup
    exact List.mem_append_right _ (List.mem_singleton.mpr rfl)

/-- C13, amended: for every group of fewer than 2^32 members, groups of size 0 and 1
included, `hasName` returns true if and only if all members have identical `Name`. In
general the members it compares are the first `size mod 2^32`, the value of the
`unsigned` bound of its loop. -/
theorem hasName_iff (G : InstantiationGroup) :
    (G.hasName = true ↔
      ∀ F ∈ G.Instantiations.take (G.size % 2 ^ 32),
        ∀ F2 ∈ G.Instantiations.take (G.size % 2 ^ 32), F.Name = F2.Name) ∧
    (G.size < 2 ^ 32 →
      (G.hasName = true ↔
        ∀ F ∈ G.Instantiations, ∀ F2 ∈ G.Instantiations, F.Name = F2.Name)) ∧
    (G.size = 0 → G.hasName = true) ∧ (G.size = 1 → G.hasName = true) := by
  refine ⟨hasName_checked G, ?_, ?_, ?_⟩
  · exact hasName_all_iff G
  · intro h0
    exact hasName_small G (by rw [h0]; norm_num)
  · intro h1
    exact hasName_small G (by rw [h1]; norm_num)

theorem getName_ok (G : InstantiationGroup) (Name : String)
    (h : G.getName = Except.ok Name) :
    G.hasName = true ∧ (G.Instantiations[0]?).map (fun F => F.Name) = some Name := by
  unfold InstantiationGroup.getName at h
  by_cases hn : G.hasName = true
  · rw [if_pos hn] at h
    refine ⟨hn, ?_⟩
    cases h0 : G.Instantiations[0]? with
    | none => rw [h0] at h; cases h
    | some F =>
      rw [h0] at h
      simp only [Except.ok.injEq] at h
      rw [← h]; rfl
  · rw [if_neg hn] at h
    cases h

/-- C15, counterexample: the group of 2^32 + 1 members is not empty and `getName`
passes its assertion and returns `f`, although a member of the group is named `g`. -/
theorem getName_counterexample :
    hugeGroup.size = 2 ^ 32 + 1 ∧ hugeGroup.getName = Except.ok "f" ∧
      instantiationAt "g" 1 ∈ hugeGroup.Instantiations ∧
      (instantiationAt "g" 1).Name = "g" ∧ (instantiationAt "g" 1).Name ≠ "f" := by
  refine ⟨hugeGroup_size, ?_, ?_, rfl, by decide⟩
  · unfold InstantiationGroup.getName
    rw [if_pos hugeGroup_hasName]
    have h0 : hugeGroup.Instantiations[0]? = some (instantiationAt "f" 1) := by
      unfold hugeGroup
      rw [List.getElem?_append_left (by rw [List.length_replicate]; norm_num),
        List.getElem?_replicate_of_lt (by norm_num)]
    rw [h0]
    rfl
  · unfold hugeGroup
    exact List.mem_append_right _ (List.mem_singleton.mpr rfl)

/-- C15, amended: for every non-empty group, `getName` fails its assertion if and only
if `hasName` is false; otherwise it returns the `Name` of the first member, which is the
`Name` of every member when the group has fewer than 2^32 members (in general, of each
of the first `size mod 2^32` members, those that `hasName` compares). -/
theorem getName_spec (G : InstantiationGroup) (hne : G.Instantiations ≠ []) :
    (G.getName = Except.error NameFailure.AssertionFailed ↔ G.hasName = false) ∧
    (G.hasName = true → ∃ Name, G.getName = Except.ok Name) ∧
    (∀ Name, G.getName = Except.ok Name →
      (G.Instantiations[0]?).map (fun F => F.Name) = some Name ∧
      (∀ F ∈ G.Instantiations.take (G.size % 2 ^ 32), F.Name = Name) ∧
      (G.size < 2 ^ 32 → ∀ F ∈ G.Instantiations, F.Name = Name)) := by
  obtain ⟨First, Rest, hcons⟩ := List.exists_cons_of_ne_nil hne
  have h0 : G.Instantiations[0]? = some First := by rw [hcons]; simp
  refine ⟨?_, ?_, ?_⟩
  · unfold InstantiationGroup.getName
    cases hn : G.hasName with
    | true => simp [h0]
    | false => simp
  · intro hn
    refine ⟨First.Name, ?_⟩
    unfold InstantiationGroup.getName
    rw [if_pos hn, h0]
  · intro Name hok
    obtain ⟨hn, hfirst⟩ := getName_ok G Name hok
    rw [h0] at hfirst
    have hname : First.Name = Name := Option.some.inj hfirst
    refine ⟨by rw [h0]; exact hfirst, ?_, ?_⟩
    · intro F hF
      have hpre := (hasName_checked G).mp hn
      have hpos : 0 < G.size % 2 ^ 32 := by
        obtain ⟨J, hJ, _⟩ := (mem_take_index _ _ _).mp hF
        omega
      have hmem : First ∈ G.Instantiations.take (G.size % 2 ^ 32) :=
        (mem_take_index _ _ _).mpr ⟨0, hpos, h0⟩
      rw [← hname]
      exact hpre F hF First hmem
    · intro hlt F hF
      have hall := ((hasName_all_iff G hlt).mp hn)
      rw [← hname]
      exact hall F hF First (by rw [hcons]; exact List.mem_cons_self _ _)

/-- Two instantiations named `f`: `getName` returns `f`, the name of both. -/
theorem getName_spec_witness :
    sharedPointGroup.Instantiations ≠ [] ∧ sharedPointGroup.getName = Except.ok "f" ∧
      ∀ F ∈ sharedPointGroup.Instantiations, F.Name = "f" :=
  ⟨by decide, rfl,
    ((getName_spec sharedPointGroup (by decide)).2.2 "f" rfl).2.2 (by decide)⟩

/-! ## The unique source files -/

theorem char_toNat_injective (A B : Char) (h : A.toNat = B.toNat) : A = B := by
  rw [← Char.ofNat_toNat A, ← Char.ofNat_toNat B, h]

theorem lexLess_irrefl (S : List Char) : lexLess S S = false := by
  induction S with
  | nil => rfl
  | cons A S ih => simp [lexLess, ih]

theorem lexLess_trans (S T U : List Char) (h1 : lexLess S T = true)
    (h2 : lexLess T U = true) : lexLess S U = true := by
  induction S generalizing T U with
  | nil =>
    cases T with
    | nil => simp [lexLess] at h1
    | cons B T =>
      cases U with
      | nil => simp [lexLess] at h2
      | cons C U => rfl
  | cons A S ih =>
    cases T with
    | nil => simp [lexLess] at h1
    | cons B T =>
      cases U with
      | nil => simp [lexLess] at h2
      | cons C U =>
        simp only [lexLess, Bool.or_eq_true, Bool.and_eq_true, decide_eq_true_eq] at h1 h2 ⊢
        rcases h1 with h1 | ⟨e1, h1⟩
        · rcases h2 with h2 | ⟨e2, h2⟩
          · exact Or.inl (by omega)
          · exact Or.inl (by omega)
        · rcases h2 with h2 | ⟨e2, h2⟩
          · exact Or.inl (by omega)
          · exact Or.inr ⟨by omega, ih T U h1 h2⟩

theorem lexLess_connected (S T : List Char) (h1 : lexLess S T = false)
    (h2 : lexLess T S = false) : S = T := by
  induction S generalizing T with
  | nil =>
    cases T with
    | nil => rfl
    | cons B T => simp [lexLess] at h1
  | cons A S ih =>
    cases T with
    | nil => simp [lexLess] at h2
    | cons B T =>
      simp only [lexLess, Bool.or_eq_false_iff, Bool.and_eq_false_iff, decide_eq_false_iff_not,
        not_lt] at h1 h2
      have hAB : A.toNat = B.toNat := by omega
      have hST : S = T := by
        apply ih T
        · rcases h1.2 with h | h
          · exact absurd hAB h
          · exact h
        · rcases h2.2 with h | h
          · exact absurd hAB.symm h
          · exact h
      rw [char_toNat_injective A B hAB, hST]

theorem filenameLess_irrefl (S : String) : filenameLess S S = false := lexLess_irrefl _

theorem filenameLess_trans (S T U : String) (h1 : filenameLess S T = true)
    (h2 : filenameLess T U = true) : filenameLess S U = true :=
  lexLess_trans _ _ _ h1 h2

theorem filenameLess_connected (S T : String) (h1 : filenameLess S T = false)
    (h2 : filenameLess T S = false) : S = T := by
  have h := lexLess_connected S.toList T.toList h1 h2
  cases S; cases T
  simp only [String.toList] at h
  rw [h]

theorem filenameLess_asymm (S T : String) (h : filenameLess S T = true) :
    filenameLess T S = false := by
  cases hTS : filenameLess T S with
  | false => rfl
  | true =>
    have := filenameLess_trans S T S h hTS
    rw [filenameLess_irrefl] at this
    cases this

/-- If `S` is below `T` and `X` is not below `T`, then `S` is below `X`. -/
theorem filenameLess_of_not_less (S T X : String) (h1 : filenameLess S T = true)
    (h2 : filenameLess X T = false) : filenameLess S X = true := by
  cases hSX : filenameLess S X with
  | true => rfl
  | false =>
    cases hXS : filenameLess X S with
    | true =>
      rw [filenameLess_trans X S T hXS h1] at h2
      cases h2
    | false =>
      have e := filenameLess_connected S X hSX hXS
      rw [← e, h1] at h2
      cases h2

theorem mem_insertFilename (S X : String) (L : List String) :
    X ∈ insertFilename S L ↔ X = S ∨ X ∈ L := by
  induction L with
  | nil => simp [insertFilename]
  | cons T Rest ih =>
    simp only [insertFilename]
    split
    · simp
    · simp only [List.mem_cons, ih]
      tauto

theorem sorted_insertFilename (S : String) (L : List String)
    (h : L.Pairwise (fun A B => filenameLess B A = false)) :
    (insertFilename S L).Pairwise (fun A B => filenameLess B A = false) := by
  induction L with
  | nil => simp [insertFilename]
  | cons T Rest ih =>
    obtain ⟨hT, hRest⟩ := List.pairwise_cons.mp h
    simp only [insertFilename]
    by_cases hST : filenameLess S T = true
    · rw [if_pos hST]
      refine List.pairwise_cons.mpr ⟨?_, h⟩
      intro X hX
      rcases List.mem_cons.mp hX with rfl | hX
      · exact filenameLess_asymm _ _ hST
      · cases hXS : filenameLess X S with
        | false => rfl
        | true =>
          have := filenameLess_trans X S T hXS hST
          rw [hT X hX] at this
          cases this
    · rw [if_neg hST]
      refine List.pairwise_cons.mpr ⟨?_, ih hRest⟩
      intro X hX
      rcases (mem_insertFilename S X Rest).mp hX with rfl | hX
      · simpa using hST
      · exact hT X hX

theorem mem_sortFilenames (X : String) (L : List String) : X ∈ sortFilenames L ↔ X ∈ L := by
  induction L with
  | nil => simp [sortFilenames]
  | cons S Rest ih => simp [sortFilenames, mem_insertFilename, ih]

theorem sorted_sortFilenames (L : List String) :
    (sortFilenames L).Pairwise (fun A B => filenameLess B A = false) := by
  induction L with
  | nil => simp [sortFilenames]
  | cons S Rest ih => exact sorted_insertFilename S _ ih

theorem uniqueFrom_spec (L : List String) (Prev : String)
    (h : (Prev :: L).Pairwise (fun A B => filenameLess B A = false)) :
    (uniqueFrom Prev L).Pairwise (fun A B => filenameLess A B = true) ∧
    (∀ X, X ∈ uniqueFrom Prev L ↔ X = Prev ∨ X ∈ L) := by
  induction L generalizing Prev with
  | nil => simp [uniqueFrom]
  | cons T Rest ih =>
    obtain ⟨hPrev, hTail⟩ := List.pairwise_cons.mp h
    obtain ⟨hT, hRest⟩ := List.pairwise_cons.mp hTail
    simp only [uniqueFrom]
    by_cases hEq : T = Prev
    · rw [if_pos hEq]
      have hsub : (Prev :: Rest).Pairwise (fun A B => filenameLess B A = false) :=
        List.pairwise_cons.mpr ⟨fun X hX => hPrev X (List.mem_cons_of_mem _ hX), hRest⟩
      obtain ⟨ih1, ih2⟩ := ih Prev hsub
      refine ⟨ih1, ?_⟩
      intro X
      rw [ih2 X, List.mem_cons, hEq]
      tauto
    · rw [if_neg hEq]
      obtain ⟨ih1, ih2⟩ := ih T hTail
      have hlt : filenameLess Prev T = true := by
        cases hPT : filenameLess Prev T with
        | true => rfl
        | false =>
          exact absurd (filenameLess_connected Prev T hPT (hPrev T (List.mem_cons_self _ _))).symm
            hEq
      refine ⟨List.pairwise_cons.mpr ⟨?_, ih1⟩, ?_⟩
      · intro X hX
        rcases (ih2 X).mp hX with rfl | hX
        · exact hlt
        · exact filenameLess_of_not_less Prev T X hlt (hT X hX)
      · intro X
        rw [List.mem_cons, ih2 X, List.mem_cons]

theorem uniqueFilenames_spec (L : List String)
    (h : L.Pairwise (fun A B => filenameLess B A = false)) :
    (uniqueFilenames L).Pairwise (fun A B => filenameLess A B = true) ∧
    (∀ X, X ∈ uniqueFilenames L ↔ X ∈ L) := by
  cases L with
  | nil => simp [uniqueFilenames]
  | cons S Rest =>
    obtain ⟨h1, h2⟩ := uniqueFrom_spec Rest S h
    exact ⟨h1, fun X => by rw [List.mem_cons]; exact h2 X⟩

/-- C11: in every state of the coverage mapping the result of `getUniqueSourceFiles` is
strictly ascending in the lexicographic order of filenames, so it is sorted and holds
no filename twice, and a filename is in it exactly when it occurs in the `Filenames` of
some function record; the order is irreflexive, transitive and total. For the three
sample records the result is `a.c`, `b.c`. -/
theorem unique_source_files (CM : CoverageMapping) :
    CM.getUniqueSourceFiles.Pairwise (fun A B => filenameLess A B = true) ∧
    CM.getUniqueSourceFiles.Pairwise (fun A B => filenameLess B A = false) ∧
    CM.getUniqueSourceFiles.Nodup ∧
    (∀ X, X ∈ CM.getUniqueSourceFiles ↔ ∃ F ∈ CM.Functions, X ∈ F.Filenames) ∧
    ((∀ S, filenameLess S S = false) ∧
      (∀ S T U, filenameLess S T = true → filenameLess T U = true →
        filenameLess S U = true) ∧
      (∀ S T, filenameLess S T = true ∨ S = T ∨ filenameLess T S = true)) ∧
    sampleMapping.getUniqueSourceFiles = ["a.c", "b.c"] := by
  obtain ⟨h1, h2⟩ := uniqueFilenames_spec _
    (sorted_sortFilenames (CM.Functions.flatMap (fun F => F.Filenames)))
  refine ⟨h1, ?_, ?_, ?_, ⟨filenameLess_irrefl, filenameLess_trans, ?_⟩, by decide⟩
  · exact List.Pairwise.imp (fun {A B} h => filenameLess_asymm A B h) h1
  · refine List.Pairwise.imp (fun {A B} h => ?_) h1
    intro e
    rw [e, filenameLess_irrefl] at h
    cases h
  · intro X
    unfold CoverageMapping.getUniqueSourceFiles
    rw [h2 X, mem_sortFilenames, List.mem_flatMap]
  · intro S T
    cases h1 : filenameLess S T with
    | true => exact Or.inl rfl
    | false =>
      cases h2 : filenameLess T S with
      | true => exact Or.inr (Or.inr rfl)
      | false => exact Or.inr (Or.inl (filenameLess_connected S T h1 h2))

/-! ## Iterating over the function records -/

/-- The search of `skipTo` either reaches the end of the list, and then no record of
the list passes the filter, or it stops at the first record that passes it. -/
theorem skipTo_spec (Filename : String) (M : List FunctionRecord) (I : Nat) :
    (skipTo Filename M I = none ∧
      M.filter (fun F => decide (Filename = "" ∨ F.Filenames.head? = some Filename)) = []) ∨
    (∃ K F, skipTo Filename M I = some (I + K) ∧ M[K]? = some F ∧
      M.filter (fun F => decide (Filename = "" ∨ F.Filenames.head? = some Filename)) =
        F :: (M.drop (K + 1)).filter
          (fun F => decide (Filename = "" ∨ F.Filenames.head? = some Filename))) := by
  induction M generalizing I with
  | nil => exact Or.inl ⟨rfl, rfl⟩
  | cons G Rest ih =>
    by_cases hskip : Filename ≠ "" ∧ G.Filenames.head? ≠ some Filename
    · have hkeep : decide (Filename = "" ∨ G.Filenames.head? = some Filename) = false := by
        rw [decide_eq_false_iff_not]
        rintro (h | h)
        · exact hskip.1 h
        · exact hskip.2 h
      have hstep : skipTo Filename (G :: Rest) I = skipTo Filename Rest (I + 1) := by
        simp only [skipTo]
        rw [if_pos hskip]
      rw [hstep, List.filter_cons_of_neg (by rw [hkeep]; exact Bool.false_ne_true)]
      rcases ih (I + 1) with ⟨h1, h2⟩ | ⟨K, F, h1, h2, h3⟩
      · exact Or.inl ⟨h1, h2⟩
      · refine Or.inr ⟨K + 1, F, ?_, ?_, ?_⟩
        · rw [h1]
          congr 1
          omega
        · simpa using h2
        · rw [h3]
          rfl
    · have hkeep : decide (Filename = "" ∨ G.Filenames.head? = some Filename) = true := by
        rw [decide_eq_true_eq]
        by_cases h1 : Filename = ""
        · exact Or.inl h1
        · by_cases h2 : G.Filenames.head? = some Filename
          · exact Or.inr h2
          · exact absurd ⟨h1, h2⟩ hskip
      refine Or.inr ⟨0, G, ?_, by simp, ?_⟩
      · simp only [skipTo]
        rw [if_neg hskip]
        rfl
      · rw [List.filter_cons_of_pos (by rw [hkeep])]
        rfl

theorem visitRange_spec (L : List FunctionRecord) (Filename : String) (Fuel I : Nat)
    (hI : I ≤ L.length) (hFuel : L.length - I + 1 ≤ Fuel) :
    visitRange Fuel
        (FunctionRecordIterator.skipOtherFiles
          { Records := some L, Current := some I, Filename := Filename })
        FunctionRecordIterator.createDefault =
      some ((L.drop I).filter
        (fun F => decide (Filename = "" ∨ F.Filenames.head? = some Filename))) := by
  induction Fuel generalizing I with
  | zero => omega
  | succ Fuel ih =>
    rcases skipTo_spec Filename (L.drop I) I with ⟨h1, h2⟩ | ⟨K, F, h1, h2, h3⟩
    · have hIt : FunctionRecordIterator.skipOtherFiles
          { Records := some L, Current := some I, Filename := Filename } =
          FunctionRecordIterator.createDefault := by
        simp only [FunctionRecordIterator.skipOtherFiles, h1]
      rw [hIt, h2]
      rfl
    · have hIt : FunctionRecordIterator.skipOtherFiles
          { Records := some L, Current := some I, Filename := Filename } =
          { Records := some L, Current := some (I + K), Filename := Filename } := by
        simp only [FunctionRecordIterator.skipOtherFiles, h1]
      rw [List.getElem?_drop] at h2
      have hlt : I + K < L.length := by
        obtain ⟨hlt, _⟩ := List.getElem?_eq_some.mp h2
        exact hlt
      rw [List.drop_drop] at h3
      have hnext := ih (I + K + 1) (by omega) (by omega)
      have hsum : I + (K + 1) = I + K + 1 := by omega
      rw [hsum] at h3
      rw [hIt, h3]
      have hne : FunctionRecordIterator.operatorEq
          { Records := some L, Current := some (I + K), Filename := Filename }
          FunctionRecordIterator.createDefault = false := by
        simp [FunctionRecordIterator.operatorEq, FunctionRecordIterator.createDefault,
          RecordsRef.arrayBegin]
      have hstar : FunctionRecordIterator.operatorStar
          { Records := some L, Current := some (I + K), Filename := Filename } = some F := h2
      have hinc : FunctionRecordIterator.operatorInc
          { Records := some L, Current := some (I + K), Filename := Filename } =
          some (FunctionRecordIterator.skipOtherFiles
            { Records := some L, Current := some (I + K + 1), Filename := Filename }) := by
        simp only [FunctionRecordIterator.operatorInc, RecordsRef.arrayEnd, Option.some.injEq,
          Option.map_some']
        rw [if_neg (by omega)]
      simp only [visitRange, hne, hstar, hinc, Bool.false_eq_true, if_false]
      rw [hnext]
      rfl

/-- C12: for every list of function records and every non-empty `Filename`, the
traversal of the range `getCoveredFunctions(Filename)` finishes (with any fuel above
the number of records) and visits, in storage order, exactly the records whose first
filename is `Filename`; the traversal of `getCoveredFunctions()` finishes and visits
every record in storage order. -/
theorem covered_functions (CM : CoverageMapping) (Filename : String) (hne : Filename ≠ "") :
    (∀ Fuel, CM.Functions.length + 1 ≤ Fuel →
      visitRange Fuel (CM.getCoveredFunctionsOf Filename).1
          (CM.getCoveredFunctionsOf Filename).2 =
        some (CM.Functions.filter (fun F => decide (F.Filenames.head? = some Filename)))) ∧
    (∀ Fuel, CM.Functions.length + 1 ≤ Fuel →
      visitRange Fuel CM.getCoveredFunctions.1 CM.getCoveredFunctions.2 =
        some CM.Functions) := by
  constructor
  · intro Fuel hFuel
    have h := visitRange_spec CM.Functions Filename Fuel 0 (Nat.zero_le _) (by omega)
    rw [List.drop_zero] at h
    have hfilter : (fun F : FunctionRecord =>
        decide (Filename = "" ∨ F.Filenames.head? = some Filename)) =
        (fun F => decide (F.Filenames.head? = some Filename)) := by
      funext F
      simp [hne]
    rw [hfilter] at h
    exact h
  · intro Fuel hFuel
    have h := visitRange_spec CM.Functions "" Fuel 0 (Nat.zero_le _) (by omega)
    rw [List.drop_zero] at h
    have hall : CM.Functions.filter
        (fun F => decide (("" : String) = "" ∨ F.Filenames.head? = some "")) =
        CM.Functions := by
      rw [List.filter_eq_self]
      intro F _
      simp
    rw [hall] at h
    exact h

/-- Of the three sample records the traversal for `a.c` visits `f` and `h`, in this
order, and the unfiltered traversal visits all three. -/
theorem covered_functions_witness :
    "a.c" ≠ "" ∧
    visitRange 4 (sampleMapping.getCoveredFunctionsOf "a.c").1
        (sampleMapping.getCoveredFunctionsOf "a.c").2 =
      some [FunctionRecord.create "f" ["a.c"] 0, FunctionRecord.create "h" ["a.c", "b.c"] 0] ∧
    visitRange 4 sampleMapping.getCoveredFunctions.1 sampleMapping.getCoveredFunctions.2 =
      some sampleFunctions :=
  ⟨by decide, (covered_functions sampleMapping "a.c" (by decide)).1 4 (by decide),
    (covered_functions sampleMapping "a.c" (by decide)).2 4 (by decide)⟩

/-! ## Sorting value data -/

theorem perm_insertByValue (D : InstrProfValueData) (L : List InstrProfValueData) :
    (insertByValue D L).Perm (D :: L) := by
  induction L with
  | nil => exact List.Perm.refl _
  | cons E Rest ih =>
    simp only [insertByValue]
    by_cases h : E.Value < D.Value
    · rw [if_pos h]
      exact (List.Perm.cons E ih).trans (List.Perm.swap D E Rest)
    · rw [if_neg h]

theorem perm_sortValueData (L : List InstrProfValueData) : (sortValueData L).Perm L := by
  induction L with
  | nil => exact List.Perm.refl _
  | cons D Rest ih =>
    exact (perm_insertByValue D (sortValueData Rest)).trans (List.Perm.cons D ih)

theorem sorted_insertByValue (D : InstrProfValueData) (L : List InstrProfValueData)
    (h : L.Pairwise (fun A B => A.Value ≤ B.Value)) :
    (insertByValue D L).Pairwise (fun A B => A.Value ≤ B.Value) := by
  induction L with
  | nil => simp [insertByValue]
  | cons E Rest ih =>
    obtain ⟨hE, hRest⟩ := List.pairwise_cons.mp h
    simp only [insertByValue]
    by_cases hlt : E.Value < D.Value
    · rw [if_pos hlt]
      refine List.pairwise_cons.mpr ⟨?_, ih hRest⟩
      intro X hX
      rcases List.mem_cons.mp ((perm_insertByValue D Rest).mem_iff.mp hX) with rfl | hX
      · omega
      · exact hE X hX
    · rw [if_neg hlt]
      refine List.pairwise_cons.mpr ⟨?_, h⟩
      intro X hX
      rcases List.mem_cons.mp hX with rfl | hX
      · omega
      · have := hE X hX
        omega

theorem sorted_sortValueData (L : List InstrProfValueData) :
    (sortValueData L).Pairwise (fun A B => A.Value ≤ B.Value) := by
  induction L with
  | nil => simp [sortValueData]
  | cons D Rest ih => exact sorted_insertByValue D _ ih

theorem filter_insertByValue (V : Nat) (D : InstrProfValueData) (L : List InstrProfValueData) :
    (insertByValue D L).filter (fun X => decide (X.Value = V)) =
      (D :: L).filter (fun X => decide (X.Value = V)) := by
  induction L with
  | nil => rfl
  | cons E Rest ih =>
    simp only [insertByValue]
    by_cases hlt : E.Value < D.Value
    · rw [if_pos hlt]
      by_cases hD : D.Value = V
      · have hE : ¬ E.Value = V := by omega
        simp only [List.filter_cons, hD, hE, decide_True, decide_False, if_true,
          Bool.false_eq_true, if_false] at ih ⊢
        exact ih
      · by_cases hE : E.Value = V
        · simp only [List.filter_cons, hD, hE, decide_True, decide_False, if_true,
            Bool.false_eq_true, if_false] at ih ⊢
          rw [ih]
        · simp only [List.filter_cons, hD, hE, decide_False, Bool.false_eq_true,
            if_false] at ih ⊢
          exact ih
    · rw [if_neg hlt]

theorem filter_sortValueData (V : Nat) (L : List InstrProfValueData) :
    (sortValueData L).filter (fun X => decide (X.Value = V)) =
      L.filter (fun X => decide (X.Value = V)) := by
  induction L with
  | nil => rfl
  | cons D Rest ih =>
    simp only [sortValueData]
    rw [filter_insertByValue, List.filter_cons, List.filter_cons, ih]

/-- C23: after `sortByTargetValues` the list is in non-decreasing order of `Value`, it is
a permutation of the original list, and for every value the entries with that value
are the same, in the same order, as before. -/
theorem sortByTargetValues_stable (R : InstrProfValueSiteRecord) :
    R.sortByTargetValues.ValueData.Pairwise (fun A B => A.Value ≤ B.Value) ∧
    R.sortByTargetValues.ValueData.Perm R.ValueData ∧
    (∀ V : Nat, R.sortByTargetValues.ValueData.filter (fun X => decide (X.Value = V)) =
      R.ValueData.filter (fun X => decide (X.Value = V))) ∧
    (InstrProfValueSiteRecord.mk
        [⟨5, 1⟩, ⟨3, 2⟩, ⟨5, 3⟩, ⟨3, 4⟩, ⟨1, 0⟩]).sortByTargetValues.ValueData =
      [⟨1, 0⟩, ⟨3, 2⟩, ⟨3, 4⟩, ⟨5, 1⟩, ⟨5, 3⟩] :=
  ⟨sorted_sortValueData _, perm_sortValueData _, fun V => filter_sortValueData V _, by decide⟩

/-! ## Merging value data -/

theorem mergeFrom_nil (S : List InstrProfValueData) : mergeFrom [] S = S := by
  induction S with
  | nil => rfl
  | cons J Js ih => simp [mergeFrom, advance, ih]

theorem mergeFrom_cons_lt (A J : InstrProfValueData) (T Js : List InstrProfValueData)
    (h : A.Value < J.Value) :
    mergeFrom (A :: T) (J :: Js) = A :: mergeFrom T (J :: Js) := by
  simp only [mergeFrom, advance, if_pos h]
  cases (advance J.Value T).2 with
  | nil => rfl
  | cons I After =>
    simp only
    by_cases hI : I.Value = J.Value
    · rw [if_pos hI, if_pos hI]; rfl
    · rw [if_neg hI, if_neg hI]; rfl

theorem zipMerge_nil_left (S : List InstrProfValueData) : zipMerge [] S = S := by
  simp [zipMerge]

theorem zipMerge_nil_right (T : List InstrProfValueData) : zipMerge T [] = T := by
  cases T <;> simp [zipMerge]

theorem mergeFrom_eq_zipMerge (T S : List InstrProfValueData) :
    mergeFrom T S = zipMerge T S := by
  induction S generalizing T with
  | nil => rw [zipMerge_nil_right]; cases T <;> rfl
  | cons J Js ihS =>
    induction T with
    | nil => rw [mergeFrom_nil, zipMerge_nil_left]
    | cons A T ihT =>
      by_cases h1 : A.Value < J.Value
      · rw [mergeFrom_cons_lt A J T Js h1, ihT]
        simp only [zipMerge, if_pos h1]
      · by_cases h2 : J.Value < A.Value
        · have hne : ¬ A.Value = J.Value := by omega
          simp only [mergeFrom, advance, zipMerge, if_neg h1, if_pos h2, if_neg hne,
            List.nil_append]
          rw [ihS]
        · have he : A.Value = J.Value := by omega
          simp only [mergeFrom, advance, zipMerge, if_neg h1, if_neg h2, if_pos he,
            List.nil_append]
          rw [ihS]

theorem zipMerge_comm (T S : List InstrProfValueData) : zipMerge T S = zipMerge S T := by
  induction T generalizing S with
  | nil => rw [zipMerge_nil_right, zipMerge_nil_left]
  | cons A T ihT =>
    induction S with
    | nil => rw [zipMerge_nil_right, zipMerge_nil_left]
    | cons B S ihS =>
      by_cases h1 : A.Value < B.Value
      · have h2 : ¬ B.Value < A.Value := by omega
        simp only [zipMerge, if_pos h1, if_neg h2]
        rw [ihT]
      · by_cases h2 : B.Value < A.Value
        · simp only [zipMerge, if_neg h1, if_pos h2]
          rw [ihS]
        · have he : A.Value = B.Value := by omega
          simp only [zipMerge, if_neg h1, if_neg h2]
          rw [ihT, he, Nat.add_comm]

theorem mem_values_zipMerge (V : Nat) (T S : List InstrProfValueData) :
    V ∈ (zipMerge T S).map (fun D => D.Value) ↔
      V ∈ T.map (fun D => D.Value) ∨ V ∈ S.map (fun D => D.Value) := by
  induction T generalizing S with
  | nil => simp [zipMerge]
  | cons A T ihT =>
    induction S with
    | nil => simp [zipMerge]
    | cons B S ihS =>
      by_cases h1 : A.Value < B.Value
      · simp only [zipMerge, if_pos h1, List.map_cons, List.mem_cons]
        rw [ihT]
        simp only [List.map_cons, List.mem_cons]
        tauto
      · by_cases h2 : B.Value < A.Value
        · simp only [zipMerge, if_neg h1, if_pos h2, List.map_cons, List.mem_cons]
          rw [ihS]
          simp only [List.map_cons, List.mem_cons]
          tauto
        · have he : A.Value = B.Value := by omega
          simp only [zipMerge, if_neg h1, if_neg h2, List.map_cons, List.mem_cons]
          rw [ihT, he]
          tauto

/-- The merge of two lists ordered by a relation that holds between lesser and greater
values is ordered by it. -/
theorem pairwise_zipMerge (r : Nat → Nat → Prop) (hlt : ∀ x y, x < y → r x y)
    (htrans : ∀ x y z, x < y → r y z → r x z) (T S : List InstrProfValueData)
    (hT : T.Pairwise (fun A B => r A.Value B.Value))
    (hS : S.Pairwise (fun A B => r A.Value B.Value)) :
    (zipMerge T S).Pairwise (fun A B => r A.Value B.Value) := by
  induction T generalizing S with
  | nil => simpa [zipMerge] using hS
  | cons A T ihT =>
    induction S with
    | nil => simpa [zipMerge] using hT
    | cons B S ihS =>
      obtain ⟨hA, hT2⟩ := List.pairwise_cons.mp hT
      obtain ⟨hB, hS2⟩ := List.pairwise_cons.mp hS
      have hmem : ∀ (T2 S2 : List InstrProfValueData) (X : InstrProfValueData),
          X ∈ zipMerge T2 S2 → (∃ Y ∈ T2, Y.Value = X.Value) ∨ (∃ Y ∈ S2, Y.Value = X.Value) := by
        intro T2 S2 X hX
        have h := (mem_values_zipMerge X.Value T2 S2).mp (List.mem_map_of_mem _ hX)
        simp only [List.mem_map] at h
        exact h
      by_cases h1 : A.Value < B.Value
      · simp only [zipMerge, if_pos h1]
        refine List.pairwise_cons.mpr ⟨?_, ihT (B :: S) hT2 hS⟩
        intro X hX
        rcases hmem T (B :: S) X hX with ⟨Y, hY, e⟩ | ⟨Y, hY, e⟩
        · rw [← e]; exact hA Y hY
        · rw [← e]
          rcases List.mem_cons.mp hY with rfl | hY
          · exact hlt _ _ h1
          · exact htrans _ _ _ h1 (hB Y hY)
      · by_cases h2 : B.Value < A.Value
        · simp only [zipMerge, if_neg h1, if_pos h2]
          refine List.pairwise_cons.mpr ⟨?_, ihS hS2⟩
          intro X hX
          rcases hmem (A :: T) S X hX with ⟨Y, hY, e⟩ | ⟨Y, hY, e⟩
          · rw [← e]
            rcases List.mem_cons.mp hY with rfl | hY
            · exact hlt _ _ h2
            · exact htrans _ _ _ h2 (hA Y hY)
          · rw [← e]; exact hB Y hY
        · have he : A.Value = B.Value := by omega
          simp only [zipMerge, if_neg h1, if_neg h2]
          refine List.pairwise_cons.mpr ⟨?_, ihT S hT2 hS2⟩
          intro X hX
          rcases hmem T S X hX with ⟨Y, hY, e⟩ | ⟨Y, hY, e⟩
          · rw [← e]; exact hA Y hY
          · rw [← e]
            show r A.Value Y.Value
            rw [he]; exact hB Y hY

theorem mergeValueData_fst_sorted (This Input : InstrProfValueSiteRecord) :
    (This.mergeValueData Input).1.ValueData.Pairwise (fun A B => A.Value ≤ B.Value) := by
  show (mergeFrom (sortValueData This.ValueData) (sortValueData Input.ValueData)).Pairwise _
  rw [mergeFrom_eq_zipMerge]
  exact pairwise_zipMerge (fun x y => x ≤ y) (fun x y h => Nat.le_of_lt h)
    (fun x y z h1 h2 => by omega) _ _ (sorted_sortValueData _) (sorted_sortValueData _)

/-- The loop on one and the same list does what the loop on two equal lists does to the
list of `this`: every entry meets its equal and is joined with it. -/
theorem mergeFrom_self (S : List InstrProfValueData) : mergeFrom S S = mergeSelfFrom S := by
  induction S with
  | nil => rfl
  | cons J Js ih =>
    have hadv : advance J.Value (J :: Js) = ([], J :: Js) := by
      simp [advance]
    unfold mergeFrom
    rw [hadv]
    simp only [if_true, List.nil_append, mergeSelfFrom, ih]

theorem mem_mergeSelfFrom (L : List InstrProfValueData) (X : InstrProfValueData)
    (hX : X ∈ mergeSelfFrom L) : ∃ Y ∈ L, X.Value = Y.Value := by
  induction L with
  | nil => simp [mergeSelfFrom] at hX
  | cons J Js ih =>
    simp only [mergeSelfFrom, List.mem_cons] at hX
    rcases hX with h | h
    · exact ⟨J, List.mem_cons_self _ _, by rw [h]⟩
    · obtain ⟨Y, hY, e⟩ := ih h
      exact ⟨Y, List.mem_cons_of_mem _ hY, e⟩

theorem sorted_mergeSelfFrom (L : List InstrProfValueData)
    (h : L.Pairwise (fun A B => A.Value ≤ B.Value)) :
    (mergeSelfFrom L).Pairwise (fun A B => A.Value ≤ B.Value) := by
  induction L with
  | nil => exact List.Pairwise.nil
  | cons J Js ih =>
    rw [List.pairwise_cons] at h
    simp only [mergeSelfFrom, List.pairwise_cons]
    refine ⟨fun X hX => ?_, ih h.2⟩
    obtain ⟨Y, hY, e⟩ := mem_mergeSelfFrom Js X hX
    rw [e]
    exact h.1 Y hY

theorem mergeValueDataSelf_sorted (This : InstrProfValueSiteRecord) :
    This.mergeValueDataSelf.ValueData.Pairwise (fun A B => A.Value ≤ B.Value) :=
  sorted_mergeSelfFrom _ (sorted_sortValueData _)

/-- C26, the claim as stated fails when `Input` is `this` record itself, a pair that
the reference parameter admits: `S.mergeValueData(S)` on the list (5, 2), (3, 1) leaves
(3, 2), (5, 4), every count added to itself, which is sorted but is not a permutation
of the original contents of `Input`. -/
theorem mergeValueData_sorted_counterexample :
    mergeValueDataAt [InstrProfValueSiteRecord.mk [⟨5, 2⟩, ⟨3, 1⟩]] 0 0 =
      some [InstrProfValueSiteRecord.mk [⟨3, 2⟩, ⟨5, 4⟩]] ∧
    ¬ ([⟨3, 2⟩, ⟨5, 4⟩] : List InstrProfValueData).Perm [⟨5, 2⟩, ⟨3, 1⟩] :=
  ⟨by decide, fun h => absurd (h.mem_iff.mpr (List.mem_cons_self _ _)) (by decide)⟩

/-- C26, as amended: for every pair of site records in a vector, with any initial order
and repeated values, the call `this.mergeValueData(Input)` returns, and after it the
list of `this` is in non-decreasing order of `Value` and the list of `Input` is in
non-decreasing order of `Value`; when `Input` is a record other than `this`, the list
of `Input` is a permutation of its original contents. -/
theorem mergeValueData_sorted (Records : List InstrProfValueSiteRecord) (This Input : Nat)
    (T S : InstrProfValueSiteRecord)
    (hT : Records[This]? = some T) (hS : Records[Input]? = some S) :
    ∃ After T1 S1, mergeValueDataAt Records This Input = some After ∧
      After[This]? = some T1 ∧ After[Input]? = some S1 ∧
      T1.ValueData.Pairwise (fun A B => A.Value ≤ B.Value) ∧
      S1.ValueData.Pairwise (fun A B => A.Value ≤ B.Value) ∧
      (This ≠ Input → S1.ValueData.Perm S.ValueData ∧
        T1 = (T.mergeValueData S).1 ∧ S1 = (T.mergeValueData S).2) := by
  have hlT : This < Records.length := by
    by_contra hc
    rw [List.getElem?_eq_none (by omega)] at hT
    exact Option.noConfusion hT
  have hlS : Input < Records.length := by
    by_contra hc
    rw [List.getElem?_eq_none (by omega)] at hS
    exact Option.noConfusion hS
  by_cases he : This = Input
  · subst he
    refine ⟨Records.set This T.mergeValueDataSelf, T.mergeValueDataSelf, T.mergeValueDataSelf,
      ?_, ?_, ?_, mergeValueDataSelf_sorted T, mergeValueDataSelf_sorted T,
      fun hne => absurd rfl hne⟩
    · simp only [mergeValueDataAt, hT, if_true]
    · simp [hlT]
    · simp [hlT]
  · refine ⟨(Records.set This (T.mergeValueData S).1).set Input (T.mergeValueData S).2,
      (T.mergeValueData S).1, (T.mergeValueData S).2, ?_, ?_, ?_,
      mergeValueData_fst_sorted T S, sorted_sortValueData _,
      fun _ => ⟨perm_sortValueData _, rfl, rfl⟩⟩
    · simp only [mergeValueDataAt, hT, hS, if_neg he]
    · rw [List.getElem?_set_ne (fun h => he h.symm)]
      simp [hlT]
    · simp [hlS]

/-- C26 at a concrete input: two records in a vector, the second merged into the first. -/
theorem mergeValueData_sorted_witness :
    ([InstrProfValueSiteRecord.mk [⟨5, 2⟩, ⟨3, 1⟩],
        InstrProfValueSiteRecord.mk [⟨7, 4⟩, ⟨5, 1⟩]])[0]? =
      some (InstrProfValueSiteRecord.mk [⟨5, 2⟩, ⟨3, 1⟩]) ∧
    ([InstrProfValueSiteRecord.mk [⟨5, 2⟩, ⟨3, 1⟩],
        InstrProfValueSiteRecord.mk [⟨7, 4⟩, ⟨5, 1⟩]])[1]? =
      some (InstrProfValueSiteRecord.mk [⟨7, 4⟩, ⟨5, 1⟩]) ∧
    mergeValueDataAt [InstrProfValueSiteRecord.mk [⟨5, 2⟩, ⟨3, 1⟩],
        InstrProfValueSiteRecord.mk [⟨7, 4⟩, ⟨5, 1⟩]] 0 1 =
      some [InstrProfValueSiteRecord.mk [⟨3, 1⟩, ⟨5, 3⟩, ⟨7, 4⟩],
        InstrProfValueSiteRecord.mk [⟨5, 1⟩, ⟨7, 4⟩]] ∧
    ∃ After T1 S1,
      mergeValueDataAt [InstrProfValueSiteRecord.mk [⟨5, 2⟩, ⟨3, 1⟩],
        InstrProfValueSiteRecord.mk [⟨7, 4⟩, ⟨5, 1⟩]] 0 1 = some After ∧
      After[0]? = some T1 ∧ After[1]? = some S1 ∧
      T1.ValueData.Pairwise (fun A B => A.Value ≤ B.Value) ∧
      S1.ValueData.Pairwise (fun A B => A.Value ≤ B.Value) ∧
      ((0 : Nat) ≠ 1 → S1.ValueData.Perm [⟨7, 4⟩, ⟨5, 1⟩] ∧
        T1 = ((InstrProfValueSiteRecord.mk [⟨5, 2⟩, ⟨3, 1⟩]).mergeValueData
          (InstrProfValueSiteRecord.mk [⟨7, 4⟩, ⟨5, 1⟩])).1 ∧
        S1 = ((InstrProfValueSiteRecord.mk [⟨5, 2⟩, ⟨3, 1⟩]).mergeValueData
          (InstrProfValueSiteRecord.mk [⟨7, 4⟩, ⟨5, 1⟩])).2) :=
  ⟨rfl, rfl, by decide,
    mergeValueData_sorted _ 0 1 (InstrProfValueSiteRecord.mk [⟨5, 2⟩, ⟨3, 1⟩])
      (InstrProfValueSiteRecord.mk [⟨7, 4⟩, ⟨5, 1⟩]) rfl rfl⟩

/-- C28: for all lists `A` and `B` of value data, merging `B` into `A` and merging `A`
into `B` leave the same list, entry by entry, in the record merged into. -/
theorem mergeValueData_comm (A B : List InstrProfValueData) :
    ((InstrProfValueSiteRecord.mk A).mergeValueData (InstrProfValueSiteRecord.mk B)).1.ValueData =
      ((InstrProfValueSiteRecord.mk B).mergeValueData
        (InstrProfValueSiteRecord.mk A)).1.ValueData ∧
    ((InstrProfValueSiteRecord.mk [⟨5, 1⟩, ⟨3, 2⟩, ⟨5, 3⟩]).mergeValueData
        (InstrProfValueSiteRecord.mk [⟨7, 1⟩, ⟨5, 2 ^ 64 - 1⟩, ⟨2, 3⟩])).1.ValueData =
      [⟨2, 3⟩, ⟨3, 2⟩, ⟨5, 0⟩, ⟨5, 3⟩, ⟨7, 1⟩] ∧
    ((InstrProfValueSiteRecord.mk [⟨7, 1⟩, ⟨5, 2 ^ 64 - 1⟩, ⟨2, 3⟩]).mergeValueData
        (InstrProfValueSiteRecord.mk [⟨5, 1⟩, ⟨3, 2⟩, ⟨5, 3⟩])).1.ValueData =
      [⟨2, 3⟩, ⟨3, 2⟩, ⟨5, 0⟩, ⟨5, 3⟩, ⟨7, 1⟩] := by
  refine ⟨?_, by decide, by decide⟩
  show mergeFrom (sortValueData A) (sortValueData B) =
    mergeFrom (sortValueData B) (sortValueData A)
  rw [mergeFrom_eq_zipMerge, mergeFrom_eq_zipMerge, zipMerge_comm]

/-! ## The counts of a merge -/

theorem countOf_cons (V : Nat) (A : InstrProfValueData) (L : List InstrProfValueData) :
    countOf V (A :: L) = if A.Value = V then A.Count + countOf V L else countOf V L := by
  unfold countOf
  by_cases h : A.Value = V
  · simp [List.filter_cons, h]
  · simp [List.filter_cons, h]

theorem countOf_eq_zero (V : Nat) (L : List InstrProfValueData)
    (h : ∀ X ∈ L, X.Value ≠ V) : countOf V L = 0 := by
  induction L with
  | nil => rfl
  | cons A L ih =>
    rw [countOf_cons, if_neg (h A (List.mem_cons_self _ _))]
    exact ih (fun X hX => h X (List.mem_cons_of_mem _ hX))

theorem countOf_perm (V : Nat) (L1 L2 : List InstrProfValueData) (h : L1.Perm L2) :
    countOf V L1 = countOf V L2 := by
  unfold countOf
  exact ((h.filter _).map _).sum_eq

theorem mem_zipMerge_value (T S : List InstrProfValueData) (X : InstrProfValueData)
    (hX : X ∈ zipMerge T S) :
    (∃ Y ∈ T, Y.Value = X.Value) ∨ (∃ Y ∈ S, Y.Value = X.Value) := by
  have h := (mem_values_zipMerge X.Value T S).mp (List.mem_map_of_mem _ hX)
  simp only [List.mem_map] at h
  exact h

theorem countOf_self (L : List InstrProfValueData)
    (hL : L.Pairwise (fun A B => A.Value < B.Value)) :
    ∀ X ∈ L, countOf X.Value L = X.Count := by
  induction L with
  | nil => intro X hX; cases hX
  | cons A L ih =>
    intro X hX
    obtain ⟨hA, hL2⟩ := List.pairwise_cons.mp hL
    rw [countOf_cons]
    rcases List.mem_cons.mp hX with rfl | hX
    · rw [if_pos rfl, countOf_eq_zero _ L (fun Y hY => by have := hA Y hY; omega)]
      rfl
    · rw [if_neg (by have := hA X hX; omega)]
      exact ih hL2 X hX

theorem count_zipMerge (T S : List InstrProfValueData)
    (hT : T.Pairwise (fun A B => A.Value < B.Value))
    (hS : S.Pairwise (fun A B => A.Value < B.Value))
    (bT : ∀ D ∈ T, D.Count < 2 ^ 64) (bS : ∀ D ∈ S, D.Count < 2 ^ 64) :
    ∀ D ∈ zipMerge T S, D.Count = (countOf D.Value T + countOf D.Value S) % 2 ^ 64 := by
  induction T generalizing S with
  | nil =>
    intro D hD
    rw [zipMerge_nil_left] at hD
    have hc := countOf_self S hS D hD
    have hb := bS D hD
    have hz : countOf D.Value ([] : List InstrProfValueData) = 0 := rfl
    rw [hc, hz]
    omega
  | cons A T ihT =>
    induction S with
    | nil =>
      intro D hD
      rw [zipMerge_nil_right] at hD
      have hc := countOf_self (A :: T) hT D hD
      have hb := bT D hD
      have hz : countOf D.Value ([] : List InstrProfValueData) = 0 := rfl
      rw [hc, hz]
      omega
    | cons B S ihS =>
      obtain ⟨hA, hT2⟩ := List.pairwise_cons.mp hT
      obtain ⟨hB, hS2⟩ := List.pairwise_cons.mp hS
      have bT2 : ∀ D ∈ T, D.Count < 2 ^ 64 := fun Y hY => bT Y (List.mem_cons_of_mem _ hY)
      have bS2 : ∀ D ∈ S, D.Count < 2 ^ 64 := fun Y hY => bS Y (List.mem_cons_of_mem _ hY)
      have hAb := bT A (List.mem_cons_self _ _)
      have hBb := bS B (List.mem_cons_self _ _)
      intro D hD
      by_cases h1 : A.Value < B.Value
      · simp only [zipMerge, if_pos h1] at hD
        rcases List.mem_cons.mp hD with rfl | hD
        · rw [countOf_cons, if_pos rfl,
            countOf_eq_zero _ T (fun Y hY => by have := hA Y hY; omega),
            countOf_eq_zero _ (B :: S) (fun Y hY => by
              rcases List.mem_cons.mp hY with rfl | hY
              · omega
              · have := hB Y hY; omega)]
          omega
        · have hgt : A.Value < D.Value := by
            rcases mem_zipMerge_value T (B :: S) D hD with ⟨Y, hY, e⟩ | ⟨Y, hY, e⟩
            · have := hA Y hY; omega
            · rcases List.mem_cons.mp hY with rfl | hY
              · omega
              · have := hB Y hY; omega
          rw [countOf_cons, if_neg (by omega)]
          exact ihT (B :: S) hT2 hS bT2 bS D hD
      · by_cases h2 : B.Value < A.Value
        · simp only [zipMerge, if_neg h1, if_pos h2] at hD
          rcases List.mem_cons.mp hD with rfl | hD
          · rw [countOf_cons (D.Value) D S, if_pos rfl,
              countOf_eq_zero _ S (fun Y hY => by have := hB Y hY; omega),
              countOf_eq_zero _ (A :: T) (fun Y hY => by
                rcases List.mem_cons.mp hY with rfl | hY
                · omega
                · have := hA Y hY; omega)]
            omega
          · have hgt : B.Value < D.Value := by
              rcases mem_zipMerge_value (A :: T) S D hD with ⟨Y, hY, e⟩ | ⟨Y, hY, e⟩
              · rcases List.mem_cons.mp hY with rfl | hY
                · omega
                · have := hA Y hY; omega
              · have := hB Y hY; omega
            rw [countOf_cons D.Value B S, if_neg (by omega)]
            exact ihS hS2 bS2 D hD
        · have he : A.Value = B.Value := by omega
          simp only [zipMerge, if_neg h1, if_neg h2] at hD
          rcases List.mem_cons.mp hD with rfl | hD
          · simp only
            rw [countOf_cons, if_pos rfl, countOf_cons, if_pos he.symm,
              countOf_eq_zero _ T (fun Y hY => by have := hA Y hY; omega),
              countOf_eq_zero _ S (fun Y hY => by have := hB Y hY; omega)]
            simp only [Nat.add_zero]
          · have hgt : A.Value < D.Value := by
              rcases mem_zipMerge_value T S D hD with ⟨Y, hY, e⟩ | ⟨Y, hY, e⟩
              · have := hA Y hY; omega
              · have := hB Y hY; omega
            rw [countOf_cons, if_neg (by omega), countOf_cons, if_neg (by omega)]
            exact ihT S hT2 hS2 bT2 bS2 D hD

theorem strict_sortValueData (L : List InstrProfValueData)
    (h : (L.map (fun D => D.Value)).Nodup) :
    (sortValueData L).Pairwise (fun A B => A.Value < B.Value) := by
  have hnodup : ((sortValueData L).map (fun D => D.Value)).Nodup :=
    ((perm_sortValueData L).map _).nodup_iff.mpr h
  have hne : (sortValueData L).Pairwise (fun A B => A.Value ≠ B.Value) := by
    unfold List.Nodup at hnodup
    exact List.pairwise_map.mp hnodup
  exact ((sorted_sortValueData L).and hne).imp (fun h => by omega)

/-- C27: if the values of `this` are pairwise distinct, the values of `Input` are
pairwise distinct, and all counts are `uint64_t` values, then after
`this.mergeValueData(Input)` the values of `this` are pairwise distinct, they are
exactly the values of the old `this` and of `Input`, and the count of every entry is
the sum modulo 2^64 of the count of its value in the old `this` and in `Input`, an
absent value counting as 0. -/
theorem mergeValueData_counts (This Input : InstrProfValueSiteRecord)
    (hThis : (This.ValueData.map (fun D => D.Value)).Nodup)
    (hInput : (Input.ValueData.map (fun D => D.Value)).Nodup)
    (bThis : ∀ D ∈ This.ValueData, D.Count < 2 ^ 64)
    (bInput : ∀ D ∈ Input.ValueData, D.Count < 2 ^ 64) :
    ((This.mergeValueData Input).1.ValueData.map (fun D => D.Value)).Nodup ∧
    (∀ V : Nat, V ∈ (This.mergeValueData Input).1.ValueData.map (fun D => D.Value) ↔
      V ∈ This.ValueData.map (fun D => D.Value) ∨
        V ∈ Input.ValueData.map (fun D => D.Value)) ∧
    (∀ D ∈ (This.mergeValueData Input).1.ValueData,
      D.Count = (countOf D.Value This.ValueData + countOf D.Value Input.ValueData) % 2 ^ 64) := by
  have hres : (This.mergeValueData Input).1.ValueData =
      zipMerge (sortValueData This.ValueData) (sortValueData Input.ValueData) :=
    mergeFrom_eq_zipMerge _ _
  have sT := strict_sortValueData _ hThis
  have sS := strict_sortValueData _ hInput
  rw [hres]
  refine ⟨?_, ?_, ?_⟩
  · have hstrict := pairwise_zipMerge (fun x y => x < y) (fun x y h => h)
      (fun x y z h1 h2 => Nat.lt_trans h1 h2) _ _ sT sS
    unfold List.Nodup
    rw [List.pairwise_map]
    exact hstrict.imp (fun h => by omega)
  · intro V
    rw [mem_values_zipMerge, ((perm_sortValueData This.ValueData).map _).mem_iff,
      ((perm_sortValueData Input.ValueData).map _).mem_iff]
  · intro D hD
    have h := count_zipMerge _ _ sT sS
      (fun X hX => bThis X ((perm_sortValueData _).mem_iff.mp hX))
      (fun X hX => bInput X ((perm_sortValueData _).mem_iff.mp hX)) D hD
    rw [countOf_perm _ _ _ (perm_sortValueData This.ValueData),
      countOf_perm _ _ _ (perm_sortValueData Input.ValueData)] at h
    exact h

/-- The values 3 and 5 merged with 5 and 7: the values are 3, 5 and 7, and the two
counts of 5, which are 2 and 2^64 - 1, add up to 1. -/
theorem mergeValueData_counts_witness :
    ((InstrProfValueSiteRecord.mk [⟨5, 2⟩, ⟨3, 1⟩]).mergeValueData
        (InstrProfValueSiteRecord.mk [⟨7, 4⟩, ⟨5, 2 ^ 64 - 1⟩])).1.ValueData =
      [⟨3, 1⟩, ⟨5, 1⟩, ⟨7, 4⟩] ∧
    ∀ D ∈ ((InstrProfValueSiteRecord.mk [⟨5, 2⟩, ⟨3, 1⟩]).mergeValueData
        (InstrProfValueSiteRecord.mk [⟨7, 4⟩, ⟨5, 2 ^ 64 - 1⟩])).1.ValueData,
      D.Count = (countOf D.Value [⟨5, 2⟩, ⟨3, 1⟩] +
        countOf D.Value [⟨7, 4⟩, ⟨5, 2 ^ 64 - 1⟩]) % 2 ^ 64 :=
  ⟨by decide,
    (mergeValueData_counts (InstrProfValueSiteRecord.mk [⟨5, 2⟩, ⟨3, 1⟩])
      (InstrProfValueSiteRecord.mk [⟨7, 4⟩, ⟨5, 2 ^ 64 - 1⟩])
      (by decide) (by decide) (by decide) (by decide)).2.2⟩

/-! ## Merging the value sites of two records -/

theorem mergeSitesFrom_spec (Steps : Nat) :
    ∀ (I : Nat) (This Other : List InstrProfValueSiteRecord),
      I + Steps ≤ This.length → I + Steps ≤ Other.length →
      ∃ T S, mergeSitesFrom Steps I This Other = some (T, S) ∧
        T.length = This.length ∧ S.length = Other.length ∧
        (∀ J, I ≤ J → J < I + Steps → ∀ A B, This[J]? = some A → Other[J]? = some B →
          T[J]? = some (A.mergeValueData B).1 ∧ S[J]? = some (A.mergeValueData B).2) ∧
        (∀ J, (J < I ∨ I + Steps ≤ J) → T[J]? = This[J]? ∧ S[J]? = Other[J]?) := by
  induction Steps with
  | zero =>
    intro I This Other _ _
    exact ⟨This, Other, rfl, rfl, rfl, fun J h1 h2 => by omega, fun J _ => ⟨rfl, rfl⟩⟩
  | succ n ih =>
    intro I This Other hT hO
    have hIT : I < This.length := by omega
    have hIO : I < Other.length := by omega
    obtain ⟨T, S, hrun, hlT, hlS, hin, hout⟩ :=
      ih (I + 1) (This.set I (This[I].mergeValueData Other[I]).1)
        (Other.set I (This[I].mergeValueData Other[I]).2)
        (by rw [List.length_set]; omega) (by rw [List.length_set]; omega)
    refine ⟨T, S, ?_, ?_, ?_, ?_, ?_⟩
    · simp only [mergeSitesFrom, List.getElem?_eq_getElem hIT, List.getElem?_eq_getElem hIO]
      exact hrun
    · rw [hlT, List.length_set]
    · rw [hlS, List.length_set]
    · intro J h1 h2 A B hA hB
      by_cases hJ : J = I
      · subst hJ
        rw [List.getElem?_eq_getElem hIT] at hA
        rw [List.getElem?_eq_getElem hIO] at hB
        have eA : This[J] = A := Option.some.inj hA
        have eB : Other[J] = B := Option.some.inj hB
        obtain ⟨h3, h4⟩ := hout J (Or.inl (by omega))
        rw [h3, h4, List.getElem?_set_self hIT, List.getElem?_set_self hIO, eA, eB]
        exact ⟨rfl, rfl⟩
      · refine hin J (by omega) (by omega) A B ?_ ?_
        · rw [List.getElem?_set_ne (by omega)]; exact hA
        · rw [List.getElem?_set_ne (by omega)]; exact hB
    · intro J hJ
      obtain ⟨h3, h4⟩ := hout J (by omega)
      rw [h3, h4, List.getElem?_set_ne (by omega), List.getElem?_set_ne (by omega)]
      exact ⟨rfl, rfl⟩

theorem mergeValueProfData_mismatch (R Src : InstrProfRecord)
    (h : R.IndirectCallSites.length % 2 ^ 32 ≠ Src.IndirectCallSites.length % 2 ^ 32) :
    R.mergeValueProfData Src IPVK_IndirectCallTarget =
      some (instrprof_error.value_site_count_mismatch, R, Src) := by
  simp only [InstrProfRecord.mergeValueProfData, InstrProfRecord.getNumValueSites,
    InstrProfRecord.getValueSitesForKind, if_true, Option.map_some']
  rw [if_pos h]

theorem mergeValueProfData_success (R Src : InstrProfRecord)
    (h : R.IndirectCallSites.length % 2 ^ 32 = Src.IndirectCallSites.length % 2 ^ 32) :
    ∃ T S, R.mergeValueProfData Src IPVK_IndirectCallTarget =
        some (instrprof_error.success, { R with IndirectCallSites := T },
          { Src with IndirectCallSites := S }) ∧
      T.length = R.IndirectCallSites.length ∧ S.length = Src.IndirectCallSites.length ∧
      (∀ J, J < R.IndirectCallSites.length % 2 ^ 32 → ∀ A B,
        R.IndirectCallSites[J]? = some A → Src.IndirectCallSites[J]? = some B →
        T[J]? = some (A.mergeValueData B).1 ∧ S[J]? = some (A.mergeValueData B).2) ∧
      (∀ J, R.IndirectCallSites.length % 2 ^ 32 ≤ J →
        T[J]? = R.IndirectCallSites[J]? ∧ S[J]? = Src.IndirectCallSites[J]?) := by
  obtain ⟨T, S, hrun, hlT, hlS, hin, hout⟩ :=
    mergeSitesFrom_spec (R.IndirectCallSites.length % 2 ^ 32) 0 R.IndirectCallSites
      Src.IndirectCallSites (by rw [Nat.zero_add]; exact Nat.mod_le _ _)
      (by rw [Nat.zero_add, h]; exact Nat.mod_le _ _)
  refine ⟨T, S, ?_, hlT, hlS, ?_, ?_⟩
  · simp only [InstrProfRecord.mergeValueProfData, InstrProfRecord.getNumValueSites,
      InstrProfRecord.getValueSitesForKind, if_true, Option.map_some']
    rw [if_neg (not_not.mpr h), hrun]
  · intro J hJ
    exact hin J (Nat.zero_le _) (by omega)
  · intro J hJ
    exact hout J (Or.inr (by omega))

theorem hugeSiteRecord_length : hugeSiteRecord.IndirectCallSites.length = 2 ^ 32 + 1 := by
  show (List.replicate (2 ^ 32) (InstrProfValueSiteRecord.mk []) ++
    [InstrProfValueSiteRecord.mk []]).length = 2 ^ 32 + 1
  rw [List.length_append, List.length_replicate, List.length_singleton]

/-- C24, counterexample: a record with 2^32 + 1 value sites and a record with one value
site have different numbers of sites, yet merging the second into the first returns
`success`: both numbers are 1 as `uint32_t`. -/
theorem mergeValueProfData_counterexample :
    hugeSiteRecord.IndirectCallSites.length = 2 ^ 32 + 1 ∧
      oneSiteRecord.IndirectCallSites.length = 1 ∧
      (hugeSiteRecord.mergeValueProfData oneSiteRecord IPVK_IndirectCallTarget).map
        (fun Result => Result.1) = some instrprof_error.success := by
  refine ⟨hugeSiteRecord_length, rfl, ?_⟩
  obtain ⟨T, S, hrun, _⟩ := mergeValueProfData_success hugeSiteRecord oneSiteRecord
    (by rw [hugeSiteRecord_length]; rfl)
  rw [hrun]
  rfl

/-- C24, amended: for records with fewer than 2^32 value sites of the kind,
`mergeValueProfData` returns `value_site_count_mismatch` if and only if the two records
have different numbers of value sites, and then leaves both records unchanged;
otherwise it returns `success`, the number of sites of this record is unchanged, and
every site `I` of this record becomes the `mergeValueData` of its old contents with
site `I` of `Src` (whose site `I` is left sorted); `Name`, `Hash` and `Counts` stay. -/
theorem mergeValueProfData_spec (R Src : InstrProfRecord)
    (hR : R.IndirectCallSites.length < 2 ^ 32) (hS : Src.IndirectCallSites.length < 2 ^ 32) :
    ((R.mergeValueProfData Src IPVK_IndirectCallTarget).map (fun Result => Result.1) =
        some instrprof_error.value_site_count_mismatch ↔
      R.getNumValueSites IPVK_IndirectCallTarget ≠
        Src.getNumValueSites IPVK_IndirectCallTarget) ∧
    (R.getNumValueSites IPVK_IndirectCallTarget = some R.IndirectCallSites.length ∧
      Src.getNumValueSites IPVK_IndirectCallTarget = some Src.IndirectCallSites.length) ∧
    (R.IndirectCallSites.length ≠ Src.IndirectCallSites.length →
      R.mergeValueProfData Src IPVK_IndirectCallTarget =
        some (instrprof_error.value_site_count_mismatch, R, Src)) ∧
    (R.IndirectCallSites.length = Src.IndirectCallSites.length →
      ∃ R1 S1, R.mergeValueProfData Src IPVK_IndirectCallTarget =
          some (instrprof_error.success, R1, S1) ∧
        R1.getNumValueSites IPVK_IndirectCallTarget =
          R.getNumValueSites IPVK_IndirectCallTarget ∧
        R1.IndirectCallSites.length = R.IndirectCallSites.length ∧
        (R1.Name = R.Name ∧ R1.Hash = R.Hash ∧ R1.Counts = R.Counts) ∧
        (∀ (I : Nat) (A B : InstrProfValueSiteRecord),
          R.IndirectCallSites[I]? = some A → Src.IndirectCallSites[I]? = some B →
          R1.IndirectCallSites[I]? = some (A.mergeValueData B).1 ∧
          S1.IndirectCallSites[I]? = some (A.mergeValueData B).2)) := by
  have hnR : R.getNumValueSites IPVK_IndirectCallTarget = some R.IndirectCallSites.length := by
    simp only [InstrProfRecord.getNumValueSites, InstrProfRecord.getValueSitesForKind, if_true,
      Option.map_some', Nat.mod_eq_of_lt hR]
  have hnS : Src.getNumValueSites IPVK_IndirectCallTarget =
      some Src.IndirectCallSites.length := by
    simp only [InstrProfRecord.getNumValueSites, InstrProfRecord.getValueSitesForKind, if_true,
      Option.map_some', Nat.mod_eq_of_lt hS]
  have hmis : R.IndirectCallSites.length ≠ Src.IndirectCallSites.length →
      R.mergeValueProfData Src IPVK_IndirectCallTarget =
        some (instrprof_error.value_site_count_mismatch, R, Src) := by
    intro hne
    exact mergeValueProfData_mismatch R Src
      (by rw [Nat.mod_eq_of_lt hR, Nat.mod_eq_of_lt hS]; exact hne)
  have hsucc : R.IndirectCallSites.length = Src.IndirectCallSites.length →
      ∃ R1 S1, R.mergeValueProfData Src IPVK_IndirectCallTarget =
          some (instrprof_error.success, R1, S1) ∧
        R1.getNumValueSites IPVK_IndirectCallTarget =
          R.getNumValueSites IPVK_IndirectCallTarget ∧
        R1.IndirectCallSites.length = R.IndirectCallSites.length ∧
        (R1.Name = R.Name ∧ R1.Hash = R.Hash ∧ R1.Counts = R.Counts) ∧
        (∀ (I : Nat) (A B : InstrProfValueSiteRecord),
          R.IndirectCallSites[I]? = some A → Src.IndirectCallSites[I]? = some B →
          R1.IndirectCallSites[I]? = some (A.mergeValueData B).1 ∧
          S1.IndirectCallSites[I]? = some (A.mergeValueData B).2) := by
    intro he
    obtain ⟨T, S, hrun, hlT, hlS, hin, _⟩ := mergeValueProfData_success R Src
      (by rw [he])
    refine ⟨_, _, hrun, ?_, hlT, ⟨rfl, rfl, rfl⟩, ?_⟩
    · simp only [InstrProfRecord.getNumValueSites, InstrProfRecord.getValueSitesForKind,
        if_true, Option.map_some', hlT]
    · intro I A B hA hB
      have hI : I < R.IndirectCallSites.length := (List.getElem?_eq_some.mp hA).1
      exact hin I (by rw [Nat.mod_eq_of_lt hR]; exact hI) A B hA hB
  refine ⟨?_, ⟨hnR, hnS⟩, hmis, hsucc⟩
  rw [hnR, hnS]
  constructor
  · intro h hlen
    obtain ⟨R1, S1, hrun, _⟩ := hsucc (Option.some.inj hlen)
    rw [hrun] at h
    cases h
  · intro hne
    rw [hmis (fun e => hne (by rw [e]))]
    rfl

/-- Two records with two value sites each are merged site by site; a record with two
sites and a record with one site are a mismatch. -/
theorem mergeValueProfData_spec_witness :
    twoSiteRecord.IndirectCallSites.length < 2 ^ 32 ∧
    oneSiteRecord.IndirectCallSites.length < 2 ^ 32 ∧
    twoSiteRecord.mergeValueProfData oneSiteRecord IPVK_IndirectCallTarget =
      some (instrprof_error.value_site_count_mismatch, twoSiteRecord, oneSiteRecord) ∧
    twoSiteRecord.mergeValueProfData twoSiteSource IPVK_IndirectCallTarget =
      some (instrprof_error.success,
        { IndirectCallSites := [{ ValueData := [⟨3, 1⟩, ⟨5, 3⟩, ⟨7, 4⟩] },
            { ValueData := [⟨9, 9⟩] }] },
        { IndirectCallSites := [{ ValueData := [⟨5, 1⟩, ⟨7, 4⟩] }, { ValueData := [] }] }) :=
  ⟨by decide, by decide,
    (mergeValueProfData_spec twoSiteRecord oneSiteRecord (by decide) (by decide)).2.2.1
      (by decide),
    by decide⟩

/-! ## Equality and hash of expressions -/

/-- C21: `isEqual(a, b)` holds if and only if `a` and `b` have the same operation kind,
equal left counters and equal right counters (by `operator==` of `Counter`); it is
reflexive, symmetric and transitive; and `isEqual(a, b)` implies
`getHashValue(a) = getHashValue(b)`, whatever function `hash_combine` is. -/
theorem expression_equality_hash
    (hash_combine : ExprKind → CounterKind → Nat → CounterKind → Nat → Nat)
    (a b c : CounterExpression) :
    (isEqual a b = true ↔
      a.Kind = b.Kind ∧ Counter.operatorEq a.LHS b.LHS = true ∧
        Counter.operatorEq a.RHS b.RHS = true) ∧
    (isEqual a b = true ↔ a.Kind = b.Kind ∧ a.LHS = b.LHS ∧ a.RHS = b.RHS) ∧
    isEqual a a = true ∧
    (isEqual a b = true → isEqual b a = true) ∧
    (isEqual a b = true → isEqual b c = true → isEqual a c = true) ∧
    (isEqual a b = true → getHashValue hash_combine a = getHashValue hash_combine b) := by
  have hiff : isEqual a b = true ↔ a.Kind = b.Kind ∧ a.LHS = b.LHS ∧ a.RHS = b.RHS := by
    rw [isEqual_iff]
    constructor
    · rintro rfl
      exact ⟨rfl, rfl, rfl⟩
    · rintro ⟨h1, h2, h3⟩
      cases a; cases b
      simp only [CounterExpression.mk.injEq]
      exact ⟨h1, h2, h3⟩
  refine ⟨?_, hiff, (isEqual_iff a a).mpr rfl, ?_, ?_, ?_⟩
  · rw [hiff, operatorEq_iff, operatorEq_iff]
  · intro h
    exact (isEqual_iff b a).mpr ((isEqual_iff a b).mp h).symm
  · intro h1 h2
    exact (isEqual_iff a c).mpr (((isEqual_iff a b).mp h1).trans ((isEqual_iff b c).mp h2))
  · intro h
    rw [(isEqual_iff a b).mp h]

/-! ## The interning invariant of the builder -/

theorem interned_empty : CounterExpressionBuilder.Interned {} := by
  refine ⟨?_, ?_, List.Pairwise.nil⟩
  · intro p hp; cases hp
  · intro E hE; cases hE

theorem findIndex_cons (E K : CounterExpression) (I : Nat)
    (T : List (CounterExpression × Nat)) :
    findIndex E ((K, I) :: T) = if isEqual K E then some I else findIndex E T := rfl

theorem get_interned (B : CounterExpressionBuilder) (E : CounterExpression)
    (h : B.Interned) :
    (B.get E).2.Interned ∧ (B.get E).1.ID < (B.get E).2.Expressions.length := by
  obtain ⟨h1, h2, h3⟩ := h
  unfold CounterExpressionBuilder.get
  cases hf : findIndex E B.ExpressionIndices with
  | some I =>
    refine ⟨⟨h1, h2, h3⟩, ?_⟩
    have hs := h1 (E, I) (findIndex_mem E _ I hf)
    exact (List.getElem?_eq_some.mp hs).1
  | none =>
    have hnot : E ∉ B.Expressions := by
      intro hE
      obtain ⟨I, hI⟩ := h2 E hE
      rw [hf] at hI
      cases hI
    refine ⟨⟨?_, ?_, ?_⟩, ?_⟩
    · intro p hp
      rcases List.mem_cons.mp hp with rfl | hp
      · exact List.getElem?_concat_length _ _
      · have hs := h1 p hp
        have hlt : p.2 < B.Expressions.length := (List.getElem?_eq_some.mp hs).1
        show (B.Expressions ++ [E])[p.2]? = some p.1
        rw [List.getElem?_append_left hlt]
        exact hs
    · intro E2 hE2
      show ∃ I, findIndex E2 ((E, B.Expressions.length) :: B.ExpressionIndices) = some I
      rw [findIndex_cons]
      by_cases hk : isEqual E E2 = true
      · rw [if_pos hk]
        exact ⟨_, rfl⟩
      · rw [if_neg hk]
        rcases List.mem_append.mp hE2 with hE2 | hE2
        · exact h2 E2 hE2
        · rw [List.mem_singleton.mp hE2] at hk
          exact absurd ((isEqual_iff E E).mpr rfl) hk
    · show (B.Expressions ++ [E]).Pairwise (fun E1 E2 => isEqual E1 E2 = false)
      rw [List.pairwise_append]
      refine ⟨h3, List.pairwise_singleton _ _, ?_⟩
      intro X hX Y hY
      rw [List.mem_singleton.mp hY]
      cases hk : isEqual X E with
      | false => rfl
      | true =>
        rw [(isEqual_iff X E).mp hk] at hX
        exact absurd hX hnot
    · show B.Expressions.length < (B.Expressions ++ [E]).length
      rw [List.length_append, List.length_singleton]
      omega

/-- A construction state whose builder is interned and whose counter, as an expression
reference, names a stored expression. -/
theorem interned_addUnit (CounterID : Nat) (S : Counter × CounterExpressionBuilder)
    (h : S.2.Interned ∧ S.1.validBelow S.2.Expressions.length) :
    (addUnit CounterID S).2.Interned ∧
      (addUnit CounterID S).1.validBelow (addUnit CounterID S).2.Expressions.length := by
  unfold addUnit
  by_cases hz : S.1.isZero = true
  · rw [if_pos hz]
    exact ⟨h.1, validBelow_getCounter _ _⟩
  · rw [if_neg hz]
    exact ⟨(get_interned S.2 _ h.1).1, fun _ => (get_interned S.2 _ h.1).2⟩

theorem interned_subtractUnit (CounterID : Nat) (S : Counter × CounterExpressionBuilder)
    (h : S.2.Interned ∧ S.1.validBelow S.2.Expressions.length) :
    (subtractUnit CounterID S).2.Interned ∧
      (subtractUnit CounterID S).1.validBelow
        (subtractUnit CounterID S).2.Expressions.length := by
  unfold subtractUnit
  exact ⟨(get_interned S.2 _ h.1).1, fun _ => (get_interned S.2 _ h.1).2⟩

theorem preserved_iterate (P : Counter × CounterExpressionBuilder → Prop)
    (f : Counter × CounterExpressionBuilder → Counter × CounterExpressionBuilder)
    (hf : ∀ S, P S → P (f S)) (N : Nat) : ∀ S, P S → P (iterate f N S) := by
  induction N with
  | zero => intro S h; exact h
  | succ n ih => intro S h; exact ih (f S) (hf S h)

theorem preserved_createAdditions (P : Counter × CounterExpressionBuilder → Prop)
    (hf : ∀ CounterID S, P S → P (addUnit CounterID S)) (Terms : List Term) :
    ∀ S, P S → P (createAdditions Terms S) := by
  induction Terms with
  | nil => intro S h; exact h
  | cons T rest ih =>
    intro S h
    unfold createAdditions
    by_cases hp : 0 < T.Factor
    · rw [if_pos hp]
      exact ih _ (preserved_iterate P _ (hf T.CounterID) _ S h)
    · rw [if_neg hp]
      exact ih S h

theorem preserved_createSubtractions (P : Counter × CounterExpressionBuilder → Prop)
    (hf : ∀ CounterID S, P S → P (subtractUnit CounterID S)) (Terms : List Term) :
    ∀ S, P S → P (createSubtractions Terms S) := by
  induction Terms with
  | nil => intro S h; exact h
  | cons T rest ih =>
    intro S h
    unfold createSubtractions
    by_cases hp : T.Factor < 0
    · rw [if_pos hp]
      exact ih _ (preserved_iterate P _ (hf T.CounterID) _ S h)
    · rw [if_neg hp]
      exact ih S h

theorem interned_buildTree (Terms : List Term) (B : CounterExpressionBuilder)
    (h : B.Interned) :
    (buildTree Terms B).2.Interned ∧
      (buildTree Terms B).1.validBelow (buildTree Terms B).2.Expressions.length :=
  preserved_createSubtractions
    (fun S => S.2.Interned ∧ S.1.validBelow S.2.Expressions.length) interned_subtractUnit Terms _
    (preserved_createAdditions
      (fun S => S.2.Interned ∧ S.1.validBelow S.2.Expressions.length) interned_addUnit Terms _
      ⟨h, validBelow_getZero _⟩)

theorem interned_simplifyTree (B B1 : CounterExpressionBuilder) (E : CounterExpression)
    (C : Counter) (h : B.Interned) (hs : B.simplifyTree E = some (C, B1)) :
    B1.Interned ∧ C.validBelow B1.Expressions.length ∧
      B.Expressions.length ≤ B1.Expressions.length := by
  unfold CounterExpressionBuilder.simplifyTree at hs
  cases ht : B.termsOfTree E with
  | none => rw [ht] at hs; cases hs
  | some Terms =>
    rw [ht] at hs
    simp only [Option.some.injEq] at hs
    have hb := interned_buildTree (normalizeTerms Terms) B h
    have hlen := extends_length (buildTree_extends (normalizeTerms Terms) B)
    rw [hs] at hb hlen
    exact ⟨hb.1, hb.2, hlen⟩

theorem calls_interned (B : CounterExpressionBuilder) (Returned : List Counter)
    (h : B.Calls Returned) :
    B.Interned ∧ ∀ C ∈ Returned, C.validBelow B.Expressions.length := by
  induction h with
  | empty => exact ⟨interned_empty, fun C hC => by cases hC⟩
  | add B B1 L R C Returned _ hcall ih =>
    obtain ⟨h1, h2, h3⟩ := interned_simplifyTree B B1 _ C ih.1 hcall
    refine ⟨h1, ?_⟩
    intro X hX
    rcases List.mem_cons.mp hX with rfl | hX
    · exact h2
    · exact fun hk => Nat.lt_of_lt_of_le (ih.2 X hX hk) h3
  | subtract B B1 L R C Returned _ hcall ih =>
    obtain ⟨h1, h2, h3⟩ := interned_simplifyTree B B1 _ C ih.1 hcall
    refine ⟨h1, ?_⟩
    intro X hX
    rcases List.mem_cons.mp hX with rfl | hX
    · exact h2
    · exact fun hk => Nat.lt_of_lt_of_le (ih.2 X hX hk) h3

/-- C22: after any sequence of calls of `add` and `subtract` on an initially empty
builder, `getExpressions()` holds no two structurally equal expressions, every stored
expression is found in the lookup table at its own position, and every expression
reference returned by one of the calls has an id smaller than the length of
`getExpressions()`. -/
theorem interning_invariant (B : CounterExpressionBuilder) (Returned : List Counter)
    (h : B.Calls Returned) :
    B.getExpressions.Pairwise (fun E1 E2 => isEqual E1 E2 = false) ∧
    (∀ (I : Nat) (E : CounterExpression), B.getExpressions[I]? = some E →
      findIndex E B.ExpressionIndices = some I) ∧
    (∀ C ∈ Returned, C.isExpression = true →
      C.getExpressionID < B.getExpressions.length) := by
  obtain ⟨⟨h1, h2, h3⟩, h4⟩ := calls_interned B Returned h
  refine ⟨h3, ?_, ?_⟩
  · intro I E hE
    obtain ⟨J, hJ⟩ := h2 E (List.mem_iff_getElem?.mpr ⟨I, hE⟩)
    have hs : B.Expressions[J]? = some E := h1 (E, J) (findIndex_mem E _ J hJ)
    have hE2 : B.Expressions[I]? = some E := hE
    have hIJ : I = J := by
      by_contra hne
      obtain ⟨hI, eI⟩ := List.getElem?_eq_some.mp hE2
      obtain ⟨hJ2, eJ⟩ := List.getElem?_eq_some.mp hs
      have hpw := List.pairwise_iff_getElem.mp h3
      rcases Nat.lt_or_gt_of_ne hne with hlt | hgt
      · have := hpw I J hI hJ2 hlt
        rw [eI, eJ, (isEqual_iff E E).mpr rfl] at this
        cases this
      · have := hpw J I hJ2 hI hgt
        rw [eI, eJ, (isEqual_iff E E).mpr rfl] at this
        cases this
    rw [hIJ]
    exact hJ
  · intro C hC hk
    exact h4 C hC (by simpa [Counter.isExpression] using hk)

theorem exampleBuilder_calls :
    exampleBuilder.Calls [Counter.getExpression 1, Counter.getExpression 0] :=
  CounterExpressionBuilder.Calls.add _ exampleBuilder (Counter.getExpression 0)
    (Counter.getCounter 2) (Counter.getExpression 1) [Counter.getExpression 0]
    (CounterExpressionBuilder.Calls.add {} _ (Counter.getCounter 1) (Counter.getCounter 0)
      (Counter.getExpression 0) [] CounterExpressionBuilder.Calls.empty exampleBuilder_first)
    exampleBuilder_eq

/-- The state after the calls `add(getCounter(1), getCounter(0))` and
`add(getExpression(0), getCounter(2))` on the empty builder: its two expressions
differ, and the returned references 0 and 1 are below their number. -/
theorem interning_invariant_witness :
    exampleBuilder.Calls [Counter.getExpression 1, Counter.getExpression 0] ∧
    exampleBuilder.getExpressions.Pairwise (fun E1 E2 => isEqual E1 E2 = false) ∧
    (Counter.getExpression 1).getExpressionID < exampleBuilder.getExpressions.length :=
  ⟨exampleBuilder_calls,
    (interning_invariant exampleBuilder _ exampleBuilder_calls).1,
    (interning_invariant exampleBuilder _ exampleBuilder_calls).2.2
      (Counter.getExpression 1) (List.mem_cons_self _ _) rfl⟩

/-! ## Adding value data and remapping values -/

theorem remapValues_none (ValueKind : Nat) (VData : List InstrProfValueData) :
    InstrProfRecord.remapValues ValueKind none VData.length VData = some VData := by
  induction VData with
  | nil => rfl
  | cons D Rest ih =>
    simp only [List.length_cons, InstrProfRecord.remapValues, InstrProfRecord.remapValue, ih]

/-- The call of `addValueData` without a table of keys appends a new site that holds the
entries of `VData`, in order, behind the sites that the record has, whatever `Site` is. -/
theorem addValueData_eq (R : InstrProfRecord) (Site : Nat)
    (VData : List InstrProfValueData) :
    R.addValueData IPVK_IndirectCallTarget Site VData VData.length none =
      some { R with IndirectCallSites := R.IndirectCallSites ++ [{ ValueData := VData }] } := by
  simp only [InstrProfRecord.addValueData, remapValues_none,
    InstrProfRecord.getValueSitesForKind, if_true]
  by_cases hN : VData.length = 0
  · rw [if_pos hN, List.length_eq_zero.mp hN]
  · rw [if_neg hN]

/-- C25, the claim as stated fails when `Site` is not the number of sites the record
has. In a record that has one site already, which holds no data, the call for
`Site = 0` with `N = 1` entry leaves site 0 without data: `getNumValueDataForSite` is
0 there, not 1, and the entry is at site 1. -/
theorem addValueData_appends_counterexample :
    oneSiteRecord.addValueData IPVK_IndirectCallTarget 0 [⟨1, 1⟩] 1 none =
      some { IndirectCallSites := [{ ValueData := [] }, { ValueData := [⟨1, 1⟩] }] } ∧
    (oneSiteRecord.addValueData IPVK_IndirectCallTarget 0 [⟨1, 1⟩] 1 none).bind
      (fun R1 => R1.getNumValueDataForSite IPVK_IndirectCallTarget 0) = some 0 ∧
    (oneSiteRecord.addValueData IPVK_IndirectCallTarget 0 [⟨1, 1⟩] 1 none).bind
      (fun R1 => R1.getNumValueDataForSite IPVK_IndirectCallTarget 0) ≠ some 1 ∧
    (oneSiteRecord.addValueData IPVK_IndirectCallTarget 0 [⟨1, 1⟩] 1 none).bind
      (fun R1 => R1.IndirectCallSites[0]?) ≠ some { ValueData := [⟨1, 1⟩] } := by
  decide

/-- C25, as amended: for every record and every `Site` that equals the number of value
sites the record has before the call, `addValueData` without a table of keys, for the
`N` entries of `VData` (`N` is a `uint32_t`, so below 2^32), returns a record in which
`getNumValueDataForSite(ValueKind, Site)` is `N` and the data at site `Site` are the
entries of `VData` in order; the sites before `Site` are as they were. -/
theorem addValueData_appends (R : InstrProfRecord) (Site : Nat)
    (VData : List InstrProfValueData)
    (hSite : Site = R.IndirectCallSites.length) (hN : VData.length < 2 ^ 32) :
    ∃ R1, R.addValueData IPVK_IndirectCallTarget Site VData VData.length none = some R1 ∧
      R1.getNumValueDataForSite IPVK_IndirectCallTarget Site = some VData.length ∧
      R1.IndirectCallSites[Site]? = some { ValueData := VData } ∧
      ∀ I, I < Site → R1.IndirectCallSites[I]? = R.IndirectCallSites[I]? := by
  refine ⟨_, addValueData_eq R Site VData, ?_, ?_, ?_⟩
  · subst hSite
    simp only [InstrProfRecord.getNumValueDataForSite, InstrProfRecord.getValueSitesForKind,
      if_true, List.getElem?_concat_length, Option.map_some', Nat.mod_eq_of_lt hN]
  · subst hSite
    simp only [List.getElem?_concat_length]
  · intro I hI
    subst hSite
    exact List.getElem?_append_left hI

/-- C25 at a concrete input: the record with one site, `Site = 1`, one entry. -/
theorem addValueData_appends_witness :
    (1 : Nat) = oneSiteRecord.IndirectCallSites.length ∧
    ([⟨1, 1⟩] : List InstrProfValueData).length < 2 ^ 32 ∧
    ∃ R1, oneSiteRecord.addValueData IPVK_IndirectCallTarget 1 [⟨1, 1⟩]
        ([⟨1, 1⟩] : List InstrProfValueData).length none = some R1 ∧
      R1.getNumValueDataForSite IPVK_IndirectCallTarget 1 =
        some ([⟨1, 1⟩] : List InstrProfValueData).length ∧
      R1.IndirectCallSites[1]? = some { ValueData := [⟨1, 1⟩] } ∧
      ∀ I, I < 1 → R1.IndirectCallSites[I]? = oneSiteRecord.IndirectCallSites[I]? :=
  ⟨by decide, by decide,
    addValueData_appends oneSiteRecord 1 [⟨1, 1⟩] (by decide) (by decide)⟩

theorem lowerBound_none (Value : Nat) (Keys : ValueMapType) :
    lowerBound Value Keys = none ↔ ∀ P ∈ Keys, P.1 < Value := by
  induction Keys with
  | nil => simp [lowerBound]
  | cons P Rest ih =>
    simp only [lowerBound]
    by_cases h : P.1 < Value
    · rw [if_pos h, ih]
      simp [h]
    · rw [if_neg h]
      simp [h]

theorem lowerBound_some (Value : Nat) (Keys : ValueMapType) (Result : Nat × Nat)
    (h : lowerBound Value Keys = some Result) : Result ∈ Keys ∧ Value ≤ Result.1 := by
  induction Keys with
  | nil => simp [lowerBound] at h
  | cons P Rest ih =>
    simp only [lowerBound] at h
    by_cases hlt : P.1 < Value
    · rw [if_pos hlt] at h
      exact ⟨List.mem_cons_of_mem _ (ih h).1, (ih h).2⟩
    · rw [if_neg hlt] at h
      simp only [Option.some.injEq] at h
      rw [← h]
      exact ⟨List.mem_cons_self _ _, by omega⟩

/-- C30: with a table of keys and the kind `IPVK_IndirectCallTarget`, the assertion of
`remapValue` fails if and only if every key is less than `Value`; when it passes, the
result is the address stored with a key that is not less than `Value`. With the table
that maps the key 10 to the address 4096, the value 5 is equal to no key, the assertion
passes and 4096 is returned. -/
theorem remapValue_lower_bound (Value : Nat) (Keys : ValueMapType) :
    (InstrProfRecord.remapValue Value IPVK_IndirectCallTarget (some Keys) = none ↔
      ∀ P ∈ Keys, P.1 < Value) ∧
    (∀ X : Nat, InstrProfRecord.remapValue Value IPVK_IndirectCallTarget (some Keys) = some X →
      ∃ P ∈ Keys, Value ≤ P.1 ∧ X = P.2) ∧
    InstrProfRecord.remapValue 5 IPVK_IndirectCallTarget (some [(10, 4096)]) = some 4096 ∧
    (∀ P ∈ [((10 : Nat), (4096 : Nat))], P.1 ≠ 5) ∧
    InstrProfRecord.remapValue 11 IPVK_IndirectCallTarget (some [(10, 4096)]) = none := by
  refine ⟨?_, ?_, by decide, by decide, by decide⟩
  · rw [← lowerBound_none]
    simp only [InstrProfRecord.remapValue, if_true]
    cases lowerBound Value Keys <;> simp
  · intro X hX
    simp only [InstrProfRecord.remapValue, if_true] at hX
    cases hl : lowerBound Value Keys with
    | none => rw [hl] at hX; cases hX
    | some Result =>
      rw [hl] at hX
      simp only [Option.some.injEq] at hX
      obtain ⟨h1, h2⟩ := lowerBound_some Value Keys Result hl
      exact ⟨Result, h1, h2, hX.symm⟩

/-! ## Asking for the name after `hasName` -/

/-- C29, counterexample: for the group without members `hasName` returns true, and
`getName` passes its assertion and reads `Instantiations[0]` outside the member list. -/
theorem hasName_getName_counterexample :
    emptyGroup.hasName = true ∧ emptyGroup.size = 0 ∧
      emptyGroup.Instantiations[0]? = none ∧
      emptyGroup.getName = Except.error NameFailure.OutOfBounds :=
  ⟨by decide, rfl, rfl, rfl⟩

/-- C29, amended: for every group with at least one member, if `hasName` returns true
then `getName` passes its assertion, its access `Instantiations[0]` is within the
member list, and it returns the name of that member. -/
theorem hasName_getName (G : InstantiationGroup) (hne : G.Instantiations ≠ [])
    (h : G.hasName = true) :
    G.getName ≠ Except.error NameFailure.AssertionFailed ∧
    0 < G.size ∧
    ∃ F, G.Instantiations[0]? = some F ∧ G.getName = Except.ok F.Name := by
  obtain ⟨First, Rest, hcons⟩ := List.exists_cons_of_ne_nil hne
  have h0 : G.Instantiations[0]? = some First := by rw [hcons]; simp
  have hget : G.getName = Except.ok First.Name := by
    unfold InstantiationGroup.getName
    rw [if_pos h, h0]
  refine ⟨?_, ?_, First, h0, hget⟩
  · rw [hget]
    intro hc
    cases hc
  · unfold InstantiationGroup.size
    rw [hcons]
    exact Nat.succ_pos _

/-- The two instantiations named `f` have a name, and `getName` returns it. -/
theorem hasName_getName_witness :
    sharedPointGroup.Instantiations ≠ [] ∧ sharedPointGroup.hasName = true ∧
    0 < sharedPointGroup.size ∧
    ∃ F, sharedPointGroup.Instantiations[0]? = some F ∧
      sharedPointGroup.getName = Except.ok F.Name :=
  ⟨by decide, by decide, (hasName_getName sharedPointGroup (by decide) (by decide)).2⟩

/-! ## The reserved keys of the lookup table -/

theorem reserved_iff (E : CounterExpression) :
    (isEqual E getEmptyKey = true ∨ isEqual E getTombstoneKey = true) ↔
      (E.LHS = Counter.getCounter (2 ^ 32 - 1) ∧ E.RHS = Counter.getCounter (2 ^ 32 - 1)) := by
  rw [isEqual_iff, isEqual_iff]
  constructor
  · rintro (h | h) <;> rw [h] <;> exact ⟨rfl, rfl⟩
  · rintro ⟨h1, h2⟩
    cases E with
    | mk Kind LHS RHS =>
      simp only at h1 h2
      rw [h1, h2]
      cases Kind
      · exact Or.inl rfl
      · exact Or.inr rfl

/-- C31: the empty key and the tombstone key are not `isEqual` to each other; an
expression is `isEqual` to the empty key or to the tombstone key if and only if both of
its operands are the counter reference with id 2^32 - 1; hence an expression one of
whose operands is `Zero`, an expression reference, or a counter reference with an id
other than 2^32 - 1, is `isEqual` to neither reserved key. -/
theorem reserved_keys (E : CounterExpression) :
    (isEqual getEmptyKey getTombstoneKey = false ∧
      isEqual getTombstoneKey getEmptyKey = false) ∧
    ((isEqual E getEmptyKey = true ∨ isEqual E getTombstoneKey = true) ↔
      (E.LHS = Counter.getCounter (2 ^ 32 - 1) ∧ E.RHS = Counter.getCounter (2 ^ 32 - 1))) ∧
    ((isEqual getEmptyKey E = true ∨ isEqual getTombstoneKey E = true) ↔
      (E.LHS = Counter.getCounter (2 ^ 32 - 1) ∧ E.RHS = Counter.getCounter (2 ^ 32 - 1))) ∧
    ((E.LHS.isZero = true ∨ E.LHS.isExpression = true ∨ E.LHS.getCounterID ≠ 2 ^ 32 - 1 ∨
        E.RHS.isZero = true ∨ E.RHS.isExpression = true ∨ E.RHS.getCounterID ≠ 2 ^ 32 - 1) →
      isEqual E getEmptyKey = false ∧ isEqual E getTombstoneKey = false) ∧
    (isEqual (CounterExpression.mk ExprKind.Add (Counter.getCounter (2 ^ 32 - 2))
        (Counter.getCounter (2 ^ 32 - 1))) getTombstoneKey = false ∧
      isEqual (CounterExpression.mk ExprKind.Subtract (Counter.getCounter (2 ^ 32 - 1))
        (Counter.getCounter (2 ^ 32 - 1))) getEmptyKey = true) := by
  have hsymm : ∀ A B : CounterExpression, isEqual A B = isEqual B A := by
    intro A B
    cases h : isEqual B A with
    | true => exact (isEqual_iff A B).mpr ((isEqual_iff B A).mp h).symm
    | false =>
      cases h2 : isEqual A B with
      | false => rfl
      | true =>
        rw [(isEqual_iff B A).mpr ((isEqual_iff A B).mp h2).symm] at h
        cases h
  refine ⟨⟨by decide, by decide⟩, reserved_iff E, ?_, ?_, ⟨by decide, by decide⟩⟩
  · rw [hsymm getEmptyKey E, hsymm getTombstoneKey E]
    exact reserved_iff E
  · intro h
    have hnot : ¬ (E.LHS = Counter.getCounter (2 ^ 32 - 1) ∧
        E.RHS = Counter.getCounter (2 ^ 32 - 1)) := by
      rintro ⟨h1, h2⟩
      rw [h1, h2] at h
      revert h
      decide
    have hno := (reserved_iff E).not.mpr hnot
    cases h1 : isEqual E getEmptyKey with
    | true => exact absurd (Or.inl h1) hno
    | false =>
      cases h2 : isEqual E getTombstoneKey with
      | true => exact absurd (Or.inr h2) hno
      | false => exact ⟨rfl, rfl⟩

end Coverage
